import Mathlib

/-!
Verification of the graph-to-source-code compiler of the tlang playground
(`transformer.ts`): identifier sanitization, cycle detection, topological
sorting, connected-component decomposition, code emission and the structural
validator.  JavaScript data is shallowly embedded: objects become structures,
`Map`/`Set` become association lists, finsets or functions with the same
lookup semantics (last-write-wins for `Map.set`, insertion order for `Set`),
JS numbers used by the compiler become `Int`, and the unbounded recursion or
`while` loops of the source become fuel-indexed recursion with fuel provably
larger than the number of iterations the source can perform.
-/

namespace Tlang

/-- A port definition from the node registry: `{ id, label, type, required }`.
The port type tag is one of the strings `number`, `string`, `object`, `array`,
`boolean`, `function`, `any`. -/
structure PortDefinition where
  id : String
  label : String
  type : String
  required : Bool
deriving DecidableEq, Repr

/-- A JSON-like literal value, the type of user-supplied initial input values
(`node.data.inputs` entries).  JS numbers occurring in the compiler are
modelled as integers. -/
inductive JSValue where
  | str (s : String)
  | num (n : Int)
  | bool (b : Bool)
  | null
  | obj (fields : List (String × JSValue))
  | arr (elems : List JSValue)

/-- Metadata record of a node's operation (`TLangNodeMetadata`), restricted to
the fields the compiler reads: `category`, `inputs`, `outputs`, `tlangType`. -/
structure NodeMetadata where
  category : String
  inputs : List PortDefinition
  outputs : List PortDefinition
  tlangType : String
deriving Repr

/-- `CustomNodeData`: metadata, display label, and the optional record of
user-provided literal input values.  The optional JS object is modelled as a
(possibly empty) association list with unique keys in insertion order; an
absent record and an empty record are indistinguishable to the compiler. -/
structure NodeData where
  metadata : NodeMetadata
  label : String
  inputs : List (String × JSValue)

/-- A ReactFlow graph node as the compiler sees it: an id and its data. -/
structure GraphNode where
  id : String
  data : NodeData

/-- A ReactFlow graph edge: source/target node ids and optional handle
(port) names. -/
structure GraphEdge where
  id : String
  source : String
  target : String
  sourceHandle : Option String
  targetHandle : Option String
deriving DecidableEq, Repr

/-- JS `x || 'default'` on an optional string: `null`/`undefined` and the
empty string are falsy. -/
def handleOr (o : Option String) (d : String) : String :=
  match o with
  | none => d
  | some s => if s = "" then d else s

/-- The source port name of an edge: `edge.sourceHandle || 'out'`. -/
def edgeSourcePort (e : GraphEdge) : String := handleOr e.sourceHandle "out"

/-- The target port name of an edge: `edge.targetHandle || 'in'`. -/
def edgeTargetPort (e : GraphEdge) : String := handleOr e.targetHandle "in"

/-- JS object property lookup `record[key]` on an association list whose keys
are unique: the first matching entry. -/
def jsLookup (l : List (String × JSValue)) (k : String) : Option JSValue :=
  (l.find? (fun p => p.1 == k)).map (·.2)

/-- The list of node ids, in node-array order. -/
def nodeIds (nodes : List GraphNode) : List String := nodes.map (·.id)

/-- `new Map(nodes.map(n => [n.id, n])).get i`: the `Map` constructor lets a
later entry overwrite an earlier one, so the lookup returns the last node
with the given id. -/
def nodeMapGet (nodes : List GraphNode) (i : String) : Option GraphNode :=
  nodes.reverse.find? (fun n => n.id == i)

/-- `findEntryNodes`: nodes whose id does not appear as any edge's target. -/
def findEntryNodes (nodes : List GraphNode) (edges : List GraphEdge) : List GraphNode :=
  nodes.filter (fun node => !(edges.any (fun edge => edge.target == node.id)))

/-! ## Identifier sanitizer (`generateNodeVarName`) -/

/-- ASCII letter test, the character class `[a-zA-Z]` of the source's regexes. -/
def isAsciiLetter (c : Char) : Bool :=
  ('a' ≤ c && c ≤ 'z') || ('A' ≤ c && c ≤ 'Z')

/-- ASCII digit test, the character class `[0-9]`. -/
def isAsciiDigit (c : Char) : Bool := '0' ≤ c && c ≤ '9'

/-- The character class `[a-zA-Z0-9]`. -/
def isAsciiAlphanum (c : Char) : Bool := isAsciiLetter c || isAsciiDigit c

/-- One step of `replace(/[^a-zA-Z0-9]/g, '_')`. -/
def sanitizeChar (c : Char) : Char := if isAsciiAlphanum c then c else '_'

/-- `replace(/_+/g, '_')` as a scan that remembers whether the previous kept
character of the current run was an underscore. -/
def mergeGo : Bool → List Char → List Char
  | _, [] => []
  | true, c :: rest =>
    if c = '_' then mergeGo true rest else c :: mergeGo false rest
  | false, c :: rest =>
    if c = '_' then '_' :: mergeGo true rest else c :: mergeGo false rest

/-- Merge runs of consecutive underscores into one underscore. -/
def mergeUnderscoreRuns (l : List Char) : List Char := mergeGo false l

/-- `replace(/_+$/, '')`: strip trailing underscores. -/
def stripTrailingUnderscores (l : List Char) : List Char :=
  (l.reverse.dropWhile (fun c => c = '_')).reverse

/-- `if (/^[0-9]/.test(varName)) varName = '_' + varName`: the regex tests
the first character; on the empty string it does not match ('_' is not a
digit, so the default is inert). -/
def prefixUnderscoreIfDigit (l : List Char) : List Char :=
  if isAsciiDigit (l.headD '_') then '_' :: l else l

/-- The four rewriting steps of `generateNodeVarName` in source order:
replace invalid characters, merge underscore runs, guard a leading digit,
strip trailing underscores. -/
def sanitizePipeline (l : List Char) : List Char :=
  stripTrailingUnderscores (prefixUnderscoreIfDigit (mergeUnderscoreRuns (l.map sanitizeChar)))

/-- `generateNodeVarName`: sanitize an arbitrary node id into a valid
TypeScript identifier.  `!nodeId || nodeId.trim().length === 0` holds exactly
when every character is whitespace (vacuously for the empty string). -/
def generateNodeVarName (nodeId : String) : String :=
  if nodeId.toList.all Char.isWhitespace then "_empty_node"
  else
    let l4 := sanitizePipeline nodeId.toList
    if l4.isEmpty then "_node" else String.mk l4

/-- A character matched by `[A-Za-z0-9_]`. -/
def isValidIdentChar (c : Char) : Bool := isAsciiAlphanum c || c = '_'

/-- The regex `^[A-Za-z_][A-Za-z0-9_]*$` of the specification. -/
def isValidIdent (s : String) : Bool :=
  match s.toList with
  | [] => false
  | c :: rest => (isAsciiLetter c || c = '_') && rest.all isValidIdentChar

/-! ### Sanitizer lemmas -/

/-- No two consecutive underscores. -/
def noDoubleUnderscore : List Char → Bool
  | c :: d :: rest => !(c = '_' && d = '_') && noDoubleUnderscore (d :: rest)
  | _ => true

theorem noDouble_tail {a : Char} {tl : List Char}
    (h : noDoubleUnderscore (a :: tl) = true) : noDoubleUnderscore tl = true := by
  cases tl with
  | nil => simp [noDoubleUnderscore]
  | cons b rest =>
    simp only [noDoubleUnderscore, Bool.and_eq_true] at h
    exact h.2

theorem mergeGo_chars {l : List Char} {prev : Bool} {c : Char}
    (h : c ∈ mergeGo prev l) : c ∈ l ∨ c = '_' := by
  induction l generalizing prev with
  | nil => cases prev <;> simp [mergeGo] at h
  | cons a rest ih =>
    have step : c ∈ mergeGo prev (a :: rest) →
        (c = a ∨ c = '_' ∨ c ∈ mergeGo true rest ∨ c ∈ mergeGo false rest) := by
      cases prev <;> (simp only [mergeGo]; by_cases ha : a = '_' <;> simp [ha] <;> tauto)
    rcases step h with h' | h' | h' | h'
    · exact Or.inl (h' ▸ List.mem_cons_self a rest)
    · exact Or.inr h'
    · rcases ih h' with h'' | h''
      · exact Or.inl (List.mem_cons_of_mem _ h'')
      · exact Or.inr h''
    · rcases ih h' with h'' | h''
      · exact Or.inl (List.mem_cons_of_mem _ h'')
      · exact Or.inr h''

theorem mergeGo_head_ne {l : List Char} {c : Char} {rest : List Char}
    (h : mergeGo true l = c :: rest) : c ≠ '_' := by
  induction l generalizing c rest with
  | nil => simp [mergeGo] at h
  | cons a tl ih =>
    simp only [mergeGo] at h
    by_cases ha : a = '_'
    · rw [if_pos ha] at h
      exact ih h
    · rw [if_neg ha] at h
      cases h
      exact ha

theorem mergeGo_noDouble (l : List Char) (prev : Bool) :
    noDoubleUnderscore (mergeGo prev l) = true := by
  induction l generalizing prev with
  | nil => cases prev <;> simp [mergeGo, noDoubleUnderscore]
  | cons a tl ih =>
    cases prev with
    | true =>
      simp only [mergeGo]
      by_cases ha : a = '_'
      · rw [if_pos ha]
        exact ih true
      · rw [if_neg ha]
        cases hm : mergeGo false tl with
        | nil => simp [noDoubleUnderscore]
        | cons c rest =>
          have := ih false
          rw [hm] at this
          simp [noDoubleUnderscore, ha, this]
    | false =>
      simp only [mergeGo]
      by_cases ha : a = '_'
      · rw [if_pos ha]
        cases hm : mergeGo true tl with
        | nil => simp [noDoubleUnderscore]
        | cons c rest =>
          have hc : c ≠ '_' := mergeGo_head_ne hm
          have := ih true
          rw [hm] at this
          simp [noDoubleUnderscore, hc, this]
      · rw [if_neg ha]
        cases hm : mergeGo false tl with
        | nil => simp [noDoubleUnderscore]
        | cons c rest =>
          have := ih false
          rw [hm] at this
          simp [noDoubleUnderscore, ha, this]

theorem mergeGo_false_id {l : List Char} (hnd : noDoubleUnderscore l = true) :
    mergeGo false l = l := by
  induction l with
  | nil => simp [mergeGo]
  | cons a tl ih =>
    simp only [mergeGo]
    by_cases ha : a = '_'
    · rw [if_pos ha, ← ha]
      congr 1
      subst ha
      cases tl with
      | nil => simp [mergeGo]
      | cons b rest =>
        have hb : ¬ b = '_' := by
          intro hb
          subst hb
          simp [noDoubleUnderscore] at hnd
        have htl : noDoubleUnderscore (b :: rest) = true := noDouble_tail hnd
        have := ih htl
        simp only [mergeGo, if_neg hb] at this ⊢
        exact this
    · rw [if_neg ha]
      congr 1
      exact ih (noDouble_tail hnd)

theorem noDouble_append_left {l t : List Char}
    (h : noDoubleUnderscore (l ++ t) = true) : noDoubleUnderscore l = true := by
  induction l with
  | nil => simp [noDoubleUnderscore]
  | cons a tl ih =>
    cases tl with
    | nil => simp [noDoubleUnderscore]
    | cons b rest =>
      simp only [List.cons_append, noDoubleUnderscore, Bool.and_eq_true] at h ⊢
      exact ⟨h.1, ih h.2⟩

theorem stripTrailing_prefix (l : List Char) :
    ∃ t, l = stripTrailingUnderscores l ++ t ∧ ∀ c ∈ t, c = '_' := by
  unfold stripTrailingUnderscores
  obtain ⟨p, hp⟩ : ∃ p, l.reverse = p ++ l.reverse.dropWhile (fun c => c = '_') ∧
      ∀ c ∈ p, c = '_' := by
    refine ⟨l.reverse.takeWhile (fun c => c = '_'), ?_, ?_⟩
    · rw [List.takeWhile_append_dropWhile]
    · intro c hc
      have := List.mem_takeWhile_imp hc
      simpa using this
  refine ⟨p.reverse, ?_, ?_⟩
  · conv_lhs => rw [← l.reverse_reverse, hp.1]
    rw [List.reverse_append]
  · intro c hc
    exact hp.2 c (List.mem_reverse.1 hc)

theorem stripTrailing_getLast {l : List Char} {c : Char}
    (h : (stripTrailingUnderscores l).getLast? = some c) : c ≠ '_' := by
  unfold stripTrailingUnderscores at h
  rw [List.getLast?_reverse] at h
  intro hc
  subst hc
  have := List.head?_dropWhile_not (fun c => c = '_') l.reverse
  rw [h] at this
  simp at this

theorem stripTrailing_id {l : List Char}
    (h : ∀ c, l.getLast? = some c → c ≠ '_') : stripTrailingUnderscores l = l := by
  unfold stripTrailingUnderscores
  cases hl : l.reverse with
  | nil =>
    have : l = [] := by simpa using congrArg List.reverse hl
    simp [this, hl]
  | cons a tl =>
    have ha : a ≠ '_' := by
      apply h
      rw [← List.head?_reverse, hl]
      rfl
    rw [List.dropWhile_cons]
    have hpa : decide (a = '_') = false := by simpa using ha
    rw [hpa]
    simp only [Bool.false_eq_true, if_false]
    rw [← hl, List.reverse_reverse]

theorem sanitizeChar_valid (c : Char) : isValidIdentChar (sanitizeChar c) = true := by
  unfold sanitizeChar isValidIdentChar
  by_cases h : isAsciiAlphanum c
  · simp [h]
  · simp [h]

theorem sanitizeChar_id {c : Char} (h : isValidIdentChar c = true) :
    sanitizeChar c = c := by
  unfold isValidIdentChar at h
  unfold sanitizeChar
  rcases Bool.or_eq_true_iff.1 h with h' | h'
  · simp [h']
  · have : c = '_' := by simpa using h'
    subst this
    rfl

theorem validChar_not_ws {c : Char} (h : isValidIdentChar c = true) :
    Char.isWhitespace c = false := by
  have key : ∀ d : Char, d = ' ' ∨ d = '\t' ∨ d = '\r' ∨ d = '\n' →
      isValidIdentChar d = false := by
    intro d hd
    rcases hd with h1 | h1 | h1 | h1 <;> subst h1 <;> decide
  cases hw : Char.isWhitespace c
  · rfl
  · exfalso
    have hw' := hw
    simp only [Char.isWhitespace, Bool.or_eq_true, decide_eq_true_eq] at hw'
    have : isValidIdentChar c = false := by
      apply key
      tauto
    rw [h] at this
    exact Bool.true_eq_false.mp this

theorem sanitizePipeline_fixed {l : List Char}
    (hvalid : ∀ c ∈ l, isValidIdentChar c = true)
    (hnd : noDoubleUnderscore l = true)
    (hhead : ∀ c tl, l = c :: tl → isAsciiDigit c = false)
    (hlast : ∀ c, l.getLast? = some c → c ≠ '_') :
    sanitizePipeline l = l := by
  unfold sanitizePipeline
  have h1 : l.map sanitizeChar = l := by
    rw [List.map_congr_left (fun c hc => sanitizeChar_id (hvalid c hc))]
    exact List.map_id l
  rw [h1]
  have h2 : mergeUnderscoreRuns l = l := mergeGo_false_id hnd
  rw [h2]
  have h3 : prefixUnderscoreIfDigit l = l := by
    unfold prefixUnderscoreIfDigit
    cases hl : l with
    | nil => rfl
    | cons c tl =>
      rw [List.headD_cons, hhead c tl hl]
      simp
  rw [h3]
  exact stripTrailing_id hlast

theorem sanitizePipeline_shape (l : List Char) :
    (∀ c ∈ sanitizePipeline l, isValidIdentChar c = true) ∧
    noDoubleUnderscore (sanitizePipeline l) = true ∧
    (∀ c tl, sanitizePipeline l = c :: tl → isAsciiDigit c = false) ∧
    (∀ c, (sanitizePipeline l).getLast? = some c → c ≠ '_') := by
  unfold sanitizePipeline
  set l1 := l.map sanitizeChar with hl1
  set l2 := mergeUnderscoreRuns l1 with hl2
  set l3 := prefixUnderscoreIfDigit l2 with hl3
  have hv1 : ∀ c ∈ l1, isValidIdentChar c = true := by
    intro c hc
    rw [hl1] at hc
    rcases List.mem_map.1 hc with ⟨a, _, ha⟩
    rw [← ha]
    exact sanitizeChar_valid a
  have hv2 : ∀ c ∈ l2, isValidIdentChar c = true := by
    intro c hc
    rcases mergeGo_chars hc with h | h
    · exact hv1 c h
    · subst h; decide
  have hnd2 : noDoubleUnderscore l2 = true := mergeGo_noDouble l1 false
  have hv3 : ∀ c ∈ l3, isValidIdentChar c = true := by
    intro c hc
    rw [hl3] at hc
    unfold prefixUnderscoreIfDigit at hc
    by_cases hd : isAsciiDigit (l2.headD '_')
    · rw [if_pos hd] at hc
      rcases List.mem_cons.1 hc with h | h
      · subst h; decide
      · exact hv2 c h
    · rw [if_neg hd] at hc
      exact hv2 c hc
  have hnd3 : noDoubleUnderscore l3 = true := by
    rw [hl3]
    unfold prefixUnderscoreIfDigit
    by_cases hd : isAsciiDigit (l2.headD '_')
    · rw [if_pos hd]
      cases hcase : l2 with
      | nil => simp [noDoubleUnderscore]
      | cons a tl =>
        have ha : ¬ (a = '_') := by
          intro h
          rw [hcase, List.headD_cons, h] at hd
          exact absurd hd (by decide)
        have htl : noDoubleUnderscore (a :: tl) = true := hcase ▸ hnd2
        simp [noDoubleUnderscore, ha, htl]
    · rw [if_neg hd]
      exact hnd2
  have hhd3 : ∀ c tl, l3 = c :: tl → isAsciiDigit c = false := by
    intro c tl hc
    rw [hl3] at hc
    unfold prefixUnderscoreIfDigit at hc
    by_cases hd : isAsciiDigit (l2.headD '_')
    · rw [if_pos hd] at hc
      have : c = '_' := (List.cons_eq_cons.1 hc).1.symm
      subst this; decide
    · rw [if_neg hd] at hc
      have hceq : l2.headD '_' = c := by rw [hc, List.headD_cons]
      rw [hceq] at hd
      exact Bool.not_eq_true _ ▸ (by simpa using hd)
  obtain ⟨t, ht, _⟩ := stripTrailing_prefix l3
  refine ⟨?_, ?_, ?_, ?_⟩
  · intro c hc
    exact hv3 c (ht ▸ List.mem_append_left t hc)
  · exact noDouble_append_left (ht ▸ hnd3)
  · intro c tl hc
    apply hhd3 c (tl ++ t)
    rw [ht, hc, List.cons_append]
  · exact fun c hc => stripTrailing_getLast hc

theorem generateNodeVarName_mk {l : List Char}
    (hvalid : ∀ c ∈ l, isValidIdentChar c = true) (hne : l ≠ []) :
    generateNodeVarName (String.mk l) = if (sanitizePipeline l).isEmpty
      then "_node" else String.mk (sanitizePipeline l) := by
  unfold generateNodeVarName
  have htl : (String.mk l).toList = l := rfl
  rw [htl]
  have hws : l.all Char.isWhitespace = false := by
    cases hl : l with
    | nil => exact absurd hl hne
    | cons c tl =>
      have := validChar_not_ws (hvalid c (hl ▸ List.mem_cons_self c tl))
      simp [List.all_cons, this]
  rw [hws]
  simp

theorem generateNodeVarName_shape (x : String) :
    generateNodeVarName x = "_empty_node" ∨ generateNodeVarName x = "_node" ∨
    (∃ l : List Char, generateNodeVarName x = String.mk l ∧ l ≠ [] ∧
      (∀ c ∈ l, isValidIdentChar c = true) ∧ noDoubleUnderscore l = true ∧
      (∀ c tl, l = c :: tl → isAsciiDigit c = false) ∧
      (∀ c, l.getLast? = some c → c ≠ '_')) := by
  unfold generateNodeVarName
  by_cases hws : x.toList.all Char.isWhitespace
  · rw [if_pos hws]
    exact Or.inl rfl
  · rw [if_neg hws]
    by_cases hempty : (sanitizePipeline x.toList).isEmpty
    · refine Or.inr (Or.inl ?_)
      simp only [hempty, if_true]
    · simp only [hempty, Bool.false_eq_true, if_false]
      obtain ⟨hv, hnd, hhd, hlast⟩ := sanitizePipeline_shape x.toList
      exact Or.inr (Or.inr ⟨sanitizePipeline x.toList, rfl,
        fun h => by rw [h] at hempty; exact hempty rfl, hv, hnd, hhd, hlast⟩)

theorem isValidIdent_of_shape {l : List Char}
    (hvalid : ∀ c ∈ l, isValidIdentChar c = true) (hne : l ≠ [])
    (hhd : ∀ c tl, l = c :: tl → isAsciiDigit c = false) :
    isValidIdent (String.mk l) = true := by
  unfold isValidIdent
  have htl : (String.mk l).toList = l := rfl
  rw [htl]
  cases hl : l with
  | nil => exact absurd hl hne
  | cons c tl =>
    have hc := hvalid c (hl ▸ List.mem_cons_self c tl)
    have hcd := hhd c tl hl
    have hfirst : (isAsciiLetter c || c = '_') = true := by
      unfold isValidIdentChar isAsciiAlphanum at hc
      rcases Bool.or_eq_true_iff.1 hc with h | h
      · rcases Bool.or_eq_true_iff.1 h with h' | h'
        · simp [h']
        · rw [h'] at hcd
          exact absurd hcd (by simp)
      · simp [h]
    show ((isAsciiLetter c || c = '_') && tl.all isValidIdentChar) = true
    rw [hfirst]
    simp only [Bool.true_and]
    exact List.all_eq_true.2 fun c' hc' => hvalid c' (hl ▸ List.mem_cons_of_mem c hc')

/-- C5: the identifier sanitizer `generateNodeVarName` is a total function
over all strings (witnessed by this universally quantified statement over the
total Lean embedding), it is idempotent, and its result always matches
`^[A-Za-z_][A-Za-z0-9_]*$` (the two fixed fallback identifiers
`_empty_node` and `_node` also match this shape). -/
theorem C5_sanitizer_idempotent_and_valid (x : String) :
    generateNodeVarName (generateNodeVarName x) = generateNodeVarName x ∧
    isValidIdent (generateNodeVarName x) = true := by
  rcases generateNodeVarName_shape x with h | h | ⟨l, hl, hne, hv, hnd, hhd, hlast⟩
  · rw [h]
    exact ⟨by decide, by decide⟩
  · rw [h]
    exact ⟨by decide, by decide⟩
  · rw [hl]
    constructor
    · rw [generateNodeVarName_mk hv hne, sanitizePipeline_fixed hv hnd hhd hlast]
      cases hcase : l with
      | nil => exact absurd hcase hne
      | cons c tl => simp
    · exact isValidIdent_of_shape hv hne hhd

/-! ## Topological sort (`topologicalSort`, Kahn's algorithm) -/

/-- The out-adjacency built by `topologicalSort` and `hasCycle`: every node id
is a key with an initially empty list, and each edge appends its target to its
source's list (`adjacency.get(edge.source)?.push(edge.target)` is a no-op for
a source that is not a node id). -/
def outAdj (nodes : List GraphNode) (edges : List GraphEdge) (u : String) : List String :=
  if u ∈ nodeIds nodes then (edges.filter (fun e => e.source == u)).map (·.target) else []

/-- The in-degree map after initialization: nodes start at `0` and every edge
increments its target (`inDegree.set(edge.target, (inDegree.get(edge.target)
|| 0) + 1)`), so the value at `x` is the number of edges targeting `x`.  The
JS `Map` is modelled as a total function; every lookup the source performs is
on a key the `Map` holds or goes through `|| 0`. -/
def initInDeg (edges : List GraphEdge) (x : String) : Int :=
  ((edges.filter (fun e => e.target == x)).length : Int)

/-- One neighbor step of the Kahn loop body: decrement the neighbor's
in-degree and enqueue it when the decremented degree is exactly zero. -/
def kahnStep (st : (String → Int) × List String) (nb : String) : (String → Int) × List String :=
  let d := st.1 nb
  (fun x => if x = nb then d - 1 else st.1 x,
   if d - 1 = 0 then st.2 ++ [nb] else st.2)

/-- The `while (queue.length > 0)` loop of `topologicalSort`, fuel-indexed:
dequeue, append the dequeued node (when the id resolves in the node map),
then process all out-neighbors. -/
def kahnLoop (adj : String → List String) (nmap : String → Option GraphNode) :
    Nat → List String → (String → Int) → List GraphNode → List GraphNode
  | 0, _, _, sorted => sorted
  | _ + 1, [], _, sorted => sorted
  | fuel + 1, u :: rest, deg, sorted =>
    let sorted2 := match nmap u with
      | some n => sorted ++ [n]
      | none => sorted
    let s2 := (adj u).foldl kahnStep (deg, rest)
    kahnLoop adj nmap fuel s2.2 s2.1 sorted2

/-- `topologicalSort` (Kahn's algorithm).  The loop runs once per dequeued id
and every id is enqueued at most once plus once per edge, so
`nodes.length + edges.length + 1` fuel strictly exceeds the number of
iterations the source's `while` loop can perform. -/
def topologicalSort (nodes : List GraphNode) (edges : List GraphEdge) : List GraphNode :=
  kahnLoop (outAdj nodes edges) (nodeMapGet nodes) (nodes.length + edges.length + 1)
    ((nodes.filter (fun n => initInDeg edges n.id == 0)).map (·.id)) (initInDeg edges) []

/-! ## Cycle detection (`hasCycle`) -/

/-- The DFS state of `hasCycle`: the `visited` set and the recursion stack. -/
structure CycState where
  visited : Finset String
  stack : Finset String

/-- The recursive `dfs` of `hasCycle`: mark the node visited and on the
recursion stack, scan the neighbors (early-exiting on a detected cycle), and
pop the node from the stack when no cycle was found below it.  Callers only
invoke it on unvisited nodes.  Structurally recursive on the fuel so that
the kernel can evaluate it; the neighbor loop is the inner fold, which
short-circuits by passing a `true` accumulator through unchanged exactly as
the source's early `return true` leaves the remaining neighbors
unprocessed. -/
def cdfs (adj : String → List String) : Nat → String → CycState → Bool × CycState
  | 0, _, st => (false, st)
  | fuel + 1, u, st =>
    match (adj u).foldl (fun acc v =>
      match acc with
      | (true, st2) => (true, st2)
      | (false, st2) =>
        if v ∉ st2.visited then cdfs adj fuel v st2
        else if v ∈ st2.stack then (true, st2)
        else (false, st2))
      ((false : Bool), (⟨insert u st.visited, insert u st.stack⟩ : CycState)) with
    | (true, st2) => (true, st2)
    | (false, st2) => (false, ⟨st2.visited, st2.stack.erase u⟩)

/-- The `for (const neighbor of neighbors)` loop of `hasCycle`'s `dfs` in
recursive form: recurse into unvisited neighbors, report a cycle for a
neighbor on the recursion stack, skip finished neighbors.  `cdfs_succ` below
shows this is what the fold inside `cdfs` computes. -/
def cdfsList (adj : String → List String) (fuel : Nat) :
    List String → CycState → Bool × CycState
  | [], st => (false, st)
  | v :: vs, st =>
    if v ∉ st.visited then
      match cdfs adj fuel v st with
      | (true, st2) => (true, st2)
      | (false, st2) => cdfsList adj fuel vs st2
    else if v ∈ st.stack then (true, st)
    else cdfsList adj fuel vs st

theorem cdfsFold_true (adj : String → List String) (fuel : Nat) :
    ∀ (vs : List String) (st : CycState),
      vs.foldl (fun acc v =>
        match acc with
        | (true, st2) => (true, st2)
        | (false, st2) =>
          if v ∉ st2.visited then cdfs adj fuel v st2
          else if v ∈ st2.stack then (true, st2)
          else (false, st2)) ((true : Bool), st) = (true, st) := by
  intro vs
  induction vs with
  | nil => intro st; rfl
  | cons v vs ih => intro st; exact ih st

theorem cdfsFold_eq (adj : String → List String) (fuel : Nat) :
    ∀ (vs : List String) (st : CycState),
      vs.foldl (fun acc v =>
        match acc with
        | (true, st2) => (true, st2)
        | (false, st2) =>
          if v ∉ st2.visited then cdfs adj fuel v st2
          else if v ∈ st2.stack then (true, st2)
          else (false, st2)) ((false : Bool), st) = cdfsList adj fuel vs st := by
  intro vs
  induction vs with
  | nil => intro st; rfl
  | cons v vs ih =>
    intro st
    rw [List.foldl_cons]
    show List.foldl _ (if v ∉ st.visited then cdfs adj fuel v st
      else if v ∈ st.stack then ((true : Bool), st) else ((false : Bool), st)) vs = _
    simp only [cdfsList]
    by_cases hv : v ∉ st.visited
    · rw [if_pos hv, if_pos hv]
      rcases hc : cdfs adj fuel v st with ⟨b, st2⟩
      cases b with
      | true => exact cdfsFold_true adj fuel vs st2
      | false => exact ih st2
    · rw [if_neg hv, if_neg hv]
      by_cases hstk : v ∈ st.stack
      · rw [if_pos hstk, if_pos hstk]
        exact cdfsFold_true adj fuel vs st
      · rw [if_neg hstk, if_neg hstk]
        exact ih st

/-- The one-step unfolding of `cdfs` through the recursive neighbor loop. -/
theorem cdfs_succ (adj : String → List String) (fuel : Nat) (u : String) (st : CycState) :
    cdfs adj (fuel + 1) u st =
      match cdfsList adj fuel (adj u) ⟨insert u st.visited, insert u st.stack⟩ with
      | (true, st2) => (true, st2)
      | (false, st2) => (false, ⟨st2.visited, st2.stack.erase u⟩) := by
  show (match (adj u).foldl _ ((false : Bool),
      (⟨insert u st.visited, insert u st.stack⟩ : CycState)) with
    | (true, st2) => (true, st2)
    | (false, st2) => (false, ⟨st2.visited, st2.stack.erase u⟩)) = _
  rw [cdfsFold_eq]


/-- Each level of the source's recursion marks at least one new id out of at
most `nodes.length + edges.length` distinct ids, so this fuel strictly
exceeds the recursion depth the source can reach. -/
def cycleFuel (nodes : List GraphNode) (edges : List GraphEdge) : Nat :=
  nodes.length + edges.length + 1

/-- One outer iteration of `hasCycle`'s `for (const node of nodes)` loop: a
found cycle short-circuits (the source returns immediately), otherwise the
DFS is started at every still-unvisited node. -/
def hasCycleStep (nodes : List GraphNode) (edges : List GraphEdge)
    (acc : Bool × CycState) (n : GraphNode) : Bool × CycState :=
  match acc with
  | (true, st) => (true, st)
  | (false, st) =>
    if n.id ∉ st.visited then cdfs (outAdj nodes edges) (cycleFuel nodes edges) n.id st
    else (false, st)

/-- `hasCycle`: restart the DFS from every still-unvisited node, returning
`true` as soon as one DFS finds a back edge. -/
def hasCycle (nodes : List GraphNode) (edges : List GraphEdge) : Bool :=
  (nodes.foldl (hasCycleStep nodes edges) ((false : Bool), (⟨∅, ∅⟩ : CycState))).1

/-! ## Connected components (`findConnectedComponents`) -/

/-- `Set.add` of JS: append if absent (JS sets keep first-insertion order). -/
def addUnique (l : List String) (x : String) : List String :=
  if x ∈ l then l else l ++ [x]

/-- The undirected adjacency of `findConnectedComponents`: every node id is a
key, and each edge adds its target to its source's neighbor set and its
source to its target's neighbor set (each guarded by the owner being a key). -/
def undirNeighbors (nodes : List GraphNode) (edges : List GraphEdge) (u : String) : List String :=
  if u ∈ nodeIds nodes then
    edges.foldl (fun acc e =>
      let acc2 := if e.source = u then addUnique acc e.target else acc
      if e.target = u then addUnique acc2 e.source else acc2) []
  else []

/-- The DFS state of `findConnectedComponents`: the global `visited` set and
the component being collected. -/
structure FccState where
  visited : Finset String
  comp : List GraphNode

/-- The recursive `dfs` of `findConnectedComponents`: return if visited,
otherwise mark visited, push the node resolved from the node map, and recurse
into all neighbors.  Structurally recursive on the fuel so that the kernel
can evaluate it; the `neighbors.forEach` loop is the inner fold. -/
def fccDfs (adj : String → List String) (nmap : String → Option GraphNode) :
    Nat → String → FccState → FccState
  | 0, _, st => st
  | fuel + 1, u, st =>
    if u ∈ st.visited then st
    else (adj u).foldl (fun st' v => fccDfs adj nmap fuel v st')
      ⟨insert u st.visited, st.comp ++ (nmap u).toList⟩

/-- The `neighbors.forEach(neighborId => dfs(neighborId, component))` loop in
recursive form; `fccDfs_succ` below shows this is what the fold inside
`fccDfs` computes. -/
def fccDfsList (adj : String → List String) (nmap : String → Option GraphNode)
    (fuel : Nat) : List String → FccState → FccState
  | [], st => st
  | v :: vs, st => fccDfsList adj nmap fuel vs (fccDfs adj nmap fuel v st)

theorem fccFold_eq (adj : String → List String) (nmap : String → Option GraphNode)
    (fuel : Nat) :
    ∀ (vs : List String) (st : FccState),
      vs.foldl (fun st' v => fccDfs adj nmap fuel v st') st = fccDfsList adj nmap fuel vs st := by
  intro vs
  induction vs with
  | nil => intro st; rfl
  | cons v vs ih => intro st; exact ih (fccDfs adj nmap fuel v st)

/-- The one-step unfolding of `fccDfs` through the recursive neighbor loop. -/
theorem fccDfs_succ (adj : String → List String) (nmap : String → Option GraphNode)
    (fuel : Nat) (u : String) (st : FccState) :
    fccDfs adj nmap (fuel + 1) u st =
      if u ∈ st.visited then st
      else fccDfsList adj nmap fuel (adj u)
        ⟨insert u st.visited, st.comp ++ (nmap u).toList⟩ := by
  show (if u ∈ st.visited then st
    else (adj u).foldl _ ⟨insert u st.visited, st.comp ++ (nmap u).toList⟩) = _
  by_cases h : u ∈ st.visited
  · rw [if_pos h, if_pos h]
  · rw [if_neg h, if_neg h, fccFold_eq]


/-- Each level of the source's recursion marks at least one new id out of at
most `nodes.length + 2 * edges.length` distinct ids. -/
def fccFuel (nodes : List GraphNode) (edges : List GraphEdge) : Nat :=
  nodes.length + 2 * edges.length + 1

/-- One iteration of the `nodes.forEach` loop of `findConnectedComponents`:
start a DFS at the node when it is still unvisited and push the collected
component when it is nonempty. -/
def fccStep (nodes : List GraphNode) (edges : List GraphEdge)
    (acc : Finset String × List (List GraphNode)) (n : GraphNode) :
    Finset String × List (List GraphNode) :=
  if n.id ∈ acc.1 then acc
  else
    let st := fccDfs (undirNeighbors nodes edges) (nodeMapGet nodes)
      (fccFuel nodes edges) n.id ⟨acc.1, []⟩
    if st.comp.isEmpty then (st.visited, acc.2)
    else (st.visited, acc.2 ++ [st.comp])

/-- `findConnectedComponents`: scan the node array, starting a DFS at every
still-unvisited node and collecting the nodes it reaches as one component. -/
def findConnectedComponents (nodes : List GraphNode) (edges : List GraphEdge) :
    List (List GraphNode) :=
  if nodes.isEmpty then []
  else
    (nodes.foldl (fccStep nodes edges)
      ((∅ : Finset String), ([] : List (List GraphNode)))).2

/-! ## JSON rendering (`JSON.stringify`) -/

/-- JSON string escaping for the characters occurring in this compiler's
values: backslash, double quote and the common control characters. -/
def jsonEscapeChar (c : Char) : String :=
  if c = '\\' then "\\\\"
  else if c = '\"' then "\\\""
  else if c = '\n' then "\\n"
  else if c = '\r' then "\\r"
  else if c = '\t' then "\\t"
  else String.singleton c

/-- Escape every character of a string for a JSON string literal. -/
def jsonEscape (s : String) : String :=
  String.join (s.toList.map jsonEscapeChar)

/-- Render a JSON string literal with surrounding double quotes. -/
def jsonQuote (s : String) : String := "\"" ++ jsonEscape s ++ "\""

mutual
/-- `JSON.stringify(value)` (no indent argument): compact rendering with `,`
and `:` separators and no whitespace. -/
def jsonStringify : JSValue → String
  | .str s => jsonQuote s
  | .num n => toString n
  | .bool b => cond b "true" "false"
  | .null => "null"
  | .obj fields => "\x7b" ++ String.intercalate "," (jsonFields fields) ++ "\x7d"
  | .arr elems => "[" ++ String.intercalate "," (jsonElems elems) ++ "]"
/-- Compact rendering of the `key:value` members of an object. -/
def jsonFields : List (String × JSValue) → List String
  | [] => []
  | (k, v) :: rest => (jsonQuote k ++ ":" ++ jsonStringify v) :: jsonFields rest
/-- Compact rendering of array elements. -/
def jsonElems : List JSValue → List String
  | [] => []
  | v :: rest => jsonStringify v :: jsonElems rest
end

/-- `depth` levels of the two-space gap of `JSON.stringify(v, null, 2)`. -/
def jsonIndent (depth : Nat) : String := String.mk (List.replicate (2 * depth) ' ')

mutual
/-- `JSON.stringify(value, null, 2)`: pretty rendering with a two-space
indent; empty objects and arrays render as `{}` and `[]`, non-empty ones put
every member on its own line indented one level deeper than `depth`. -/
def jsonStringifyPretty (depth : Nat) : JSValue → String
  | .str s => jsonQuote s
  | .num n => toString n
  | .bool b => cond b "true" "false"
  | .null => "null"
  | .obj [] => "\x7b\x7d"
  | .obj fields =>
    "\x7b\n" ++ String.intercalate ",\n" (jsonFieldsPretty (depth + 1) fields) ++
      "\n" ++ jsonIndent depth ++ "\x7d"
  | .arr [] => "[]"
  | .arr elems =>
    "[\n" ++ String.intercalate ",\n" (jsonElemsPretty (depth + 1) elems) ++
      "\n" ++ jsonIndent depth ++ "]"
/-- Pretty rendering of the `"key": value` members of an object. -/
def jsonFieldsPretty (depth : Nat) : List (String × JSValue) → List String
  | [] => []
  | (k, v) :: rest =>
    (jsonIndent depth ++ jsonQuote k ++ ": " ++ jsonStringifyPretty depth v) ::
      jsonFieldsPretty depth rest
/-- Pretty rendering of array elements. -/
def jsonElemsPretty (depth : Nat) : List JSValue → List String
  | [] => []
  | v :: rest => (jsonIndent depth ++ jsonStringifyPretty depth v) :: jsonElemsPretty depth rest
end

/-! ## Input wiring and literal collection -/

/-- The lookup of `buildInputConnectionsMap`: the nested `Map` is built by
iterating the edges in order with `map.get(edge.target)!.set(targetPort, ...)`,
so for a `(target, port)` pair the LAST edge bound to it wins.  Returns the
`{ sourceNode, sourcePort }` record of that edge. -/
def inputConnection (edges : List GraphEdge) (target port : String) :
    Option (String × String) :=
  ((edges.filter (fun e => e.target == target && edgeTargetPort e == port)).getLast?).map
    (fun e => (e.source, edgeSourcePort e))

/-- `getDefaultValueForType`: the fixed type-appropriate default literal. -/
def getDefaultValueForType (portType : String) : JSValue :=
  if portType = "string" then .str "hello_world"
  else if portType = "number" then .num 42
  else if portType = "boolean" then .bool true
  else if portType = "object" then .obj [("id", .num 1), ("name", .str "example")]
  else if portType = "array" then .arr [.num 1, .num 2, .num 3]
  else .null

/-- `collectNodeInputs`: for every required declared input port, the
user-provided value if present, else the type-appropriate default;
non-required ports are omitted entirely. -/
def collectNodeInputs (node : GraphNode) : List (String × JSValue) :=
  node.data.metadata.inputs.foldl (fun acc input =>
    if input.required then
      match jsLookup node.data.inputs input.id with
      | some v => acc ++ [(input.id, v)]
      | none => acc ++ [(input.id, getDefaultValueForType input.type)]
    else acc) []

/-! ## Execution code (`generateExecutionCode`) -/

/-- One `Exec` statement of `generateExecutionCode`: every declared input
port is bound to an `Out<sourceVar, 'sourcePort'>` reference when the
incoming-connections map holds a connection for it, else to the
`JSON.stringify` of the user-provided value when one exists, else omitted. -/
def execStatement (edges : List GraphEdge) (node : GraphNode) : String :=
  let inputParts := node.data.metadata.inputs.foldl (fun acc input =>
    match inputConnection edges node.id input.id with
    | some c =>
      acc ++ [input.id ++ ": Out<" ++ generateNodeVarName c.1 ++ ", '" ++ c.2 ++ "'>"]
    | none =>
      match jsLookup node.data.inputs input.id with
      | some v => acc ++ [input.id ++ ": " ++ jsonStringify v]
      | none => acc) []
  let inputsStr := if inputParts.length > 0
    then "\x7b " ++ String.intercalate "; " inputParts ++ " \x7d"
    else "\x7b\x7d"
  "type " ++ generateNodeVarName node.id ++ " = Exec<" ++ node.data.metadata.tlangType ++
    ", " ++ inputsStr ++ ">"

/-- The list of `Exec` statements in topological order (the statements that
`generateExecutionCode` joins with newlines). -/
def execStatements (nodes : List GraphNode) (edges : List GraphEdge) : List String :=
  (topologicalSort nodes edges).map (execStatement edges)

/-- `generateExecutionCode`: the `Exec` statements joined with newlines. -/
def generateExecutionCode (nodes : List GraphNode) (edges : List GraphEdge) : String :=
  if nodes.isEmpty then "// No nodes to execute"
  else String.intercalate "\n" (execStatements nodes edges)

/-- `findResultExpression`: prefer the first terminal node; with no terminal
node fall back to the last node of the topological order (which is empty for
a fully cyclic component, yielding `never`); reference its first declared
output port id, defaulting to `out` when there is none (or its id is the
empty string, which is falsy under `||`). -/
def findResultExpression (nodes : List GraphNode) (edges : List GraphEdge) : String :=
  if nodes.isEmpty then "never"
  else
    let terminalNodes := nodes.filter (fun node => !(edges.any (fun e => e.source == node.id)))
    let outputNode? := match terminalNodes with
      | n :: _ => some n
      | [] => (topologicalSort nodes edges).getLast?
    match outputNode? with
    | none => "never"
    | some n =>
      "Out<" ++ generateNodeVarName n.id ++ ", '" ++
        handleOr ((n.data.metadata.outputs.head?).map (·.id)) "out" ++ "'>"

/-! ## Per-component emission (`generateComponentCode`) -/

/-- The edges of one component: the input edges whose endpoints both lie in
the component's node set (the filter at the top of `generateComponentCode`). -/
def componentEdges (componentNodes : List GraphNode) (allEdges : List GraphEdge) :
    List GraphEdge :=
  allEdges.filter (fun e =>
    decide (e.source ∈ nodeIds componentNodes) && decide (e.target ∈ nodeIds componentNodes))

/-- Indent every line but the first by six spaces (the post-processing of the
pretty-printed initial-data JSON). -/
def indentTail (s : String) : String :=
  match s.splitOn "\n" with
  | [] => s
  | first :: rest => String.intercalate "\n" (first :: rest.map (fun line => "      " ++ line))

/-- `generateComponentCode`: the component's `TypeFlow` declaration (node
definitions, connections, initial input values), the manual execution
listing, and the component result alias, assembled exactly as the source's
template literal. -/
def generateComponentCode (componentNodes : List GraphNode) (allEdges : List GraphEdge)
    (componentIndex : Nat) : String :=
  let compEdges := componentEdges componentNodes allEdges
  let typeflowName := "TypeFlow_" ++ toString (componentIndex + 1)
  let nodeDefinitions := String.intercalate ",\n" (componentNodes.map (fun node =>
    "    " ++ generateNodeVarName node.id ++ ": " ++ node.data.metadata.tlangType))
  let connections := String.intercalate ",\n" (compEdges.map (fun edge =>
    "    \x7b from: \x7b node: '" ++ generateNodeVarName edge.source ++ "'; port: '" ++
      edgeSourcePort edge ++ "' \x7d; to: \x7b node: '" ++ generateNodeVarName edge.target ++
      "'; port: '" ++ edgeTargetPort edge ++ "' \x7d \x7d"))
  let entry := findEntryNodes componentNodes compEdges
  let initialData := String.intercalate ",\n" (entry.map (fun node =>
    "    " ++ generateNodeVarName node.id ++ ": " ++
      indentTail (jsonStringifyPretty 0 (JSValue.obj (collectNodeInputs node)))))
  let executionCode := generateExecutionCode componentNodes compEdges
  let resultExpr := findResultExpression componentNodes compEdges
  let resultTypeName := "Result_" ++ toString (componentIndex + 1)
  "\n/**\n * Type computation typeflow " ++ toString (componentIndex + 1) ++ ": " ++
    typeflowName ++ "\n *\n * Connected component with " ++
    toString componentNodes.length ++ " node" ++
    (if componentNodes.length != 1 then "s" else "") ++ "\n * and " ++
    toString compEdges.length ++ " connection" ++
    (if compEdges.length != 1 then "s" else "") ++
    "\n */\ntype " ++ typeflowName ++ " = TypeFlow<\n  // Node definitions\n  \x7b\n" ++
    nodeDefinitions ++
    "\n  \x7d,\n  // Connections (data flow)\n  [\n" ++
    connections ++
    "\n  ],\n  // Initial input values\n  \x7b\n" ++
    initialData ++
    "\n  \x7d\n>\n\n/**\n * Manual execution for component " ++
    toString (componentIndex + 1) ++ "\n */\n" ++
    executionCode ++
    "\n\n// Result type for component " ++ toString (componentIndex + 1) ++
    "\ntype " ++ resultTypeName ++ " = " ++ resultExpr ++ "\n"

/-! ## Reference extraction (`extractImportsFromType`, `extractImports`) -/

/-- A TypeScript entity name as produced by the external TypeScript parser:
a plain identifier or a dot-qualified name whose `left` is again an entity
name. -/
inductive TSEntityName where
  | ident (name : String)
  | qual (left : TSEntityName) (right : String)

/-- A TypeScript type-expression AST as produced by the external TypeScript
parser, restricted to the shapes the traversal distinguishes: a type
reference with its generic argument list, a string-literal type, and any
other construct through which `ts.forEachChild` simply descends. -/
inductive TSTypeNode where
  | typeRef (name : TSEntityName) (args : List TSTypeNode)
  | strLit (value : String)
  | other (children : List TSTypeNode)

/-- Walk left through a chained qualified name to its outermost identifier
(`while (ts.isQualifiedName(current)) current = current.left`). -/
def rootIdentOf : TSEntityName → String
  | .ident s => s
  | .qual l _ => rootIdentOf l

mutual
/-- The `visit` traversal of `extractImportsFromType` over the AST: a
qualified type reference records its root namespace, a bare identifier is
recorded only when it is in the registry of top-level exports, and the
traversal recursively descends into every child (in particular into generic
type arguments); a string-literal type contributes nothing.  The two JS
`Set`s are modelled as insertion-ordered duplicate-free lists. -/
def visitType (exports : List String) (t : TSTypeNode) (acc : List String × List String) :
    List String × List String :=
  match t with
  | .typeRef name args =>
    let acc2 := match name with
      | .qual _ _ => (addUnique acc.1 (rootIdentOf name), acc.2)
      | .ident s => if s ∈ exports then (acc.1, addUnique acc.2 s) else acc
    visitTypeList exports args acc2
  | .strLit _ => acc
  | .other children => visitTypeList exports children acc
/-- Traversal of a child list (`ts.forEachChild`). -/
def visitTypeList (exports : List String) (ts : List TSTypeNode)
    (acc : List String × List String) : List String × List String :=
  match ts with
  | [] => acc
  | t :: rest => visitTypeList exports rest (visitType exports t acc)
end

/-- An identifier character of the type-expression grammar. -/
def isTSIdentChar (c : Char) : Bool := isAsciiAlphanum c || c = '_' || c = '$'

/-- Skip whitespace. -/
def skipWs (l : List Char) : List Char := l.dropWhile Char.isWhitespace

/-- Parse one identifier token. -/
def parseIdent (l : List Char) : Option (String × List Char) :=
  let tok := l.takeWhile isTSIdentChar
  if tok.isEmpty then none else some (String.mk tok, l.drop tok.length)

/-- Parse the `.member` tail of a qualified name. -/
def parseQualTail : Nat → TSEntityName → List Char → TSEntityName × List Char
  | 0, acc, l => (acc, l)
  | fuel + 1, acc, l =>
    match l with
    | '.' :: rest =>
      match parseIdent rest with
      | some (name, rest2) => parseQualTail fuel (.qual acc name) rest2
      | none => (acc, l)
    | _ => (acc, l)

mutual
/-- Modelled from the spec: the external grammar-aware TypeScript parser
(`ts.createSourceFile` on `type _Temp = <typeStr>`), which is an external
dependency and not part of this repository, restricted to the grammar that
operation type expressions use: possibly qualified identifiers, generic
argument lists in angle brackets, and single-quoted string-literal type
arguments.  Text outside this grammar yields no parse, matching the spec's
rule that absence of extractable references is not a failure. -/
def parseTypeExpr : Nat → List Char → Option (TSTypeNode × List Char)
  | 0, _ => none
  | fuel + 1, l =>
    let l1 := skipWs l
    match l1 with
    | [] => none
    | c :: rest =>
      if c = Char.ofNat 39 then
        let content := rest.takeWhile (fun d => !(d = Char.ofNat 39))
        let rest2 := rest.drop content.length
        match rest2 with
        | d :: rest3 => if d = Char.ofNat 39 then some (.strLit (String.mk content), rest3) else none
        | [] => none
      else
        match parseIdent l1 with
        | none => none
        | some (name, l2) =>
          let en := parseQualTail (l2.length + 1) (.ident name) l2
          let l3 := skipWs en.2
          match l3 with
          | '<' :: rest4 =>
            match parseTypeArgs fuel rest4 [] with
            | some (args, l4) => some (.typeRef en.1 args, l4)
            | none => none
          | _ => some (.typeRef en.1 [], l3)
/-- Parse a comma-separated generic argument list up to the closing `>`. -/
def parseTypeArgs : Nat → List Char → List TSTypeNode → Option (List TSTypeNode × List Char)
  | 0, _, _ => none
  | fuel + 1, l, acc =>
    match parseTypeExpr fuel l with
    | none => none
    | some (t, l2) =>
      let l3 := skipWs l2
      match l3 with
      | ',' :: rest => parseTypeArgs fuel rest (acc ++ [t])
      | '>' :: rest => some (acc ++ [t], rest)
      | _ => none
end


/-- Modelled from the spec: the registry of top-level exported operation
names (`TLANG_TOP_LEVEL_EXPORTS` in the generated `tlangSources` module,
which is a build artifact not present in the repository's sources), taken
from the library's top-level type exports in its public index. -/
def TLANG_TOP_LEVEL_EXPORTS : List String :=
  ["Node", "Exec", "Out", "Pipe", "nodeInputs", "TypeFlow", "Connection",
   "Omit", "Pick", "Partial", "Required", "Readonly", "Extend", "Identity",
   "DeepPartial", "DeepReadonly", "DeepRequired",
   "UnionKeys", "UnionToIntersection", "ExcludeUnion", "ExtractUnion", "UnionMap"]

/-- `extractImportsFromType` on the type-expression text: parse (external
TypeScript parser, modelled) and traverse. -/
def extractImportsFromType (typeStr : String) (exports : List String)
    (acc : List String × List String) : List String × List String :=
  match parseTypeExpr (2 * typeStr.length + 2) typeStr.toList with
  | some (t, _) => visitType exports t acc
  | none => acc

/-- `extractImports`: aggregate the namespace and top-level-type sets over
every node's `tlangType` text. -/
def extractImports (nodes : List GraphNode) : List String × List String :=
  nodes.foldl (fun acc node =>
    extractImportsFromType node.data.metadata.tlangType TLANG_TOP_LEVEL_EXPORTS acc) ([], [])

/-! ## Top-level assembly (`generateTLangCode`) -/

/-- The fixed placeholder returned for an empty node set. -/
def placeholderComment : String :=
  "// Add nodes to the canvas to generate code\n// Drag nodes from the left panel to start building your type system"

/-- JS `Array.prototype.sort()` on distinct strings: lexicographic order. -/
def sortStrings (l : List String) : List String := l.insertionSort (fun a b => a ≤ b)

/-- `generateTLangCode`: the import line (three fixed names plus the sorted
discovered names), all component blocks in discovery order, the summary
comment for multi-component graphs, and the combined `Result` declaration
(direct alias for one component, positional tuple for several).  The legacy
name hint parameter is ignored. -/
def generateTLangCode (nodes : List GraphNode) (edges : List GraphEdge)
    (_typeflowName : String := "MyTypeFlow") : String :=
  if nodes.isEmpty then placeholderComment
  else
    let ex := extractImports nodes
    let importedTypes := ["TypeFlow", "Exec", "Out"] ++ sortStrings ex.2 ++ sortStrings ex.1
    let imports := "import type \x7b " ++ String.intercalate ", " importedTypes ++
      " \x7d from '@atools/tlang'"
    let components := findConnectedComponents nodes edges
    let componentCodes := String.intercalate "\n"
      (components.mapIdx (fun i c => generateComponentCode c edges i))
    let isSingle := components.length == 1
    let summary := if isSingle then "" else
      "/**\n * This graph contains " ++ toString components.length ++
      " independent connected components\n * Each component is executed separately and produces its own result type\n */"
    let resultNames := String.intercalate ", "
      ((List.range components.length).map (fun i => "Result_" ++ toString (i + 1)))
    let mainResultType := if isSingle
      then "\n// Final result type - output from the last node in the DAG\ntype Result = Result_1\n"
      else "\n// Multiple result types available: " ++ resultNames ++
        "\n// Combined result as tuple\ntype Result = [" ++ resultNames ++ "]\n"
    imports ++ "\n\n" ++ summary ++ "\n" ++ componentCodes ++ mainResultType ++
      "\n// You can now use Result" ++ (if isSingle then "" else "_1, Result_2, etc.") ++
      " in your TypeScript code\n"

/-! ## Structural validation (`validateGraph`) -/

/-- The fixed cycle message. -/
def cycleErrorMessage : String :=
  "Graph contains cycles. tlang typeflow must be acyclic (DAG)."

/-- The missing-required-input message, naming the node's label and the
port's label. -/
def missingInputMessage (node : GraphNode) (input : PortDefinition) : String :=
  "Node \"" ++ node.data.label ++ "\" missing required input: " ++ input.label ++
  " (connect from another node or provide initial value)"

/-- The out-of-range numeric literal message of the `Numbers` category check
(`MAX_SAFE_NUMBER = 100`). -/
def numberLimitMessage (node : GraphNode) (inputId : String) (value : Int) : String :=
  "Node \"" ++ node.data.label ++ "\" input \"" ++ inputId ++ "\" has value " ++
  toString value ++
  " which exceeds safe limit (100). TypeScript's type system uses tuple-based arithmetic and cannot handle large numbers. Please use a smaller value (≤ 100)."

/-- `validateGraph`: the cycle message, then per node (in node order) one
message per unconnected required input of a non-entry node, then for
`Numbers`-category nodes one message per literal numeric input whose absolute
value exceeds 100; an empty node set validates trivially. -/
def validateGraph (nodes : List GraphNode) (edges : List GraphEdge) : List String :=
  if nodes.isEmpty then []
  else
    let cycleErrors := if hasCycle nodes edges then [cycleErrorMessage] else []
    let entryIds := (findEntryNodes nodes edges).map (·.id)
    nodes.foldl (fun errors node =>
      let errors2 := (node.data.metadata.inputs.filter (·.required)).foldl (fun errs input =>
        if !(inputConnection edges node.id input.id).isSome && !(decide (node.id ∈ entryIds))
        then errs ++ [missingInputMessage node input]
        else errs) errors
      if node.data.metadata.category = "Numbers" then
        node.data.inputs.foldl (fun errs kv =>
          match kv.2 with
          | .num v => if 100 < |v| then errs ++ [numberLimitMessage node kv.1 v] else errs
          | _ => errs) errors2
      else errors2) cycleErrors

/-! ### Correctness of the topological sort (C1) -/

/-- One directed edge step of the graph relation. -/
def edgeStep (edges : List GraphEdge) (a b : String) : Prop :=
  ∃ e ∈ edges, e.source = a ∧ e.target = b

/-- The directed graph of the edge list is acyclic: no nonempty directed
path from a vertex to itself. -/
def AcyclicGraph (edges : List GraphEdge) : Prop :=
  ∀ a, ¬ Relation.TransGen (edgeStep edges) a a

theorem nodup_id_inj {nodes : List GraphNode} (hnd : (nodeIds nodes).Nodup)
    {m n : GraphNode} (hm : m ∈ nodes) (hn : n ∈ nodes) (h : m.id = n.id) : m = n :=
  List.inj_on_of_nodup_map hnd hm hn h

theorem nodeMapGet_mem {nodes : List GraphNode} {i : String} {n : GraphNode}
    (h : nodeMapGet nodes i = some n) : n ∈ nodes ∧ n.id = i := by
  unfold nodeMapGet at h
  refine ⟨List.mem_reverse.1 (List.mem_of_find?_eq_some h), ?_⟩
  have := List.find?_some h
  simpa using this

theorem nodeMapGet_isSome {nodes : List GraphNode} {i : String}
    (h : i ∈ nodeIds nodes) : (nodeMapGet nodes i).isSome := by
  unfold nodeMapGet
  rw [List.find?_isSome]
  rcases List.mem_map.1 h with ⟨n, hn, hid⟩
  exact ⟨n, List.mem_reverse.2 hn, by simpa using hid⟩

theorem nodeMapGet_self {nodes : List GraphNode} (hnd : (nodeIds nodes).Nodup)
    {n : GraphNode} (hn : n ∈ nodes) : nodeMapGet nodes n.id = some n := by
  have hs : (nodeMapGet nodes n.id).isSome :=
    nodeMapGet_isSome (List.mem_map.2 ⟨n, hn, rfl⟩)
  rcases Option.isSome_iff_exists.1 hs with ⟨m, hm⟩
  rw [hm]
  rcases nodeMapGet_mem hm with ⟨hmem, hid⟩
  exact congrArg some (nodup_id_inj hnd hmem hn hid)

theorem filterMap_nodeMapGet {nodes : List GraphNode} {l : List GraphNode}
    (h : ∀ n ∈ l, nodeMapGet nodes n.id = some n) :
    (l.map GraphNode.id).filterMap (nodeMapGet nodes) = l := by
  induction l with
  | nil => rfl
  | cons a tl ih =>
    rw [List.map_cons, List.filterMap_cons_some (h a (List.mem_cons_self a tl))]
    rw [ih (fun n hn => h n (List.mem_cons_of_mem a hn))]

theorem outAdj_mem {nodes : List GraphNode} {edges : List GraphEdge} {u x : String}
    (h : x ∈ outAdj nodes edges u) :
    u ∈ nodeIds nodes ∧ ∃ e ∈ edges, e.source = u ∧ e.target = x := by
  unfold outAdj at h
  by_cases hu : u ∈ nodeIds nodes
  · rw [if_pos hu] at h
    rcases List.mem_map.1 h with ⟨e, he, hx⟩
    rcases List.mem_filter.1 he with ⟨hee, hsrc⟩
    exact ⟨hu, e, hee, by simpa using hsrc, hx⟩
  · rw [if_neg hu] at h
    exact absurd h (List.not_mem_nil x)

theorem mem_outAdj {nodes : List GraphNode} {edges : List GraphEdge} {u : String}
    (hu : u ∈ nodeIds nodes) {e : GraphEdge} (he : e ∈ edges) (hs : e.source = u) :
    e.target ∈ outAdj nodes edges u := by
  unfold outAdj
  rw [if_pos hu]
  exact List.mem_map.2 ⟨e, List.mem_filter.2 ⟨he, by simpa using hs⟩, rfl⟩

theorem outAdj_count {nodes : List GraphNode} (edges : List GraphEdge) {u : String}
    (hu : u ∈ nodeIds nodes) (x : String) :
    (outAdj nodes edges u).count x =
      (edges.filter (fun e => e.source == u && e.target == x)).length := by
  unfold outAdj
  rw [if_pos hu, List.count_eq_countP, List.countP_map, ← List.countP_eq_length_filter]
  rw [List.countP_filter]
  congr 1
  funext e
  simp only [Function.comp]
  rw [Bool.and_comm]

theorem kahnStep_eq (deg : String → Int) (q : List String) (nb : String) :
    kahnStep (deg, q) nb =
      ((fun y => if y = nb then deg nb - 1 else deg y),
       if deg nb - 1 = 0 then q ++ [nb] else q) := rfl

theorem count_cons_int (nb x : String) (T' : List String) :
    ((nb :: T').count x : Int) =
      (T'.count x : Int) + (if x = nb then 1 else 0) := by
  rw [List.count_cons]
  by_cases hx : x = nb
  · have h1 : (nb == x) = true := by simp [hx]
    rw [h1, if_pos hx]
    push_cast
    simp
  · have h1 : (nb == x) = false := by
      simp only [beq_eq_false_iff_ne, ne_eq]
      exact fun h => hx h.symm
    rw [h1, if_neg hx]
    push_cast
    simp

theorem kahnFold_deg (T : List String) (deg : String → Int) (q : List String) (x : String) :
    (T.foldl kahnStep (deg, q)).1 x = deg x - (T.count x : Int) := by
  induction T generalizing deg q with
  | nil => simp
  | cons nb T' ih =>
    rw [List.foldl_cons, kahnStep_eq, ih, count_cons_int]
    by_cases hx : x = nb
    · rw [if_pos hx, if_pos hx, hx]
      ring
    · rw [if_neg hx, if_neg hx]
      ring

theorem kahnFold_queue (T : List String) (deg : String → Int) (q : List String) :
    ∃ new : List String,
      (T.foldl kahnStep (deg, q)).2 = q ++ new ∧ new.Nodup ∧
      (∀ x, x ∈ new ↔ 0 < deg x ∧ deg x ≤ (T.count x : Int)) := by
  induction T generalizing deg q with
  | nil =>
    refine ⟨[], by simp, List.nodup_nil, fun x => ?_⟩
    simp only [List.not_mem_nil, List.count_nil, Nat.cast_zero, false_iff]
    intro h
    omega
  | cons nb T' ih =>
    rw [List.foldl_cons, kahnStep_eq]
    set deg1 : String → Int := fun y => if y = nb then deg nb - 1 else deg y with hdeg1
    have hdeg1x : ∀ x, deg1 x = if x = nb then deg nb - 1 else deg x := fun x => rfl
    by_cases hnb : deg nb - 1 = 0
    · rw [if_pos hnb]
      rcases ih deg1 (q ++ [nb]) with ⟨new', hfold, hnodup, hmem⟩
      refine ⟨nb :: new', by rw [hfold, List.append_cons q nb new'], ?_, ?_⟩
      · rw [List.nodup_cons]
        refine ⟨fun hmem' => ?_, hnodup⟩
        have h := ((hmem nb).1 hmem').1
        rw [hdeg1x nb, if_pos rfl] at h
        omega
      · intro x
        rw [List.mem_cons, hmem x, hdeg1x x, count_cons_int]
        by_cases hx : x = nb
        · rw [if_pos hx, if_pos hx, hx]
          simp only [hx, true_or, true_iff]
          omega
        · rw [if_neg hx, if_neg hx]
          simp only [hx, false_or, add_zero]
    · rw [if_neg hnb]
      rcases ih deg1 q with ⟨new', hfold, hnodup, hmem⟩
      refine ⟨new', hfold, hnodup, fun x => ?_⟩
      rw [hmem x, hdeg1x x, count_cons_int]
      by_cases hx : x = nb
      · rw [if_pos hx, if_pos hx]
        rw [hx]
        omega
      · rw [if_neg hx, if_neg hx]
        simp

/-- The number of edges into `x` whose source has not been emitted yet: the
value `inDegree` holds for `x` during the run. -/
def pendingInDeg (edges : List GraphEdge) (proc : List String) (x : String) : Nat :=
  (edges.filter (fun e => e.target == x && !(decide (e.source ∈ proc)))).length

/-- The loop invariant of Kahn's algorithm over `(queue, deg, sorted)`. -/
structure KahnInv (nodes : List GraphNode) (edges : List GraphEdge)
    (queue : List String) (deg : String → Int) (sorted : List GraphNode) : Prop where
  sortedCanon : ∀ n ∈ sorted, nodeMapGet nodes n.id = some n
  nodup : ((sorted.map GraphNode.id) ++ queue).Nodup
  queueSub : ∀ u ∈ queue, u ∈ nodeIds nodes
  sortedSub : ∀ x ∈ sorted.map GraphNode.id, x ∈ nodeIds nodes
  degEq : ∀ x, deg x = (pendingInDeg edges (sorted.map GraphNode.id) x : Int)
  discovered : ∀ x ∈ nodeIds nodes,
    ((x ∈ sorted.map GraphNode.id ∨ x ∈ queue) ↔
      ∀ e ∈ edges, e.target = x → e.source ∈ sorted.map GraphNode.id)
  ordered : ∀ e ∈ edges, e.target ∈ sorted.map GraphNode.id →
    e.source ∈ sorted.map GraphNode.id ∧
    (sorted.map GraphNode.id).indexOf e.source < (sorted.map GraphNode.id).indexOf e.target

theorem pendingInDeg_zero_iff {edges : List GraphEdge} {proc : List String} {x : String} :
    pendingInDeg edges proc x = 0 ↔
      ∀ e ∈ edges, e.target = x → e.source ∈ proc := by
  unfold pendingInDeg
  rw [List.length_eq_zero, List.filter_eq_nil_iff]
  constructor
  · intro h e he htgt
    have := h e he
    simp only [Bool.and_eq_true, Bool.not_eq_true', decide_eq_false_iff_not, beq_iff_eq,
      not_and] at this
    by_contra hmem
    exact this htgt hmem
  · intro h e he
    simp only [Bool.and_eq_true, Bool.not_eq_true', decide_eq_false_iff_not, beq_iff_eq,
      not_and]
    intro htgt
    intro hmem
    exact hmem (h e he htgt)

theorem pendingInDeg_pos {edges : List GraphEdge} {proc : List String} {x : String}
    {e : GraphEdge} (he : e ∈ edges) (htgt : e.target = x) (hsrc : e.source ∉ proc) :
    0 < pendingInDeg edges proc x := by
  unfold pendingInDeg
  rw [List.length_pos]
  intro hnil
  rw [List.filter_eq_nil_iff] at hnil
  have := hnil e he
  simp only [Bool.and_eq_true, Bool.not_eq_true', decide_eq_false_iff_not, beq_iff_eq,
    not_and] at this
  exact this htgt hsrc

/-- Emitting `u` splits the pending in-degree of every `x` into the edges
still pending afterwards plus the edges from `u` into `x`. -/
theorem pendingInDeg_split {edges : List GraphEdge} {proc : List String} {u : String}
    (hu : u ∉ proc) (x : String) :
    pendingInDeg edges proc x =
      pendingInDeg edges (proc ++ [u]) x +
      (edges.filter (fun e => e.source == u && e.target == x)).length := by
  unfold pendingInDeg
  induction edges with
  | nil => rfl
  | cons e es ih =>
    simp only [List.filter_cons]
    by_cases htx : (e.target == x) = true
    · by_cases hsu : e.source = u
      · have h1 : (e.target == x && !(decide (e.source ∈ proc))) = true := by
          rw [htx]
          simp [hsu, hu]
        have h2 : (e.target == x && !(decide (e.source ∈ proc ++ [u]))) = false := by
          rw [htx]
          simp [hsu]
        have h3 : (e.source == u && e.target == x) = true := by
          rw [htx]
          simp [hsu]
        simp only [h1, h2, h3, Bool.false_eq_true, if_false, eq_self_iff_true, if_true,
          List.length_cons]
        omega
      · have h12 : (decide (e.source ∈ proc ++ [u])) = (decide (e.source ∈ proc)) := by
          simp [List.mem_append, hsu]
        have h3 : (e.source == u && e.target == x) = false := by
          simp [hsu]
        by_cases hmem : (e.target == x && !(decide (e.source ∈ proc))) = true
        · have hmem2 : (e.target == x && !(decide (e.source ∈ proc ++ [u]))) = true := by
            rw [h12]; exact hmem
          simp only [hmem, hmem2, h3, Bool.false_eq_true, if_false, eq_self_iff_true,
            if_true, List.length_cons]
          omega
        · rw [Bool.not_eq_true] at hmem
          have hmem2 : (e.target == x && !(decide (e.source ∈ proc ++ [u]))) = false := by
            rw [h12]; exact hmem
          simp only [hmem, hmem2, h3, Bool.false_eq_true, if_false]
          omega
    · have hb : (e.target == x) = false := by
        rw [Bool.not_eq_true] at htx
        exact htx
      have h1 : (e.target == x && !(decide (e.source ∈ proc))) = false := by
        rw [hb]; simp
      have h2 : (e.target == x && !(decide (e.source ∈ proc ++ [u]))) = false := by
        rw [hb]; simp
      have h3 : (e.source == u && e.target == x) = false := by
        rw [hb]; simp
      simp only [h1, h2, h3, Bool.false_eq_true, if_false]
      omega

theorem kahnInv_init (nodes : List GraphNode) (edges : List GraphEdge)
    (hnd : (nodeIds nodes).Nodup) :
    KahnInv nodes edges
      ((nodes.filter (fun n => initInDeg edges n.id == 0)).map (·.id))
      (initInDeg edges) [] := by
  have hqsub : ∀ u ∈ (nodes.filter (fun n => initInDeg edges n.id == 0)).map (·.id),
      u ∈ nodeIds nodes := by
    intro u hu
    rcases List.mem_map.1 hu with ⟨n, hn, hid⟩
    exact List.mem_map.2 ⟨n, (List.mem_filter.1 hn).1, hid⟩
  have hqmem : ∀ x, x ∈ (nodes.filter (fun n => initInDeg edges n.id == 0)).map (·.id) ↔
      (x ∈ nodeIds nodes ∧ initInDeg edges x = 0) := by
    intro x
    constructor
    · intro hx
      rcases List.mem_map.1 hx with ⟨n, hn, hid⟩
      rcases List.mem_filter.1 hn with ⟨hnn, hdeg⟩
      subst hid
      exact ⟨List.mem_map.2 ⟨n, hnn, rfl⟩, by simpa using hdeg⟩
    · intro ⟨hx, hdeg⟩
      rcases List.mem_map.1 hx with ⟨n, hn, hid⟩
      subst hid
      exact List.mem_map.2 ⟨n, List.mem_filter.2 ⟨hn, by simpa using hdeg⟩, rfl⟩
  have hinit_pending : ∀ x, initInDeg edges x = (pendingInDeg edges [] x : Int) := by
    intro x
    unfold initInDeg pendingInDeg
    have hfil : edges.filter (fun e => e.target == x) =
        edges.filter (fun e => e.target == x && !(decide (e.source ∈ ([] : List String)))) := by
      apply List.filter_congr
      intro e _
      simp
    rw [hfil]
  constructor
  · intro n hn
    exact absurd hn (List.not_mem_nil n)
  · rw [List.map_nil, List.nil_append]
    have hsub : ((nodes.filter (fun n => initInDeg edges n.id == 0)).map (fun x => x.id)).Sublist
        (nodes.map (fun x => x.id)) := (List.filter_sublist nodes).map _
    exact hsub.nodup hnd
  · exact hqsub
  · intro x hx
    exact absurd hx (List.not_mem_nil x)
  · exact hinit_pending
  · intro x hx
    simp only [List.map_nil, List.not_mem_nil, false_or]
    rw [hqmem x]
    constructor
    · intro ⟨_, hdeg⟩
      intro e he htgt
      have h0 : pendingInDeg edges [] x = 0 := by
        have := hinit_pending x
        omega
      exact absurd (pendingInDeg_zero_iff.1 h0 e he htgt) (List.not_mem_nil _)
    · intro hall
      refine ⟨hx, ?_⟩
      have h0 : pendingInDeg edges [] x = 0 :=
        pendingInDeg_zero_iff.2 (fun e he htgt => (hall e he htgt).elim)
      rw [hinit_pending x, h0]
      rfl
  · intro e _ htgt
    exact absurd htgt (List.not_mem_nil _)

theorem kahnInv_step {nodes : List GraphNode} {edges : List GraphEdge}
    (hnd : (nodeIds nodes).Nodup)
    (he : ∀ e ∈ edges, e.source ∈ nodeIds nodes ∧ e.target ∈ nodeIds nodes)
    {u : String} {rest : List String} {deg : String → Int} {sorted : List GraphNode}
    (inv : KahnInv nodes edges (u :: rest) deg sorted) :
    ∃ n new, nodeMapGet nodes u = some n ∧ n.id = u ∧
      ((outAdj nodes edges u).foldl kahnStep (deg, rest)).2 = rest ++ new ∧
      (∀ x ∈ new, x ∈ nodeIds nodes ∧ x ∉ sorted.map GraphNode.id ∧ x ∉ u :: rest) ∧
      new.Nodup ∧
      KahnInv nodes edges (rest ++ new)
        ((outAdj nodes edges u).foldl kahnStep (deg, rest)).1 (sorted ++ [n]) := by
  have hu : u ∈ nodeIds nodes := inv.queueSub u (List.mem_cons_self u rest)
  obtain ⟨n, hn⟩ := Option.isSome_iff_exists.1 (nodeMapGet_isSome hu)
  obtain ⟨hnmem, hnid⟩ := nodeMapGet_mem hn
  obtain ⟨new, hfold, hnodupNew, hmemNew⟩ := kahnFold_queue (outAdj nodes edges u) deg rest
  have hUnotProc : u ∉ sorted.map GraphNode.id := by
    intro hmem
    rcases List.nodup_append.1 inv.nodup with ⟨_, _, hdisj⟩
    exact hdisj hmem (List.mem_cons_self u rest)
  have hprocIds : (sorted ++ [n]).map GraphNode.id = sorted.map GraphNode.id ++ [u] := by
    rw [List.map_append]
    simp [hnid]
  -- the degree after the fold
  have hdeg2 : ∀ x, ((outAdj nodes edges u).foldl kahnStep (deg, rest)).1 x =
      (pendingInDeg edges (sorted.map GraphNode.id ++ [u]) x : Int) := by
    intro x
    rw [kahnFold_deg, inv.degEq x]
    rw [pendingInDeg_split hUnotProc x]
    have hc := outAdj_count edges hu x
    rw [hc]
    push_cast
    ring
  -- membership in `new`
  have hnewiff : ∀ x, x ∈ new ↔
      (0 < deg x ∧ pendingInDeg edges (sorted.map GraphNode.id ++ [u]) x = 0) := by
    intro x
    rw [hmemNew x, inv.degEq x, outAdj_count edges hu x,
      pendingInDeg_split hUnotProc x]
    constructor
    · intro ⟨h1, h2⟩
      push_cast at h1 h2 ⊢
      omega
    · intro ⟨h1, h2⟩
      push_cast at h1 h2 ⊢
      omega
  -- elements of `new` are undiscovered node ids
  have hnewProps : ∀ x ∈ new, x ∈ nodeIds nodes ∧ x ∉ sorted.map GraphNode.id ∧
      x ∉ u :: rest := by
    intro x hx
    have hpos : 0 < deg x := ((hnewiff x).1 hx).1
    have hpend : 0 < pendingInDeg edges (sorted.map GraphNode.id) x := by
      have := inv.degEq x
      omega
    have hxnode : x ∈ nodeIds nodes := by
      rw [pendingInDeg] at hpend
      rw [List.length_pos] at hpend
      rcases List.exists_mem_of_ne_nil _ hpend with ⟨e, hefil⟩
      rcases List.mem_filter.1 hefil with ⟨hee, hcond⟩
      simp only [Bool.and_eq_true, beq_iff_eq] at hcond
      exact hcond.1 ▸ (he e hee).2
    refine ⟨hxnode, ?_⟩
    have hnotdisc : ¬ (x ∈ sorted.map GraphNode.id ∨ x ∈ u :: rest) := by
      intro hdisc
      have hall := (inv.discovered x hxnode).1 hdisc
      have h0 : pendingInDeg edges (sorted.map GraphNode.id) x = 0 :=
        pendingInDeg_zero_iff.2 hall
      omega
    exact ⟨fun h1 => hnotdisc (Or.inl h1), fun h2 => hnotdisc (Or.inr h2)⟩
  -- the old nodup list, reassociated
  have hnodupOld : ((sorted.map GraphNode.id ++ [u]) ++ rest).Nodup := by
    have := inv.nodup
    rwa [List.append_assoc, List.singleton_append]
  have hnodup' : (((sorted ++ [n]).map GraphNode.id) ++ (rest ++ new)).Nodup := by
    rw [hprocIds]
    have hshape : (sorted.map GraphNode.id ++ [u]) ++ (rest ++ new) =
        ((sorted.map GraphNode.id ++ [u]) ++ rest) ++ new := by
      simp [List.append_assoc]
    rw [hshape]
    rw [List.nodup_append]
    refine ⟨hnodupOld, hnodupNew, ?_⟩
    intro x hxA hxNew
    rcases hnewProps x hxNew with ⟨_, hxp, hxq⟩
    rcases List.mem_append.1 hxA with hxx | hxx
    · rcases List.mem_append.1 hxx with hxx2 | hxx2
      · exact hxp hxx2
      · have : x = u := by simpa using hxx2
        exact hxq (this ▸ List.mem_cons_self u rest)
    · exact hxq (List.mem_cons_of_mem u hxx)
  -- the in-sources of u are all already emitted
  have hUsources : ∀ e ∈ edges, e.target = u → e.source ∈ sorted.map GraphNode.id :=
    (inv.discovered u hu).1 (Or.inr (List.mem_cons_self u rest))
  refine ⟨n, new, hn, hnid, hfold, hnewProps, hnodupNew, ?_⟩
  constructor
  · -- sortedCanon
    intro m hm
    rcases List.mem_append.1 hm with hm1 | hm1
    · exact inv.sortedCanon m hm1
    · have : m = n := by simpa using hm1
      subst this
      rw [hnid]
      exact hn
  · -- nodup
    exact hnodup'
  · -- queueSub
    intro x hx
    rcases List.mem_append.1 hx with hx1 | hx1
    · exact inv.queueSub x (List.mem_cons_of_mem u hx1)
    · exact (hnewProps x hx1).1
  · -- sortedSub
    intro x hx
    rw [hprocIds] at hx
    rcases List.mem_append.1 hx with hx1 | hx1
    · exact inv.sortedSub x hx1
    · have : x = u := by simpa using hx1
      exact this ▸ hu
  · -- degEq
    intro x
    rw [hdeg2 x, hprocIds]
  · -- discovered
    intro x hxnode
    rw [hprocIds]
    constructor
    · intro hdisc
      intro e hee htgt
      rcases hdisc with hdisc | hdisc
      · rcases List.mem_append.1 hdisc with hd1 | hd1
        · -- x was already emitted
          have := (inv.discovered x hxnode).1 (Or.inl hd1) e hee htgt
          exact List.mem_append_left _ this
        · -- x = u
          have hxu : x = u := by simpa using hd1
          subst hxu
          exact List.mem_append_left _ (hUsources e hee htgt)
      · rcases List.mem_append.1 hdisc with hd1 | hd1
        · -- x still queued from before
          have := (inv.discovered x hxnode).1 (Or.inr (List.mem_cons_of_mem u hd1)) e hee htgt
          exact List.mem_append_left _ this
        · -- x newly enqueued
          have h0 := ((hnewiff x).1 hd1).2
          exact pendingInDeg_zero_iff.1 h0 e hee htgt
    · intro hall
      by_cases hxu : x = u
      · exact Or.inl (List.mem_append_right _ (by simp [hxu]))
      · by_cases hold : x ∈ sorted.map GraphNode.id ∨ x ∈ rest
        · rcases hold with hold | hold
          · exact Or.inl (List.mem_append_left _ hold)
          · exact Or.inr (List.mem_append_left _ hold)
        · -- x is undiscovered in the old state, so the old pending degree is positive
          have hnotold : ¬ (x ∈ sorted.map GraphNode.id ∨ x ∈ u :: rest) := by
            intro hc
            rcases hc with hc | hc
            · exact hold (Or.inl hc)
            · rcases List.mem_cons.1 hc with hc1 | hc1
              · exact hxu hc1
              · exact hold (Or.inr hc1)
          have hnall : ¬ ∀ e ∈ edges, e.target = x → e.source ∈ sorted.map GraphNode.id :=
            fun h => hnotold ((inv.discovered x hxnode).2 h)
          push_neg at hnall
          rcases hnall with ⟨e, hee, htgt, hsrc⟩
          have hpos : 0 < deg x := by
            rw [inv.degEq x]
            have := pendingInDeg_pos hee htgt hsrc
            omega
          have h0 : pendingInDeg edges (sorted.map GraphNode.id ++ [u]) x = 0 :=
            pendingInDeg_zero_iff.2 hall
          exact Or.inr (List.mem_append_right _ ((hnewiff x).2 ⟨hpos, h0⟩))
  · -- ordered
    intro e hee htgt
    rw [hprocIds] at htgt ⊢
    rcases List.mem_append.1 htgt with ht1 | ht1
    · obtain ⟨hsrc, hidx⟩ := inv.ordered e hee ht1
      refine ⟨List.mem_append_left _ hsrc, ?_⟩
      rw [List.indexOf_append_of_mem hsrc, List.indexOf_append_of_mem ht1]
      exact hidx
    · have htu : e.target = u := by simpa using ht1
      have hsrc := hUsources e hee htu
      refine ⟨List.mem_append_left _ hsrc, ?_⟩
      rw [List.indexOf_append_of_mem hsrc, htu,
        List.indexOf_append_of_not_mem hUnotProc]
      have hlt : (sorted.map GraphNode.id).indexOf e.source <
          (sorted.map GraphNode.id).length := List.indexOf_lt_length.2 hsrc
      simp only [List.indexOf_cons_self]
      omega

theorem kahnLoop_cons (adj : String → List String) (nmap : String → Option GraphNode)
    (fuel : Nat) (u : String) (rest : List String) (deg : String → Int)
    (sorted : List GraphNode) :
    kahnLoop adj nmap (fuel + 1) (u :: rest) deg sorted =
      kahnLoop adj nmap fuel ((adj u).foldl kahnStep (deg, rest)).2
        ((adj u).foldl kahnStep (deg, rest)).1
        (match nmap u with
         | some n => sorted ++ [n]
         | none => sorted) := rfl

theorem kahnLoop_run {nodes : List GraphNode} {edges : List GraphEdge}
    (hnd : (nodeIds nodes).Nodup)
    (he : ∀ e ∈ edges, e.source ∈ nodeIds nodes ∧ e.target ∈ nodeIds nodes) :
    ∀ (fuel : Nat) (queue : List String) (deg : String → Int) (sorted : List GraphNode),
      KahnInv nodes edges queue deg sorted →
      queue.length +
        ((nodeIds nodes).toFinset \
          ((sorted.map GraphNode.id).toFinset ∪ queue.toFinset)).card < fuel →
      ∃ sortedF degF,
        kahnLoop (outAdj nodes edges) (nodeMapGet nodes) fuel queue deg sorted = sortedF ∧
        KahnInv nodes edges [] degF sortedF := by
  intro fuel
  induction fuel with
  | zero =>
    intro queue deg sorted _ hlt
    omega
  | succ fuel ih =>
    intro queue deg sorted inv hlt
    match queue with
    | [] => exact ⟨sorted, deg, rfl, inv⟩
    | u :: rest =>
      obtain ⟨n, new, hn, hnid, hfold2, hnewProps, hnodupNew, inv'⟩ := kahnInv_step hnd he inv
      rw [kahnLoop_cons, hn, hfold2]
      have hmeasure : (rest ++ new).length +
          ((nodeIds nodes).toFinset \
            (((sorted ++ [n]).map GraphNode.id).toFinset ∪ (rest ++ new).toFinset)).card
          < fuel := by
        have hset : ((sorted ++ [n]).map GraphNode.id).toFinset ∪ (rest ++ new).toFinset =
            (((sorted.map GraphNode.id).toFinset ∪ (u :: rest).toFinset) ∪ new.toFinset) := by
          ext y
          simp only [Finset.mem_union, List.mem_toFinset, List.map_append, List.mem_append,
            List.map_cons, List.map_nil, List.mem_singleton, List.mem_cons, hnid]
          tauto
        have hsdiff : (nodeIds nodes).toFinset \
            (((sorted.map GraphNode.id).toFinset ∪ (u :: rest).toFinset) ∪ new.toFinset) =
            ((nodeIds nodes).toFinset \
              ((sorted.map GraphNode.id).toFinset ∪ (u :: rest).toFinset)) \ new.toFinset := by
          ext y
          simp only [Finset.mem_sdiff, Finset.mem_union]
          tauto
        have hsubS : new.toFinset ⊆ (nodeIds nodes).toFinset \
            ((sorted.map GraphNode.id).toFinset ∪ (u :: rest).toFinset) := by
          intro y hy
          rw [List.mem_toFinset] at hy
          rcases hnewProps y hy with ⟨h1, h2, h3⟩
          rw [Finset.mem_sdiff, Finset.mem_union]
          refine ⟨List.mem_toFinset.2 h1, ?_⟩
          intro hc
          rcases hc with hc | hc
          · exact h2 (List.mem_toFinset.1 hc)
          · exact h3 (List.mem_toFinset.1 hc)
        have hcardS : new.toFinset.card = new.length := List.toFinset_card_of_nodup hnodupNew
        have hcard_le := Finset.card_le_card hsubS
        have hcard_sdiff := Finset.card_sdiff hsubS
        rw [hset, hsdiff, hcard_sdiff]
        rw [List.length_append]
        simp only [List.length_cons] at hlt
        omega
      obtain ⟨sortedF, degF, hrun, invF⟩ := ih (rest ++ new) _ _ inv' hmeasure
      exact ⟨sortedF, degF, hrun, invF⟩

theorem kahn_complete {nodes : List GraphNode} {edges : List GraphEdge}
    (he : ∀ e ∈ edges, e.source ∈ nodeIds nodes ∧ e.target ∈ nodeIds nodes)
    (hac : AcyclicGraph edges)
    {deg : String → Int} {sorted : List GraphNode}
    (inv : KahnInv nodes edges [] deg sorted) :
    ∀ x ∈ nodeIds nodes, x ∈ sorted.map GraphNode.id := by
  classical
  by_contra hcon
  push_neg at hcon
  obtain ⟨x0, hx0n, hx0s⟩ := hcon
  set U : Finset String := (nodeIds nodes).toFinset.filter
    (fun y => y ∉ sorted.map GraphNode.id) with hU
  have hx0U : x0 ∈ U := by
    rw [hU, Finset.mem_filter]
    exact ⟨List.mem_toFinset.2 hx0n, hx0s⟩
  have hpred : ∀ v ∈ U, ∃ w ∈ U, edgeStep edges w v := by
    intro v hv
    rw [hU, Finset.mem_filter] at hv
    obtain ⟨hvN, hvP⟩ := hv
    have hvn := List.mem_toFinset.1 hvN
    have hnall : ¬ ∀ e ∈ edges, e.target = v → e.source ∈ sorted.map GraphNode.id := by
      intro hall
      exact hvP (((inv.discovered v hvn).2 hall).resolve_right (List.not_mem_nil v))
    push_neg at hnall
    obtain ⟨e, hee, htgt, hsrc⟩ := hnall
    refine ⟨e.source, ?_, ⟨e, hee, rfl, htgt⟩⟩
    rw [hU, Finset.mem_filter]
    exact ⟨List.mem_toFinset.2 (he e hee).1, hsrc⟩
  haveI : Fintype {y // y ∈ U} := FinsetCoe.fintype U
  let r : {y // y ∈ U} → {y // y ∈ U} → Prop :=
    fun a b => Relation.TransGen (edgeStep edges) a.1 b.1
  haveI : IsTrans {y // y ∈ U} r := ⟨fun _ _ _ hab hbc => hab.trans hbc⟩
  haveI : IsIrrefl {y // y ∈ U} r := ⟨fun a ha => hac a.1 ha⟩
  have hwf : WellFounded r := Finite.wellFounded_of_trans_of_irrefl r
  obtain ⟨m, -, hmin⟩ := hwf.has_min Set.univ ⟨⟨x0, hx0U⟩, Set.mem_univ _⟩
  obtain ⟨w, hwU, hstep⟩ := hpred m.1 m.2
  exact hmin ⟨w, hwU⟩ (Set.mem_univ _) (Relation.TransGen.single hstep)

theorem topologicalSort_spec {nodes : List GraphNode} {edges : List GraphEdge}
    (hnd : (nodeIds nodes).Nodup)
    (he : ∀ e ∈ edges, e.source ∈ nodeIds nodes ∧ e.target ∈ nodeIds nodes)
    (hac : AcyclicGraph edges) :
    (topologicalSort nodes edges).Perm nodes ∧
    ∀ e ∈ edges,
      e.source ∈ (topologicalSort nodes edges).map GraphNode.id ∧
      e.target ∈ (topologicalSort nodes edges).map GraphNode.id ∧
      ((topologicalSort nodes edges).map GraphNode.id).indexOf e.source <
        ((topologicalSort nodes edges).map GraphNode.id).indexOf e.target := by
  classical
  have hmeasure :
      ((nodes.filter (fun n => initInDeg edges n.id == 0)).map (·.id)).length +
        ((nodeIds nodes).toFinset \
          ((([] : List GraphNode).map GraphNode.id).toFinset ∪
            ((nodes.filter (fun n => initInDeg edges n.id == 0)).map (·.id)).toFinset)).card
      < nodes.length + edges.length + 1 := by
    set q0 := (nodes.filter (fun n => initInDeg edges n.id == 0)).map (·.id) with hq0
    have hndq : q0.Nodup := by
      have hsub : q0.Sublist (nodes.map (fun x => x.id)) := (List.filter_sublist nodes).map _
      exact hsub.nodup hnd
    have hsubq : q0.toFinset ⊆ (nodeIds nodes).toFinset := by
      intro y hy
      rw [List.mem_toFinset] at hy
      rcases List.mem_map.1 hy with ⟨m, hm, hmid⟩
      exact List.mem_toFinset.2 (List.mem_map.2 ⟨m, (List.mem_filter.1 hm).1, hmid⟩)
    have hempty : (([] : List GraphNode).map GraphNode.id).toFinset ∪ q0.toFinset =
        q0.toFinset := by
      simp
    rw [hempty, Finset.card_sdiff hsubq]
    have h1 : (nodeIds nodes).toFinset.card ≤ (nodeIds nodes).length :=
      List.toFinset_card_le _
    have h2 : (nodeIds nodes).length = nodes.length := List.length_map _ _
    have h3 := Finset.card_le_card hsubq
    have h4 : q0.toFinset.card = q0.length := List.toFinset_card_of_nodup hndq
    omega
  obtain ⟨sortedF, degF, hrun, invF⟩ :=
    kahnLoop_run hnd he (nodes.length + edges.length + 1) _ _ _
      (kahnInv_init nodes edges hnd) hmeasure
  unfold topologicalSort
  rw [hrun]
  have hndF : (sortedF.map GraphNode.id).Nodup := by
    have := invF.nodup
    rwa [List.append_nil] at this
  have hsup : ∀ x ∈ nodeIds nodes, x ∈ sortedF.map GraphNode.id :=
    kahn_complete he hac invF
  have hperm_ids : (sortedF.map GraphNode.id).Perm (nodeIds nodes) :=
    (List.perm_ext_iff_of_nodup hndF hnd).2
      (fun a => ⟨fun h => invF.sortedSub a h, fun h => hsup a h⟩)
  have hsorted_eq : (sortedF.map GraphNode.id).filterMap (nodeMapGet nodes) = sortedF :=
    filterMap_nodeMapGet invF.sortedCanon
  have hnodes_eq : (nodeIds nodes).filterMap (nodeMapGet nodes) = nodes :=
    filterMap_nodeMapGet (fun n hn => nodeMapGet_self hnd hn)
  constructor
  · have hfm := hperm_ids.filterMap (nodeMapGet nodes)
    rwa [hsorted_eq, hnodes_eq] at hfm
  · intro e hee
    have htgt : e.target ∈ sortedF.map GraphNode.id := hsup e.target (he e hee).2
    obtain ⟨hsrc, hidx⟩ := invF.ordered e hee htgt
    exact ⟨hsrc, htgt, hidx⟩

/-- A graph in which no edge's target is also an edge's source has no
directed cycle (every path has length at most one). -/
theorem acyclic_of_targets_not_sources {edges : List GraphEdge}
    (h : ∀ e ∈ edges, ∀ e' ∈ edges, e.target ≠ e'.source) : AcyclicGraph edges := by
  intro a hcyc
  obtain ⟨b, hstep, hrest⟩ := Relation.TransGen.head'_iff.1 hcyc
  obtain ⟨e1, he1, hs1, ht1⟩ := hstep
  rcases Relation.ReflTransGen.cases_head hrest with heq | ⟨c, hstep2, _⟩
  · subst heq
    exact h e1 he1 e1 he1 (ht1.trans hs1.symm)
  · obtain ⟨e2, he2, hs2, _⟩ := hstep2
    exact h e1 he1 e2 he2 (ht1.trans hs2.symm)

/-! ### Concrete scenario graphs shared by examples and witnesses -/

/-- A required string input port named `in`. -/
def portIn : PortDefinition := ⟨"in", "Input", "string", true⟩

/-- A string output port named `out`. -/
def portOut : PortDefinition := ⟨"out", "Output", "string", false⟩

/-- The linear-chain scenario's first node: `Strings.Lowercase` with one
required string input and no user-supplied value. -/
def chainN1 : GraphNode :=
  ⟨"n1", ⟨⟨"Strings", [portIn], [portOut], "Strings.Lowercase"⟩, "Lowercase", []⟩⟩

/-- The linear-chain scenario's second node: `Strings.CamelCase`. -/
def chainN2 : GraphNode :=
  ⟨"n2", ⟨⟨"Strings", [portIn], [portOut], "Strings.CamelCase"⟩, "CamelCase", []⟩⟩

/-- The linear-chain edge `n1.out → n2.in`. -/
def chainEdge : GraphEdge := ⟨"e1", "n1", "n2", some "out", some "in"⟩

/-- C1: for every input whose directed graph is acyclic — under the data
model's invariants that node ids are unique and every edge's endpoints exist
in the node set — `topologicalSort` returns every node of the input node
array exactly once (a permutation of the node array), and for every edge
`u → v` the id of `u` appears strictly before the id of `v` in the returned
order; consequently `u`'s `Exec` statement is emitted before `v`'s `Exec`
statement in the statement list that `generateExecutionCode` joins into its
output. -/
theorem C1_topologicalSort_correct (nodes : List GraphNode) (edges : List GraphEdge)
    (hnd : (nodeIds nodes).Nodup)
    (he : ∀ e ∈ edges, e.source ∈ nodeIds nodes ∧ e.target ∈ nodeIds nodes)
    (hac : AcyclicGraph edges) :
    (topologicalSort nodes edges).Perm nodes ∧
    (∀ e ∈ edges,
      ((topologicalSort nodes edges).map GraphNode.id).indexOf e.source <
        ((topologicalSort nodes edges).map GraphNode.id).indexOf e.target) ∧
    (∀ e ∈ edges, ∃ (nu nv : GraphNode) (i j : Nat),
      nu.id = e.source ∧ nv.id = e.target ∧ i < j ∧
      (execStatements nodes edges)[i]? = some (execStatement edges nu) ∧
      (execStatements nodes edges)[j]? = some (execStatement edges nv)) := by
  obtain ⟨hperm, hord⟩ := topologicalSort_spec hnd he hac
  refine ⟨hperm, fun e hee => (hord e hee).2.2, ?_⟩
  intro e hee
  obtain ⟨hsrc, htgt, hidx⟩ := hord e hee
  have hisrc : ((topologicalSort nodes edges).map GraphNode.id).indexOf e.source <
      ((topologicalSort nodes edges).map GraphNode.id).length :=
    List.indexOf_lt_length.2 hsrc
  have hitgt : ((topologicalSort nodes edges).map GraphNode.id).indexOf e.target <
      ((topologicalSort nodes edges).map GraphNode.id).length :=
    List.indexOf_lt_length.2 htgt
  have hlen : ((topologicalSort nodes edges).map GraphNode.id).length =
      (topologicalSort nodes edges).length := List.length_map _ _
  have hisrc' := hisrc
  have hitgt' := hitgt
  rw [hlen] at hisrc' hitgt'
  refine ⟨(topologicalSort nodes edges).get ⟨((topologicalSort nodes edges).map
      GraphNode.id).indexOf e.source, hisrc'⟩,
    (topologicalSort nodes edges).get ⟨((topologicalSort nodes edges).map
      GraphNode.id).indexOf e.target, hitgt'⟩,
    _, _, ?_, ?_, hidx, ?_, ?_⟩
  · have h1 := List.getElem_indexOf hisrc
    rw [List.getElem_map] at h1
    exact h1
  · have h1 := List.getElem_indexOf hitgt
    rw [List.getElem_map] at h1
    exact h1
  · show (execStatements nodes edges)[_]? = _
    unfold execStatements
    rw [List.getElem?_map, List.getElem?_eq_getElem hisrc']
    rfl
  · show (execStatements nodes edges)[_]? = _
    unfold execStatements
    rw [List.getElem?_map, List.getElem?_eq_getElem hitgt']
    rfl

/-- Witness for C1: the linear-chain scenario (`n1 → n2`) satisfies all
three hypotheses, and the theorem yields the permutation property there. -/
theorem C1_witness :
    (topologicalSort [chainN1, chainN2] [chainEdge]).Perm [chainN1, chainN2] :=
  (C1_topologicalSort_correct [chainN1, chainN2] [chainEdge]
    (by decide) (by decide)
    (acyclic_of_targets_not_sources (by decide))).1

/-! ### Correctness of the cycle detector (C3) -/

/-- The step relation the DFS of `hasCycle` actually walks: `b` is an
out-neighbor of `a` in the adjacency it builds (so `a` is a node id and some
edge runs `a → b`). -/
def adjStep (nodes : List GraphNode) (edges : List GraphEdge) (a b : String) : Prop :=
  b ∈ outAdj nodes edges a

/-- The claim's cycle relation: a directed edge both of whose endpoints lie
in the node set. -/
def restrictedStep (nodes : List GraphNode) (edges : List GraphEdge) (a b : String) : Prop :=
  a ∈ nodeIds nodes ∧ b ∈ nodeIds nodes ∧ ∃ e ∈ edges, e.source = a ∧ e.target = b

theorem adjStep_iff {nodes : List GraphNode} {edges : List GraphEdge} {a b : String} :
    adjStep nodes edges a b ↔
      a ∈ nodeIds nodes ∧ ∃ e ∈ edges, e.source = a ∧ e.target = b := by
  constructor
  · intro h
    obtain ⟨ha, e, hee, hs, ht⟩ := outAdj_mem h
    exact ⟨ha, e, hee, hs, ht⟩
  · intro ⟨ha, e, hee, hs, ht⟩
    exact ht ▸ mem_outAdj ha hee hs

/-- A cycle in the walked relation is the same thing as a cycle among the
edges with both endpoints in the node set. -/
theorem cycle_adjStep_iff_restricted (nodes : List GraphNode) (edges : List GraphEdge) :
    (∃ u, Relation.TransGen (adjStep nodes edges) u u) ↔
      (∃ u, Relation.TransGen (restrictedStep nodes edges) u u) := by
  constructor
  · rintro ⟨u, hcyc⟩
    have key : ∀ a b, Relation.TransGen (adjStep nodes edges) a b →
        b ∈ nodeIds nodes → Relation.TransGen (restrictedStep nodes edges) a b := by
      intro a b h
      induction h with
      | single hstep =>
        intro hb
        obtain ⟨ha, e, hee, hs, ht⟩ := adjStep_iff.1 hstep
        exact Relation.TransGen.single ⟨ha, hb, e, hee, hs, ht⟩
      | tail hab hstep ih =>
        intro hc
        have hb' := (adjStep_iff.1 hstep).1
        exact (ih hb').tail ⟨hb', hc, (adjStep_iff.1 hstep).2⟩
    obtain ⟨x, hstep, _⟩ := Relation.TransGen.head'_iff.1 hcyc
    exact ⟨u, key u u hcyc (adjStep_iff.1 hstep).1⟩
  · rintro ⟨u, hcyc⟩
    refine ⟨u, hcyc.mono ?_⟩
    intro a b hs
    exact adjStep_iff.2 ⟨hs.1, hs.2.2⟩

/-- The structural invariant and postcondition bundle of the DFS on cycle
states: visited grows inside the universe, a `false` return restores the
recursion stack, and a finished ("done") id never rejoins the stack. -/
def cdfsPost (U : Finset String) (st : CycState) (r : Bool × CycState) : Prop :=
  st.visited ⊆ r.2.visited ∧
  r.2.visited ⊆ st.visited ∪ U ∧
  (r.1 = false → r.2.stack = st.stack) ∧
  (∀ x, x ∈ st.visited → x ∉ st.stack → x ∉ r.2.stack)

theorem cdfsList_basic {adj : String → List String} {U : Finset String} (fuel : Nat)
    (IH : ∀ u st, u ∈ U → u ∉ st.visited → st.stack ⊆ st.visited →
      cdfsPost U st (cdfs adj fuel u st)) :
    ∀ vs st, (∀ v ∈ vs, v ∈ U) → st.stack ⊆ st.visited →
      cdfsPost U st (cdfsList adj fuel vs st) := by
  intro vs
  induction vs with
  | nil =>
    intro st _ _
    simp only [cdfsList]
    exact ⟨subset_rfl, Finset.subset_union_left, fun _ => rfl, fun x _ hs => hs⟩
  | cons v vs ih =>
    intro st hvs hW
    simp only [cdfsList]
    by_cases hv : v ∉ st.visited
    · rw [if_pos hv]
      rcases hc : cdfs adj fuel v st with ⟨b, st2⟩
      have hpost := IH v st (hvs v (List.mem_cons_self v vs)) hv hW
      rw [hc] at hpost
      obtain ⟨hmono, hU, hstk, hdone⟩ := hpost
      cases b with
      | true => exact ⟨hmono, hU, fun h => absurd h (by simp), hdone⟩
      | false =>
        have hstk2 : st2.stack = st.stack := hstk rfl
        have hW2 : st2.stack ⊆ st2.visited := by
          rw [hstk2]
          exact hW.trans hmono
        have hrec := ih st2 (fun w hw => hvs w (List.mem_cons_of_mem v hw)) hW2
        obtain ⟨hmono2, hU2, hstk3, hdone2⟩ := hrec
        refine ⟨hmono.trans hmono2, ?_, ?_, ?_⟩
        · intro y hy
          rcases Finset.mem_union.1 (hU2 hy) with hy1 | hy1
          · exact hU hy1
          · exact Finset.mem_union_right _ hy1
        · intro hfalse
          rw [hstk3 hfalse, hstk2]
        · intro x hx hs
          exact hdone2 x (hmono hx) (hdone x hx hs)
    · rw [if_neg hv]
      by_cases hvstk : v ∈ st.stack
      · rw [if_pos hvstk]
        exact ⟨subset_rfl, Finset.subset_union_left, fun h => absurd h (by simp),
          fun x _ hs => hs⟩
      · rw [if_neg hvstk]
        exact ih st (fun w hw => hvs w (List.mem_cons_of_mem v hw)) hW

theorem cdfs_basic {adj : String → List String} {U : Finset String}
    (hadjU : ∀ x y, y ∈ adj x → y ∈ U) :
    ∀ fuel, ∀ u st, u ∈ U → u ∉ st.visited → st.stack ⊆ st.visited →
      cdfsPost U st (cdfs adj fuel u st) := by
  intro fuel
  induction fuel with
  | zero =>
    intro u st _ _ _
    simp only [cdfs]
    exact ⟨subset_rfl, Finset.subset_union_left, fun _ => rfl, fun x _ hs => hs⟩
  | succ fuel ih =>
    intro u st hU hv hW
    rw [cdfs_succ]
    set st1 : CycState := ⟨insert u st.visited, insert u st.stack⟩ with hst1
    have hW1 : st1.stack ⊆ st1.visited := by
      intro y hy
      rcases Finset.mem_insert.1 hy with hy1 | hy1
      · exact hy1 ▸ Finset.mem_insert_self u _
      · exact Finset.mem_insert_of_mem (hW hy1)
    have hlist := cdfsList_basic fuel ih (adj u) st1 (fun v hvv => hadjU u v hvv) hW1
    rcases hc : cdfsList adj fuel (adj u) st1 with ⟨b, st2⟩
    rw [hc] at hlist
    obtain ⟨hmono, hUsub, hstk, hdone⟩ := hlist
    have hmono' : st.visited ⊆ st2.visited :=
      (Finset.subset_insert u st.visited).trans hmono
    have hUsub' : st2.visited ⊆ st.visited ∪ U := by
      intro y hy
      rcases Finset.mem_union.1 (hUsub hy) with hy1 | hy1
      · rcases Finset.mem_insert.1 hy1 with hy2 | hy2
        · exact Finset.mem_union_right _ (hy2 ▸ hU)
        · exact Finset.mem_union_left _ hy2
      · exact Finset.mem_union_right _ hy1
    have hdone' : ∀ x, x ∈ st.visited → x ∉ st.stack → x ∉ st2.stack := by
      intro x hx hs
      have hx1 : x ∈ st1.visited := Finset.mem_insert_of_mem hx
      have hxu : x ≠ u := fun h => hv (h ▸ hx)
      have hs1 : x ∉ st1.stack := by
        rw [hst1]
        intro hmem
        rcases Finset.mem_insert.1 hmem with h | h
        · exact hxu h
        · exact hs h
      exact hdone x hx1 hs1
    cases b with
    | true => exact ⟨hmono', hUsub', fun h => absurd h (by simp), hdone'⟩
    | false =>
      refine ⟨hmono', hUsub', ?_, ?_⟩
      · intro _
        show (st2.stack.erase u) = st.stack
        rw [hstk rfl]
        show (st1.stack.erase u) = st.stack
        rw [hst1]
        exact Finset.erase_insert (fun h => hv (hW h))
      · intro x hx hs
        intro hmem
        exact hdone' x hx hs (Finset.mem_of_mem_erase hmem)

/-- Soundness of the back-edge check: a `true` result means a directed cycle
exists in the walked relation.  The recursion-stack precondition: every id on
the stack reaches the current node. -/
theorem cdfs_sound {nodes : List GraphNode} {edges : List GraphEdge} {U : Finset String}
    (hadjU : ∀ x y, y ∈ outAdj nodes edges x → y ∈ U) :
    ∀ fuel, ∀ u st, u ∈ U → u ∉ st.visited → st.stack ⊆ st.visited →
      (∀ x ∈ st.stack, Relation.ReflTransGen (adjStep nodes edges) x u) →
      (cdfs (outAdj nodes edges) fuel u st).1 = true →
      ∃ z, Relation.TransGen (adjStep nodes edges) z z := by
  intro fuel
  induction fuel with
  | zero =>
    intro u st _ _ _ _ htrue
    simp only [cdfs] at htrue
    exact absurd htrue (by simp)
  | succ fuel ih =>
    intro u st hU hv hW hreach htrue
    rw [cdfs_succ] at htrue
    set st1 : CycState := ⟨insert u st.visited, insert u st.stack⟩ with hst1
    have hW1 : st1.stack ⊆ st1.visited := by
      intro y hy
      rcases Finset.mem_insert.1 hy with hy1 | hy1
      · exact hy1 ▸ Finset.mem_insert_self u _
      · exact Finset.mem_insert_of_mem (hW hy1)
    have hreach1 : ∀ x ∈ st1.stack, Relation.ReflTransGen (adjStep nodes edges) x u := by
      intro x hx
      rcases Finset.mem_insert.1 hx with hx1 | hx1
      · exact hx1 ▸ Relation.ReflTransGen.refl
      · exact hreach x hx1
    -- the generalized list claim
    have hlist : ∀ vs st', (∀ v ∈ vs, adjStep nodes edges u v) →
        st'.stack ⊆ st'.visited →
        (∀ x ∈ st'.stack, Relation.ReflTransGen (adjStep nodes edges) x u) →
        (cdfsList (outAdj nodes edges) fuel vs st').1 = true →
        ∃ z, Relation.TransGen (adjStep nodes edges) z z := by
      intro vs
      induction vs with
      | nil =>
        intro st' _ _ _ htrue'
        simp only [cdfsList] at htrue'
        exact absurd htrue' (by simp)
      | cons v vs ihl =>
        intro st' hvs hW' hreach' htrue'
        simp only [cdfsList] at htrue'
        by_cases hvv : v ∉ st'.visited
        · rw [if_pos hvv] at htrue'
          rcases hc : cdfs (outAdj nodes edges) fuel v st' with ⟨b, st2⟩
          rw [hc] at htrue'
          cases b with
          | true =>
            have hvU : v ∈ U := hadjU u v (hvs v (List.mem_cons_self v vs))
            have hreachv : ∀ x ∈ st'.stack,
                Relation.ReflTransGen (adjStep nodes edges) x v := by
              intro x hx
              exact (hreach' x hx).tail (hvs v (List.mem_cons_self v vs))
            have := ih v st' hvU hvv hW' hreachv
            rw [hc] at this
            exact this rfl
          | false =>
            have hvU : v ∈ U := hadjU u v (hvs v (List.mem_cons_self v vs))
            have hpost := cdfs_basic hadjU fuel v st' hvU hvv hW'
            rw [hc] at hpost
            obtain ⟨hmono, _, hstk, _⟩ := hpost
            have hstk2 : st2.stack = st'.stack := hstk rfl
            exact ihl st2 (fun w hw => hvs w (List.mem_cons_of_mem v hw))
              (by rw [hstk2]; exact hW'.trans hmono)
              (by rw [hstk2]; exact hreach') htrue'
        · rw [if_neg hvv] at htrue'
          by_cases hvstk : v ∈ st'.stack
          · rw [if_pos hvstk] at htrue'
            -- back edge: v is on the stack and u steps to v
            exact ⟨v, Relation.TransGen.tail' (hreach' v hvstk)
              (hvs v (List.mem_cons_self v vs))⟩
          · rw [if_neg hvstk] at htrue'
            exact ihl st' (fun w hw => hvs w (List.mem_cons_of_mem v hw)) hW' hreach' htrue'
    rcases hc : cdfsList (outAdj nodes edges) fuel (outAdj nodes edges u) st1 with ⟨b, st2⟩
    rw [hc] at htrue
    cases b with
    | true =>
      have := hlist (outAdj nodes edges u) st1 (fun v hvv => hvv) hW1 hreach1
      rw [hc] at this
      exact this rfl
    | false => simp at htrue

/-- The invariants carried by every finished ("done") id of the DFS: its
successors are finished, and it lies on no directed cycle. -/
def CycDone (nodes : List GraphNode) (edges : List GraphEdge) (st : CycState) : Prop :=
  (∀ x, x ∈ st.visited → x ∉ st.stack → ∀ v ∈ outAdj nodes edges x,
    v ∈ st.visited ∧ v ∉ st.stack) ∧
  (∀ x, x ∈ st.visited → x ∉ st.stack → ¬ Relation.TransGen (adjStep nodes edges) x x)

theorem cdfs_complete {nodes : List GraphNode} {edges : List GraphEdge} {U : Finset String}
    (hadjU : ∀ x y, y ∈ outAdj nodes edges x → y ∈ U) :
    ∀ fuel, ∀ u st, u ∈ U → u ∉ st.visited → st.stack ⊆ st.visited →
      CycDone nodes edges st → (U \ st.visited).card < fuel →
      (cdfs (outAdj nodes edges) fuel u st).1 = false →
      u ∈ (cdfs (outAdj nodes edges) fuel u st).2.visited ∧
      u ∉ (cdfs (outAdj nodes edges) fuel u st).2.stack ∧
      CycDone nodes edges (cdfs (outAdj nodes edges) fuel u st).2 := by
  intro fuel
  induction fuel with
  | zero =>
    intro u st _ _ _ _ hcard _
    omega
  | succ fuel ih =>
    intro u st hU hv hW hdone hcard hfalse
    set st1 : CycState := ⟨insert u st.visited, insert u st.stack⟩ with hst1def
    have hW1 : st1.stack ⊆ st1.visited := by
      intro y hy
      rcases Finset.mem_insert.1 hy with hy1 | hy1
      · exact Finset.mem_insert.2 (Or.inl hy1)
      · exact Finset.mem_insert_of_mem (hW hy1)
    have hdone1 : CycDone nodes edges st1 := by
      constructor
      · intro x hx hs v hvv
        have hxu : x ≠ u := by
          intro h
          exact hs (h ▸ Finset.mem_insert_self u _)
        have hx' : x ∈ st.visited := by
          rcases Finset.mem_insert.1 hx with h | h
          · exact absurd h hxu
          · exact h
        have hs' : x ∉ st.stack := fun h => hs (Finset.mem_insert_of_mem h)
        obtain ⟨hv1, hv2⟩ := hdone.1 x hx' hs' v hvv
        refine ⟨Finset.mem_insert_of_mem hv1, ?_⟩
        intro hmem
        rcases Finset.mem_insert.1 hmem with h | h
        · exact hv (h ▸ hv1)
        · exact hv2 h
      · intro x hx hs
        have hxu : x ≠ u := by
          intro h
          exact hs (h ▸ Finset.mem_insert_self u _)
        have hx' : x ∈ st.visited := by
          rcases Finset.mem_insert.1 hx with h | h
          · exact absurd h hxu
          · exact h
        have hs' : x ∉ st.stack := fun h => hs (Finset.mem_insert_of_mem h)
        exact hdone.2 x hx' hs'
    have hcard1 : (U \ st1.visited).card < fuel := by
      have hsub : U \ st1.visited ⊆ U \ st.visited := by
        intro y hy
        rw [Finset.mem_sdiff] at hy ⊢
        exact ⟨hy.1, fun h => hy.2 (Finset.mem_insert_of_mem h)⟩
      have hne : u ∈ U \ st.visited := Finset.mem_sdiff.2 ⟨hU, hv⟩
      have hnotin : u ∉ U \ st1.visited := by
        rw [Finset.mem_sdiff]
        intro ⟨_, h2⟩
        exact h2 (Finset.mem_insert_self u _)
      have hssub : U \ st1.visited ⊂ U \ st.visited :=
        Finset.ssubset_iff_of_subset hsub |>.2 ⟨u, hne, hnotin⟩
      have := Finset.card_lt_card hssub
      omega
    -- the list claim
    have hlist : ∀ vs st', (∀ v ∈ vs, v ∈ U) → st'.stack ⊆ st'.visited →
        CycDone nodes edges st' → (U \ st'.visited).card < fuel →
        (cdfsList (outAdj nodes edges) fuel vs st').1 = false →
        CycDone nodes edges (cdfsList (outAdj nodes edges) fuel vs st').2 ∧
        st'.visited ⊆ (cdfsList (outAdj nodes edges) fuel vs st').2.visited ∧
        (cdfsList (outAdj nodes edges) fuel vs st').2.stack = st'.stack ∧
        (∀ v ∈ vs, v ∈ (cdfsList (outAdj nodes edges) fuel vs st').2.visited ∧
          v ∉ (cdfsList (outAdj nodes edges) fuel vs st').2.stack) := by
      intro vs
      induction vs with
      | nil =>
        intro st' _ _ hdone' _ _
        have hnil : cdfsList (outAdj nodes edges) fuel [] st' = (false, st') := by
          simp only [cdfsList]
        rw [hnil]
        exact ⟨hdone', subset_rfl, rfl, fun v hvv => absurd hvv (List.not_mem_nil v)⟩
      | cons v vs ihl =>
        intro st' hvs hW' hdone' hcard' hfalse'
        simp only [cdfsList] at hfalse' ⊢
        by_cases hvv : v ∉ st'.visited
        · rw [if_pos hvv] at hfalse' ⊢
          rcases hc : cdfs (outAdj nodes edges) fuel v st' with ⟨b, st2⟩
          rw [hc] at hfalse'
          cases b with
          | true => exact absurd hfalse' (by simp)
          | false =>
            have hvU : v ∈ U := hvs v (List.mem_cons_self v vs)
            have hchild := ih v st' hvU hvv hW' hdone' hcard'
            rw [hc] at hchild
            have hchildF : (false : Bool) = false := rfl
            obtain ⟨hvvis, hvstk, hdone2⟩ := hchild rfl
            have hbasic := cdfs_basic hadjU fuel v st' hvU hvv hW'
            rw [hc] at hbasic
            obtain ⟨hmono, _, hstk, _⟩ := hbasic
            have hstk2 : st2.stack = st'.stack := hstk rfl
            have hW2 : st2.stack ⊆ st2.visited := by
              rw [hstk2]
              exact hW'.trans hmono
            have hcard2 : (U \ st2.visited).card < fuel := by
              have hsub : U \ st2.visited ⊆ U \ st'.visited := by
                intro y hy
                rw [Finset.mem_sdiff] at hy ⊢
                exact ⟨hy.1, fun h => hy.2 (hmono h)⟩
              have := Finset.card_le_card hsub
              omega
            obtain ⟨hdoneF, hmonoF, hstkF, hvsF⟩ :=
              ihl st2 (fun w hw => hvs w (List.mem_cons_of_mem v hw)) hW2 hdone2 hcard2
                hfalse'
            have hbasicTail := cdfsList_basic fuel (cdfs_basic hadjU fuel) vs st2
              (fun w hw => hvs w (List.mem_cons_of_mem v hw)) hW2
            obtain ⟨_, _, _, hdonePreserve⟩ := hbasicTail
            refine ⟨hdoneF, hmono.trans hmonoF, by rw [hstkF, hstk2], ?_⟩
            intro w hw
            rcases List.mem_cons.1 hw with hw1 | hw1
            · subst hw1
              exact ⟨hmonoF hvvis, hdonePreserve w hvvis hvstk⟩
            · exact hvsF w hw1
        · rw [if_neg hvv] at hfalse' ⊢
          push_neg at hvv
          by_cases hvstk : v ∈ st'.stack
          · rw [if_pos hvstk] at hfalse'
            exact absurd hfalse' (by simp)
          · rw [if_neg hvstk] at hfalse' ⊢
            obtain ⟨hdoneF, hmonoF, hstkF, hvsF⟩ :=
              ihl st' (fun w hw => hvs w (List.mem_cons_of_mem v hw)) hW' hdone' hcard'
                hfalse'
            have hbasicTail := cdfsList_basic fuel (cdfs_basic hadjU fuel) vs st'
              (fun w hw => hvs w (List.mem_cons_of_mem v hw)) hW'
            obtain ⟨hmonoB, _, _, hdonePreserve⟩ := hbasicTail
            refine ⟨hdoneF, hmonoF, hstkF, ?_⟩
            intro w hw
            rcases List.mem_cons.1 hw with hw1 | hw1
            · subst hw1
              exact ⟨hmonoB hvv, hdonePreserve w hvv hvstk⟩
            · exact hvsF w hw1
    -- apply the list claim to the neighbors of u
    rw [cdfs_succ] at hfalse ⊢
    rw [← hst1def] at hfalse ⊢
    rcases hc : cdfsList (outAdj nodes edges) fuel (outAdj nodes edges u) st1 with ⟨b, st2⟩
    rw [hc] at hfalse
    cases b with
    | true => exact absurd hfalse (by simp)
    | false =>
      have hl := hlist (outAdj nodes edges u) st1 (fun w hw => hadjU u w hw) hW1 hdone1
        hcard1
      rw [hc] at hl
      obtain ⟨hdoneF, hmonoF, hstkF, hvsF⟩ := hl rfl
      have huvis : u ∈ st2.visited := hmonoF (Finset.mem_insert_self u _)
      have hustk2 : u ∈ st2.stack := by
        rw [hstkF]
        exact Finset.mem_insert_self u _
      -- after the pop, u is done
      refine ⟨huvis, ?_, ?_, ?_⟩
      · exact Finset.not_mem_erase u st2.stack
      · -- done-closure in the popped state
        intro x hx hs v hvv
        by_cases hxu : x = u
        · subst hxu
          obtain ⟨hv1, hv2⟩ := hvsF v hvv
          exact ⟨hv1, fun h => hv2 (Finset.mem_of_mem_erase h)⟩
        · have hs' : x ∉ st2.stack := by
            intro h
            exact hs (Finset.mem_erase.2 ⟨hxu, h⟩)
          obtain ⟨hv1, hv2⟩ := hdoneF.1 x hx hs' v hvv
          exact ⟨hv1, fun h => hv2 (Finset.mem_of_mem_erase h)⟩
      · -- no finished id lies on a cycle
        intro x hx hs
        by_cases hxu : x = u
        · subst hxu
          intro hcyc
          obtain ⟨w, hstepw, hrtg⟩ := Relation.TransGen.head'_iff.1 hcyc
          obtain ⟨hw1, hw2⟩ := hvsF w hstepw
          exact hdoneF.2 w hw1 hw2 (Relation.TransGen.tail' hrtg hstepw)
        · have hs' : x ∉ st2.stack := by
            intro h
            exact hs (Finset.mem_erase.2 ⟨hxu, h⟩)
          exact hdoneF.2 x hx hs'

/-- The finite universe of ids the cycle DFS can ever touch: node ids (the
outer loop and adjacency keys) and edge targets (the adjacency values). -/
def cycUniv (nodes : List GraphNode) (edges : List GraphEdge) : Finset String :=
  (nodeIds nodes).toFinset ∪ (edges.map (·.target)).toFinset

theorem outAdj_sub_univ {nodes : List GraphNode} {edges : List GraphEdge} :
    ∀ x y, y ∈ outAdj nodes edges x → y ∈ cycUniv nodes edges := by
  intro x y h
  obtain ⟨_, e, hee, _, ht⟩ := outAdj_mem h
  exact Finset.mem_union_right _ (List.mem_toFinset.2 (List.mem_map.2 ⟨e, hee, ht⟩))

theorem cycUniv_card_lt (nodes : List GraphNode) (edges : List GraphEdge) (st : CycState) :
    ((cycUniv nodes edges) \ st.visited).card < cycleFuel nodes edges := by
  have h1 : ((cycUniv nodes edges) \ st.visited).card ≤ (cycUniv nodes edges).card :=
    Finset.card_le_card (Finset.sdiff_subset)
  have h2 := Finset.card_union_le (nodeIds nodes).toFinset (edges.map (·.target)).toFinset
  have h3 : (nodeIds nodes).toFinset.card ≤ (nodeIds nodes).length :=
    List.toFinset_card_le _
  have h4 : ((edges.map (·.target)).toFinset).card ≤ (edges.map (·.target)).length :=
    List.toFinset_card_le _
  have h5 : (nodeIds nodes).length = nodes.length := List.length_map _ _
  have h6 : (edges.map (·.target)).length = edges.length := List.length_map _ _
  unfold cycleFuel
  unfold cycUniv at h1 ⊢
  omega

theorem hasCycleFold_true (nodes : List GraphNode) (edges : List GraphEdge) :
    ∀ (rest : List GraphNode) (st : CycState),
      rest.foldl (hasCycleStep nodes edges) (true, st) = (true, st) := by
  intro rest
  induction rest with
  | nil => intro st; rfl
  | cons m tl ih =>
    intro st
    rw [List.foldl_cons]
    show tl.foldl (hasCycleStep nodes edges) (true, st) = (true, st)
    exact ih st

theorem hasCycleFold_spec (nodes : List GraphNode) (edges : List GraphEdge) :
    ∀ (rest : List GraphNode) (st : CycState),
      (∀ m ∈ rest, m ∈ nodes) →
      st.stack = ∅ → CycDone nodes edges st →
      ((rest.foldl (hasCycleStep nodes edges) (false, st)).1 = true →
        ∃ z, Relation.TransGen (adjStep nodes edges) z z) ∧
      ((rest.foldl (hasCycleStep nodes edges) (false, st)).1 = false →
        (rest.foldl (hasCycleStep nodes edges) (false, st)).2.stack = ∅ ∧
        CycDone nodes edges (rest.foldl (hasCycleStep nodes edges) (false, st)).2 ∧
        st.visited ⊆ (rest.foldl (hasCycleStep nodes edges) (false, st)).2.visited ∧
        ∀ m ∈ rest, m.id ∈ (rest.foldl (hasCycleStep nodes edges) (false, st)).2.visited) := by
  intro rest
  induction rest with
  | nil =>
    intro st _ hstk hdone
    constructor
    · intro h
      exact (Bool.false_ne_true h).elim
    · intro _
      exact ⟨hstk, hdone, subset_rfl, fun m hm => absurd hm (List.not_mem_nil m)⟩
  | cons m tl ih =>
    intro st hrest hstk hdone
    have htl : ∀ m' ∈ tl, m' ∈ nodes := fun m' hm' => hrest m' (List.mem_cons_of_mem m hm')
    rw [List.foldl_cons]
    have hWst : st.stack ⊆ st.visited := by
      rw [hstk]
      exact Finset.empty_subset _
    have hstepEq : hasCycleStep nodes edges (false, st) m =
        (if m.id ∉ st.visited
         then cdfs (outAdj nodes edges) (cycleFuel nodes edges) m.id st
         else (false, st)) := rfl
    by_cases hm : m.id ∉ st.visited
    · rw [hstepEq, if_pos hm]
      rcases hc : cdfs (outAdj nodes edges) (cycleFuel nodes edges) m.id st with ⟨b, st2⟩
      have hmU : m.id ∈ cycUniv nodes edges :=
        Finset.mem_union_left _
          (List.mem_toFinset.2
            (List.mem_map.2 ⟨m, hrest m (List.mem_cons_self m tl), rfl⟩))
      cases b with
      | true =>
        rw [hasCycleFold_true]
        constructor
        · intro _
          have hsound := cdfs_sound outAdj_sub_univ
            (cycleFuel nodes edges) m.id st hmU hm hWst
            (by rw [hstk]; intro x hx; exact absurd hx (Finset.not_mem_empty x))
          rw [hc] at hsound
          exact hsound rfl
        · intro h
          exact absurd h (by simp)
      | false =>
        have hcomp := cdfs_complete outAdj_sub_univ
          (cycleFuel nodes edges) m.id st hmU hm hWst hdone
          (cycUniv_card_lt nodes edges st)
        rw [hc] at hcomp
        obtain ⟨hmvis, _, hdone2⟩ := hcomp rfl
        have hbasic := cdfs_basic outAdj_sub_univ
          (cycleFuel nodes edges) m.id st hmU hm hWst
        rw [hc] at hbasic
        obtain ⟨hmono, _, hstk2, _⟩ := hbasic
        have hstk2' : st2.stack = ∅ := by
          rw [hstk2 rfl, hstk]
        obtain ⟨htrue', hfalse'⟩ := ih st2 htl hstk2' hdone2
        constructor
        · exact htrue'
        · intro hfold
          obtain ⟨hstkF, hdoneF, hmonoF, hmemF⟩ := hfalse' hfold
          refine ⟨hstkF, hdoneF, hmono.trans hmonoF, ?_⟩
          intro m' hm'
          rcases List.mem_cons.1 hm' with hm1 | hm1
          · exact hm1 ▸ hmonoF hmvis
          · exact hmemF m' hm1
    · rw [hstepEq, if_neg hm]
      push_neg at hm
      obtain ⟨htrue', hfalse'⟩ := ih st htl hstk hdone
      constructor
      · exact htrue'
      · intro hfold
        obtain ⟨hstkF, hdoneF, hmonoF, hmemF⟩ := hfalse' hfold
        refine ⟨hstkF, hdoneF, hmonoF, ?_⟩
        intro m' hm'
        rcases List.mem_cons.1 hm' with hm1 | hm1
        · exact hm1 ▸ hmonoF hm
        · exact hmemF m' hm1

/-- The cycle-scenario nodes `A`, `B`, `C`. -/
def cycA : GraphNode := ⟨"A", ⟨⟨"Strings", [portIn], [portOut], "Strings.Lowercase"⟩, "A", []⟩⟩

/-- See `cycA`. -/
def cycB : GraphNode := ⟨"B", ⟨⟨"Strings", [portIn], [portOut], "Strings.Lowercase"⟩, "B", []⟩⟩

/-- See `cycA`. -/
def cycC : GraphNode := ⟨"C", ⟨⟨"Strings", [portIn], [portOut], "Strings.Lowercase"⟩, "C", []⟩⟩

/-- The edge `A → B` of the cycle scenario. -/
def edgeAB : GraphEdge := ⟨"e1", "A", "B", none, none⟩

/-- The edge `B → C` of the cycle scenario. -/
def edgeBC : GraphEdge := ⟨"e2", "B", "C", none, none⟩

/-- The edge `C → A` of the cycle scenario. -/
def edgeCA : GraphEdge := ⟨"e3", "C", "A", none, none⟩

/-- C3: `hasCycle` returns `true` exactly when a directed cycle exists among
the edges whose endpoints lie in the node set (the DFS restarts from every
unvisited node, so disconnected subgraphs are covered by the universal
statement); in particular `{A,B,C}` with `A→B, B→C, C→A` is reported cyclic
and with `C→A` removed acyclic. -/
theorem C3_hasCycle_iff_cycle :
    (∀ (nodes : List GraphNode) (edges : List GraphEdge),
      hasCycle nodes edges = true ↔
        ∃ u, Relation.TransGen (restrictedStep nodes edges) u u) ∧
    hasCycle [cycA, cycB, cycC] [edgeAB, edgeBC, edgeCA] = true ∧
    hasCycle [cycA, cycB, cycC] [edgeAB, edgeBC] = false := by
  refine ⟨?_, by decide, by decide⟩
  intro nodes edges
  have hinit : (⟨∅, ∅⟩ : CycState).stack = ∅ := rfl
  have hdone0 : CycDone nodes edges ⟨∅, ∅⟩ := by
    constructor
    · intro x hx
      exact absurd hx (Finset.not_mem_empty x)
    · intro x hx
      exact absurd hx (Finset.not_mem_empty x)
  obtain ⟨htrue, hfalse⟩ := hasCycleFold_spec nodes edges nodes ⟨∅, ∅⟩
    (fun m hm => hm) hinit hdone0
  constructor
  · intro h
    exact (cycle_adjStep_iff_restricted nodes edges).1 (htrue h)
  · intro hcyc
    by_contra hne
    have hfalse0 : hasCycle nodes edges = false := by
      cases hb : hasCycle nodes edges
      · rfl
      · exact absurd hb hne
    obtain ⟨hstkF, hdoneF, _, hmemF⟩ := hfalse hfalse0
    obtain ⟨u, hu⟩ := (cycle_adjStep_iff_restricted nodes edges).2 hcyc
    have huN : u ∈ nodeIds nodes := by
      obtain ⟨x, hstep, _⟩ := Relation.TransGen.head'_iff.1 hu
      exact (adjStep_iff.1 hstep).1
    rcases List.mem_map.1 huN with ⟨mnode, hmnode, hmid⟩
    have huvis : u ∈ (nodes.foldl (hasCycleStep nodes edges) (false, ⟨∅, ∅⟩)).2.visited :=
      hmid ▸ hmemF mnode hmnode
    have hunstk : u ∉ (nodes.foldl (hasCycleStep nodes edges) (false, ⟨∅, ∅⟩)).2.stack := by
      rw [hstkF]
      exact Finset.not_mem_empty u
    exact hdoneF.2 u huvis hunstk hu

/-! ### Folds that append, characterized as `filterMap` / `flatMap` (shared) -/

theorem foldl_opt_append {α β : Type} (f : α → Option β) :
    ∀ (l : List α) (acc : List β),
      l.foldl (fun acc x => match f x with | some b => acc ++ [b] | none => acc) acc =
        acc ++ l.filterMap f := by
  intro l
  induction l with
  | nil => intro acc; simp
  | cons x xs ih =>
    intro acc
    rw [List.foldl_cons, List.filterMap_cons]
    rcases hfx : f x with _ | b
    · simpa using ih acc
    · rw [ih (acc ++ [b])]
      simp

theorem foldl_chunk_append {α β : Type} (g : α → List β) :
    ∀ (l : List α) (acc : List β),
      l.foldl (fun acc x => acc ++ g x) acc = acc ++ l.flatMap g := by
  intro l
  induction l with
  | nil => intro acc; simp
  | cons x xs ih =>
    intro acc
    rw [List.foldl_cons, ih (acc ++ g x)]
    simp

/-! ### Totality of code generation and the empty-graph placeholder (C6) -/

theorem string_append_ne_empty {s : String} (t : String) (h : s ≠ "") : s ++ t ≠ "" := by
  intro he
  apply h
  have hlen := congrArg String.length he
  rw [String.length_append] at hlen
  have hk : ("" : String).length = 0 := rfl
  have h0 : s.length = 0 := by omega
  cases hs : s with
  | mk data =>
    rw [hs] at h0
    cases data with
    | nil => rfl
    | cons c cs => simp [String.length, hs] at h0

/-- C6: `generateTLangCode` is a total function returning a string for every
well-typed input — the empty node set, cyclic graphs and edges with dangling
endpoint ids included — and its result is never the empty string; for the
empty node set it returns exactly the fixed placeholder comment. -/
theorem C6_total_and_placeholder (nodes : List GraphNode) (edges : List GraphEdge) :
    generateTLangCode nodes edges ≠ "" ∧
    (nodes = [] → generateTLangCode nodes edges = placeholderComment) := by
  constructor
  · unfold generateTLangCode
    by_cases h : nodes.isEmpty
    · rw [if_pos h]
      decide
    · rw [if_neg h]
      intro he
      have hlen := congrArg String.length he
      simp only [String.length_append] at hlen
      have hk : ("" : String).length = 0 := rfl
      have hnl : ("\n" : String).length = 1 := rfl
      omega
  · intro hnodes
    subst hnodes
    rfl

/-! ### The input bindings of the `Exec` statements (C2) -/

/-- The per-port binding `execStatement` renders: the `Out` reference when the
incoming-connections map holds a connection for the port, else the
`JSON.stringify` of the user-provided value when one exists, else nothing. -/
def execInputBinding (edges : List GraphEdge) (node : GraphNode)
    (input : PortDefinition) : Option String :=
  match inputConnection edges node.id input.id with
  | some c =>
    some (input.id ++ ": Out<" ++ generateNodeVarName c.1 ++ ", '" ++ c.2 ++ "'>")
  | none =>
    (jsLookup node.data.inputs input.id).map (fun v => input.id ++ ": " ++ jsonStringify v)

theorem execStatement_eq (edges : List GraphEdge) (node : GraphNode) :
    execStatement edges node =
      "type " ++ generateNodeVarName node.id ++ " = Exec<" ++
        node.data.metadata.tlangType ++ ", " ++
        (if 0 < (node.data.metadata.inputs.filterMap (execInputBinding edges node)).length
         then "\x7b " ++ String.intercalate "; "
            (node.data.metadata.inputs.filterMap (execInputBinding edges node)) ++ " \x7d"
         else "\x7b\x7d") ++ ">" := by
  unfold execStatement
  have hfold : node.data.metadata.inputs.foldl (fun acc input =>
      match inputConnection edges node.id input.id with
      | some c =>
        acc ++ [input.id ++ ": Out<" ++ generateNodeVarName c.1 ++ ", '" ++ c.2 ++ "'>"]
      | none =>
        match jsLookup node.data.inputs input.id with
        | some v => acc ++ [input.id ++ ": " ++ jsonStringify v]
        | none => acc) [] =
      node.data.metadata.inputs.filterMap (execInputBinding edges node) := by
    have h2 := foldl_opt_append (execInputBinding edges node) node.data.metadata.inputs []
    rw [List.nil_append] at h2
    rw [← h2]
    apply List.foldl_ext
    intro acc input _
    unfold execInputBinding
    rcases hc : inputConnection edges node.id input.id with _ | c
    · rcases hv : jsLookup node.data.inputs input.id with _ | v
      · rfl
      · rfl
    · rfl
  rw [hfold]

/-- C2 (as the code computes it): in every `Exec` statement, a declared input
port with an incoming connection is bound to `Out<sourceVar, 'sourcePort'>`;
an unconnected port is bound to the `JSON.stringify` of the user-supplied
literal exactly when one is present — the node's entry status plays no role
and type-appropriate defaults are never substituted — and ports with neither
a connection nor a user value are omitted; in the linear-chain scenario the
entry node `n1` (required string port, no user value) is therefore emitted
with empty bindings, and `n2` referencing `Out<n1, 'out'>`. -/
theorem C2_exec_input_bindings :
    (∀ (edges : List GraphEdge) (node : GraphNode),
      execStatement edges node =
        "type " ++ generateNodeVarName node.id ++ " = Exec<" ++
          node.data.metadata.tlangType ++ ", " ++
          (if 0 < (node.data.metadata.inputs.filterMap (execInputBinding edges node)).length
           then "\x7b " ++ String.intercalate "; "
              (node.data.metadata.inputs.filterMap (execInputBinding edges node)) ++ " \x7d"
           else "\x7b\x7d") ++ ">") ∧
    execStatements [chainN1, chainN2] [chainEdge] =
      ["type n1 = Exec<Strings.Lowercase, \x7b\x7d>",
       "type n2 = Exec<Strings.CamelCase, \x7b in: Out<n1, 'out'> \x7d>"] := by
  refine ⟨execStatement_eq, by decide⟩

/-- Counterexample to the claimed entry-node default: in the linear-chain
scenario `n1` is the entry node, its only declared port is required with no
user-supplied value, yet its `Exec` statement carries no literal default —
its bindings are empty. -/
theorem C2_counterexample :
    (findEntryNodes [chainN1, chainN2] [chainEdge]).map (fun n => n.id) = ["n1"] ∧
    execStatement [chainEdge] chainN1 = "type n1 = Exec<Strings.Lowercase, \x7b\x7d>" := by
  exact ⟨by decide, by decide⟩


/-- Witness for C6: the empty graph yields exactly the placeholder comment. -/
theorem C6_witness : generateTLangCode [] [] = placeholderComment :=
  (C6_total_and_placeholder [] []).2 rfl

/-! ### The structural validator (C7, C10) -/

/-- The missing-required-input problems `validateGraph` appends for one node:
one message per required declared input port that has no incoming connection,
on a node that is not an entry node. -/
def nodeMissingInputProblems (nodes : List GraphNode) (edges : List GraphEdge)
    (node : GraphNode) : List String :=
  (node.data.metadata.inputs.filter (fun i => i.required)).filterMap (fun input =>
    if (inputConnection edges node.id input.id).isSome = false ∧
        node.id ∉ (findEntryNodes nodes edges).map (fun n => n.id)
    then some (missingInputMessage node input) else none)

/-- The out-of-range problems `validateGraph` appends for one node: for a
`Numbers`-category node, one message per literal input entry whose value is a
number of absolute value above `100`; for every other category, none. -/
def nodeNumberProblems (node : GraphNode) : List String :=
  if node.data.metadata.category = "Numbers" then
    node.data.inputs.filterMap (fun kv =>
      match kv.2 with
      | .num v => if 100 < |v| then some (numberLimitMessage node kv.1 v) else none
      | _ => none)
  else []

theorem validateGraph_eq (nodes : List GraphNode) (edges : List GraphEdge) :
    validateGraph nodes edges =
      if nodes.isEmpty then []
      else
        (if hasCycle nodes edges then [cycleErrorMessage] else []) ++
          nodes.flatMap (fun node =>
            nodeMissingInputProblems nodes edges node ++ nodeNumberProblems node) := by
  unfold validateGraph
  by_cases hne : nodes.isEmpty
  · rw [if_pos hne, if_pos hne]
  · rw [if_neg hne, if_neg hne]
    have hbody : ∀ (errors : List String) (node : GraphNode),
        (fun errors node =>
          let errors2 := (node.data.metadata.inputs.filter (fun i => i.required)).foldl
            (fun errs input =>
              if !(inputConnection edges node.id input.id).isSome &&
                  !(decide (node.id ∈ (findEntryNodes nodes edges).map (fun n => n.id)))
              then errs ++ [missingInputMessage node input]
              else errs) errors
          if node.data.metadata.category = "Numbers" then
            node.data.inputs.foldl (fun errs kv =>
              match kv.2 with
              | .num v => if 100 < |v| then errs ++ [numberLimitMessage node kv.1 v] else errs
              | _ => errs) errors2
          else errors2) errors node =
        errors ++ (nodeMissingInputProblems nodes edges node ++ nodeNumberProblems node) := by
      intro errors node
      simp only []
      have hmiss : (node.data.metadata.inputs.filter (fun i => i.required)).foldl
          (fun errs input =>
            if !(inputConnection edges node.id input.id).isSome &&
                !(decide (node.id ∈ (findEntryNodes nodes edges).map (fun n => n.id)))
            then errs ++ [missingInputMessage node input]
            else errs) errors =
          errors ++ nodeMissingInputProblems nodes edges node := by
        unfold nodeMissingInputProblems
        have h2 := foldl_opt_append (fun input =>
          if (inputConnection edges node.id input.id).isSome = false ∧
              node.id ∉ (findEntryNodes nodes edges).map (fun n => n.id)
          then some (missingInputMessage node input) else none)
          (node.data.metadata.inputs.filter (fun i => i.required)) errors
        rw [← h2]
        apply List.foldl_ext
        intro errs input _
        by_cases hcond : (inputConnection edges node.id input.id).isSome = false ∧
            node.id ∉ (findEntryNodes nodes edges).map (fun n => n.id)
        · rw [if_pos hcond]
          have hb : (!(inputConnection edges node.id input.id).isSome &&
              !(decide (node.id ∈ (findEntryNodes nodes edges).map (fun n => n.id)))) = true := by
            simp [hcond.1, hcond.2]
          rw [if_pos hb]
        · rw [if_neg hcond]
          have hb : (!(inputConnection edges node.id input.id).isSome &&
              !(decide (node.id ∈ (findEntryNodes nodes edges).map (fun n => n.id)))) = false := by
            rcases not_and_or.1 hcond with h | h
            · have h2 : (inputConnection edges node.id input.id).isSome = true := by
                rcases hoc : inputConnection edges node.id input.id with _ | c
                · exact absurd hoc (by simpa using h)
                · rfl
              simp [h2]
            · have h2 : node.id ∈ (findEntryNodes nodes edges).map (fun n => n.id) :=
                not_not.1 h
              simp [h2]
          rw [if_neg (by simp only [hb]; exact Bool.false_ne_true)]
      have hnum : ∀ acc : List String,
          (if node.data.metadata.category = "Numbers" then
            node.data.inputs.foldl (fun errs kv =>
              match kv.2 with
              | .num v => if 100 < |v| then errs ++ [numberLimitMessage node kv.1 v] else errs
              | _ => errs) acc
          else acc) = acc ++ nodeNumberProblems node := by
        intro acc
        unfold nodeNumberProblems
        by_cases hcat : node.data.metadata.category = "Numbers"
        · rw [if_pos hcat, if_pos hcat]
          have h2 := foldl_opt_append (fun kv : String × JSValue =>
            match kv.2 with
            | .num v => if 100 < |v| then some (numberLimitMessage node kv.1 v) else none
            | _ => none) node.data.inputs acc
          rw [← h2]
          apply List.foldl_ext
          intro errs kv _
          rcases kv with ⟨k, v⟩
          rcases v with s | n | b | _ | fs | es
          · rfl
          · by_cases hv : 100 < |n|
            · simp [hv]
            · simp [hv]
          · rfl
          · rfl
          · rfl
          · rfl
        · rw [if_neg hcat, if_neg hcat]
          simp
      rw [hmiss]
      rw [hnum (errors ++ nodeMissingInputProblems nodes edges node)]
      rw [List.append_assoc]
    refine Eq.trans (List.foldl_ext _ (fun errors node =>
        errors ++ (nodeMissingInputProblems nodes edges node ++ nodeNumberProblems node))
        _ (fun a b _ => hbody a b)) ?_
    exact foldl_chunk_append (fun node =>
      nodeMissingInputProblems nodes edges node ++ nodeNumberProblems node) nodes
      (if hasCycle nodes edges then [cycleErrorMessage] else [])

/-- The C7 scenario's second node: non-entry, with two required ports `a`
(connected) and `b` (unconnected). -/
def portA : PortDefinition := ⟨"a", "A", "string", true⟩

/-- See `portA`. -/
def portB : PortDefinition := ⟨"b", "B", "string", true⟩

/-- See `portA`. -/
def c7n2 : GraphNode :=
  ⟨"n2", ⟨⟨"Strings", [portA, portB], [portOut], "Strings.Concat"⟩, "Concat", []⟩⟩

/-- The C7 scenario's edge `n1.out → n2.a`. -/
def c7edge : GraphEdge := ⟨"e1", "n1", "n2", some "out", some "a"⟩

set_option maxRecDepth 16384 in
/-- C7: `validateGraph` appends, per node in node order and per required
declared input port in declaration order, the message naming the node's label
and the port's label exactly when the incoming-connections map holds no
connection for the `(node, port)` pair and the node is not an entry node; in
the scenario where non-entry `n2` has exactly one unconnected required port
`b`, the validator reports exactly the one problem naming that port. -/
theorem C7_validator_missing_input_iff :
    (∀ (nodes : List GraphNode) (edges : List GraphEdge),
      validateGraph nodes edges =
        if nodes.isEmpty then []
        else
          (if hasCycle nodes edges then [cycleErrorMessage] else []) ++
            nodes.flatMap (fun node =>
              (node.data.metadata.inputs.filter (fun i => i.required)).filterMap
                (fun input =>
                  if (inputConnection edges node.id input.id).isSome = false ∧
                      node.id ∉ (findEntryNodes nodes edges).map (fun n => n.id)
                  then some (missingInputMessage node input) else none) ++
              nodeNumberProblems node)) ∧
    validateGraph [chainN1, c7n2] [c7edge] = [missingInputMessage c7n2 portB] := by
  constructor
  · intro nodes edges
    rw [validateGraph_eq]
    rfl
  · decide

/-- A C10 scenario node: category `cat` with the single literal input
`x := v` and no required ports. -/
def mkNumNode (cat : String) (v : JSValue) : GraphNode :=
  ⟨"m", ⟨⟨cat, [⟨"x", "X", "number", false⟩], [portOut], "Numbers.Add"⟩, "M", [("x", v)]⟩⟩

set_option maxRecDepth 16384 in
/-- C10: `validateGraph` appends, for each node of category `Numbers` and
each literal input entry in order, the safe-limit message exactly when the
entry's value is a number of absolute value above `100`; numbers of absolute
value at most `100`, non-numeric values, and nodes of other categories
produce no such message — as the boundary scenarios `150`, `100`, a string
value, and a `Strings`-category node show concretely. -/
theorem C10_number_limit_iff :
    (∀ (nodes : List GraphNode) (edges : List GraphEdge),
      validateGraph nodes edges =
        if nodes.isEmpty then []
        else
          (if hasCycle nodes edges then [cycleErrorMessage] else []) ++
            nodes.flatMap (fun node =>
              nodeMissingInputProblems nodes edges node ++
              (if node.data.metadata.category = "Numbers" then
                node.data.inputs.filterMap (fun kv =>
                  match kv.2 with
                  | .num v =>
                    if 100 < |v| then some (numberLimitMessage node kv.1 v) else none
                  | _ => none)
              else []))) ∧
    validateGraph [mkNumNode "Numbers" (.num 150)] [] =
      [numberLimitMessage (mkNumNode "Numbers" (.num 150)) "x" 150] ∧
    validateGraph [mkNumNode "Numbers" (.num (-150))] [] =
      [numberLimitMessage (mkNumNode "Numbers" (.num (-150))) "x" (-150)] ∧
    validateGraph [mkNumNode "Numbers" (.num 100)] [] = [] ∧
    validateGraph [mkNumNode "Numbers" (.str "big")] [] = [] ∧
    validateGraph [mkNumNode "Strings" (.num 150)] [] = [] := by
  refine ⟨?_, by decide, by decide, by decide, by decide, by decide⟩
  intro nodes edges
  rw [validateGraph_eq]
  rfl

/-! ### The combined `Result` declaration (C8) -/

/-- `Result_1, ..., Result_k`, as `generateTLangCode` renders the names. -/
def resultNamesStr (k : Nat) : String :=
  String.intercalate ", " ((List.range k).map (fun i => "Result_" ++ toString (i + 1)))

/-- The import line of `generateTLangCode`. -/
def gtlImports (nodes : List GraphNode) : String :=
  "import type \x7b " ++
    String.intercalate ", " (["TypeFlow", "Exec", "Out"] ++
      sortStrings (extractImports nodes).2 ++ sortStrings (extractImports nodes).1) ++
    " \x7d from '@atools/tlang'"

/-- The multi-component summary comment of `generateTLangCode`. -/
def gtlSummary (k : Nat) : String :=
  if k == 1 then ""
  else
    "/**\n * This graph contains " ++ toString k ++
      " independent connected components\n * Each component is executed separately and produces its own result type\n */"

/-- All component blocks of `generateTLangCode`, in discovery order. -/
def gtlComponentCodes (nodes : List GraphNode) (edges : List GraphEdge) : String :=
  String.intercalate "\n"
    ((findConnectedComponents nodes edges).mapIdx (fun i c => generateComponentCode c edges i))

/-- Everything `generateTLangCode` emits before the combined `Result`
declaration. -/
def gtlPre (nodes : List GraphNode) (edges : List GraphEdge) : String :=
  gtlImports nodes ++ "\n\n" ++
    gtlSummary (findConnectedComponents nodes edges).length ++ "\n" ++
    gtlComponentCodes nodes edges

theorem generateTLangCode_split (nodes : List GraphNode) (edges : List GraphEdge)
    (hne : nodes.isEmpty = false) :
    generateTLangCode nodes edges =
      gtlPre nodes edges ++
        (if (findConnectedComponents nodes edges).length == 1
         then "\n// Final result type - output from the last node in the DAG\ntype Result = Result_1\n"
         else
           "\n// Multiple result types available: " ++
             resultNamesStr (findConnectedComponents nodes edges).length ++
             "\n// Combined result as tuple\ntype Result = [" ++
             resultNamesStr (findConnectedComponents nodes edges).length ++ "]\n") ++
        "\n// You can now use Result" ++
        (if (findConnectedComponents nodes edges).length == 1
         then "" else "_1, Result_2, etc.") ++
        " in your TypeScript code\n" := by
  unfold generateTLangCode gtlPre gtlImports gtlSummary gtlComponentCodes resultNamesStr
  rw [if_neg (by simp [hne])]

/-- The two isolated nodes of the C8 scenario. -/
def isoA : GraphNode :=
  ⟨"p", ⟨⟨"Strings", [portIn], [portOut], "Strings.Lowercase"⟩, "P", []⟩⟩

/-- See `isoA`. -/
def isoB : GraphNode :=
  ⟨"q", ⟨⟨"Strings", [portIn], [portOut], "Strings.Lowercase"⟩, "Q", []⟩⟩

/-- C8: when exactly one connected component exists, the assembled output
ends with the direct alias `type Result = Result_1`; with `k > 1` components
it ends with the positional tuple `type Result = [Result_1, ..., Result_k]`
over every component's result in component-discovery order; two isolated
nodes with no edges concretely yield two singleton components, and hence the
2-tuple `[Result_1, Result_2]`. -/
theorem C8_result_alias_or_tuple :
    (∀ (nodes : List GraphNode) (edges : List GraphEdge), nodes ≠ [] →
      ((findConnectedComponents nodes edges).length = 1 →
        ∃ pre, generateTLangCode nodes edges =
          pre ++
            "\n// Final result type - output from the last node in the DAG\ntype Result = Result_1\n" ++
            "\n// You can now use Result" ++ " in your TypeScript code\n") ∧
      (1 < (findConnectedComponents nodes edges).length →
        ∃ pre, generateTLangCode nodes edges =
          pre ++
            ("\n// Multiple result types available: " ++
              resultNamesStr (findConnectedComponents nodes edges).length ++
              "\n// Combined result as tuple\ntype Result = [" ++
              resultNamesStr (findConnectedComponents nodes edges).length ++ "]\n") ++
            "\n// You can now use Result" ++ "_1, Result_2, etc." ++
            " in your TypeScript code\n")) ∧
    findConnectedComponents [isoA, isoB] [] = [[isoA], [isoB]] ∧
    resultNamesStr 2 = "Result_1, Result_2" ∧
    (∃ pre, generateTLangCode [isoA, isoB] [] =
      pre ++
        ("\n// Multiple result types available: " ++ resultNamesStr 2 ++
          "\n// Combined result as tuple\ntype Result = [" ++ resultNamesStr 2 ++ "]\n") ++
        "\n// You can now use Result" ++ "_1, Result_2, etc." ++
        " in your TypeScript code\n") := by
  have hgen : ∀ (nodes : List GraphNode) (edges : List GraphEdge), nodes ≠ [] →
      ((findConnectedComponents nodes edges).length = 1 →
        ∃ pre, generateTLangCode nodes edges =
          pre ++
            "\n// Final result type - output from the last node in the DAG\ntype Result = Result_1\n" ++
            "\n// You can now use Result" ++ " in your TypeScript code\n") ∧
      (1 < (findConnectedComponents nodes edges).length →
        ∃ pre, generateTLangCode nodes edges =
          pre ++
            ("\n// Multiple result types available: " ++
              resultNamesStr (findConnectedComponents nodes edges).length ++
              "\n// Combined result as tuple\ntype Result = [" ++
              resultNamesStr (findConnectedComponents nodes edges).length ++ "]\n") ++
            "\n// You can now use Result" ++ "_1, Result_2, etc." ++
            " in your TypeScript code\n") := by
    intro nodes edges hne
    have hne' : nodes.isEmpty = false := by
      cases nodes with
      | nil => exact absurd rfl hne
      | cons a l => rfl
    constructor
    · intro h1
      have hs : ((findConnectedComponents nodes edges).length == 1) = true := by
        simp [h1]
      refine ⟨gtlPre nodes edges, ?_⟩
      rw [generateTLangCode_split nodes edges hne', hs]
      simp [String.append_empty, String.append_assoc]
    · intro h2
      have hs : ((findConnectedComponents nodes edges).length == 1) = false := by
        simp only [beq_eq_false_iff_ne, ne_eq]
        omega
      refine ⟨gtlPre nodes edges, ?_⟩
      rw [generateTLangCode_split nodes edges hne', hs]
      simp [String.append_assoc]
  refine ⟨hgen, rfl, by decide, ?_⟩
  have hcomp : findConnectedComponents [isoA, isoB] [] = [[isoA], [isoB]] := rfl
  have hlen : (findConnectedComponents [isoA, isoB] []).length = 2 := by rw [hcomp]; rfl
  obtain ⟨pre, hpre⟩ := (hgen [isoA, isoB] [] (by simp)).2 (by rw [hlen]; omega)
  rw [hlen] at hpre
  exact ⟨pre, hpre⟩

/-- Witness for C8: the two-isolated-nodes scenario satisfies the
hypotheses, and the theorem produces the tuple-shaped ending there. -/
theorem C8_witness :
    ∃ pre, generateTLangCode [isoA, isoB] [] =
      pre ++
        ("\n// Multiple result types available: " ++
          resultNamesStr (findConnectedComponents [isoA, isoB] []).length ++
          "\n// Combined result as tuple\ntype Result = [" ++
          resultNamesStr (findConnectedComponents [isoA, isoB] []).length ++ "]\n") ++
        "\n// You can now use Result" ++ "_1, Result_2, etc." ++
        " in your TypeScript code\n" :=
  (C8_result_alias_or_tuple.1 [isoA, isoB] [] (List.cons_ne_nil isoA [isoB])).2 (by decide)

/-! ### Reference extraction over the type AST (C9) -/

mutual
/-- The root namespaces of every qualified type reference occurring anywhere
in a type AST — generic type arguments included — in traversal order. -/
def qualRoots : TSTypeNode → List String
  | .typeRef name args =>
    (match name with
     | .qual _ _ => [rootIdentOf name]
     | .ident _ => []) ++ qualRootsList args
  | .strLit _ => []
  | .other children => qualRootsList children
/-- `qualRoots` over a child list. -/
def qualRootsList : List TSTypeNode → List String
  | [] => []
  | t :: ts => qualRoots t ++ qualRootsList ts
end

mutual
/-- The bare (unqualified) identifiers heading type references anywhere in a
type AST, in traversal order. -/
def bareIdents : TSTypeNode → List String
  | .typeRef name args =>
    (match name with
     | .qual _ _ => []
     | .ident s => [s]) ++ bareIdentsList args
  | .strLit _ => []
  | .other children => bareIdentsList children
/-- `bareIdents` over a child list. -/
def bareIdentsList : List TSTypeNode → List String
  | [] => []
  | t :: ts => bareIdents t ++ bareIdentsList ts
end

theorem mem_addUnique {l : List String} {x s : String} :
    s ∈ addUnique l x ↔ s ∈ l ∨ s = x := by
  unfold addUnique
  by_cases h : x ∈ l
  · rw [if_pos h]
    constructor
    · exact Or.inl
    · rintro (h1 | rfl)
      · exact h1
      · exact h
  · rw [if_neg h]
    simp

set_option maxHeartbeats 1000000 in
theorem visit_mem_aux (exports : List String) :
    ∀ N : Nat,
      (∀ t : TSTypeNode, sizeOf t ≤ N → ∀ (acc : List String × List String) (s : String),
        (s ∈ (visitType exports t acc).1 ↔ s ∈ acc.1 ∨ s ∈ qualRoots t) ∧
        (s ∈ (visitType exports t acc).2 ↔ s ∈ acc.2 ∨ (s ∈ bareIdents t ∧ s ∈ exports))) ∧
      (∀ ts : List TSTypeNode, sizeOf ts ≤ N →
        ∀ (acc : List String × List String) (s : String),
        (s ∈ (visitTypeList exports ts acc).1 ↔ s ∈ acc.1 ∨ s ∈ qualRootsList ts) ∧
        (s ∈ (visitTypeList exports ts acc).2 ↔
          s ∈ acc.2 ∨ (s ∈ bareIdentsList ts ∧ s ∈ exports))) := by
  intro N
  induction N with
  | zero =>
    constructor
    · intro t ht
      exfalso
      cases t <;> (simp at ht)
    · intro ts hts
      exfalso
      cases ts <;> (simp at hts)
  | succ N ih =>
    constructor
    · intro t ht acc s
      cases t with
      | typeRef name args =>
        have hargs : sizeOf args ≤ N := by
          simp at ht
          omega
        cases name with
        | qual l r =>
          have hstep : visitType exports (.typeRef (.qual l r) args) acc =
              visitTypeList exports args (addUnique acc.1 (rootIdentOf (.qual l r)), acc.2) :=
            rfl
          rw [hstep]
          obtain ⟨h1, h2⟩ := ih.2 args hargs (addUnique acc.1 (rootIdentOf (.qual l r)), acc.2) s
          constructor
          · rw [h1]
            show _ ↔ s ∈ acc.1 ∨ s ∈ [rootIdentOf (.qual l r)] ++ qualRootsList args
            rw [List.mem_append, List.mem_singleton]
            rw [show ((addUnique acc.1 (rootIdentOf (.qual l r)), acc.2) :
              List String × List String).1 = addUnique acc.1 (rootIdentOf (.qual l r)) from rfl]
            rw [mem_addUnique]
            tauto
          · rw [h2]
            show _ ↔ s ∈ acc.2 ∨ (s ∈ [] ++ bareIdentsList args ∧ s ∈ exports)
            rw [List.nil_append]
        | ident nm =>
          by_cases hnm : nm ∈ exports
          · have hstep : visitType exports (.typeRef (.ident nm) args) acc =
                visitTypeList exports args (acc.1, addUnique acc.2 nm) := by
              show visitTypeList exports args (if nm ∈ exports then _ else _) = _
              rw [if_pos hnm]
            rw [hstep]
            obtain ⟨h1, h2⟩ := ih.2 args hargs (acc.1, addUnique acc.2 nm) s
            constructor
            · rw [h1]
              show _ ↔ s ∈ acc.1 ∨ s ∈ [] ++ qualRootsList args
              rw [List.nil_append]
            · rw [h2]
              show _ ↔ s ∈ acc.2 ∨ (s ∈ [nm] ++ bareIdentsList args ∧ s ∈ exports)
              rw [List.mem_append, List.mem_singleton]
              rw [show ((acc.1, addUnique acc.2 nm) : List String × List String).2 =
                addUnique acc.2 nm from rfl]
              rw [mem_addUnique]
              constructor
              · rintro ((h3 | h3) | h)
                · exact Or.inl h3
                · exact Or.inr ⟨Or.inl h3, h3 ▸ hnm⟩
                · exact Or.inr ⟨Or.inr h.1, h.2⟩
              · rintro (h | ⟨h3 | h3, he⟩)
                · exact Or.inl (Or.inl h)
                · exact Or.inl (Or.inr h3)
                · exact Or.inr ⟨h3, he⟩
          · have hstep : visitType exports (.typeRef (.ident nm) args) acc =
                visitTypeList exports args acc := by
              show visitTypeList exports args (if nm ∈ exports then _ else _) = _
              rw [if_neg hnm]
            rw [hstep]
            obtain ⟨h1, h2⟩ := ih.2 args hargs acc s
            constructor
            · rw [h1]
              show _ ↔ s ∈ acc.1 ∨ s ∈ [] ++ qualRootsList args
              rw [List.nil_append]
            · rw [h2]
              show _ ↔ s ∈ acc.2 ∨ (s ∈ [nm] ++ bareIdentsList args ∧ s ∈ exports)
              rw [List.mem_append, List.mem_singleton]
              constructor
              · rintro (h | h)
                · exact Or.inl h
                · exact Or.inr ⟨Or.inr h.1, h.2⟩
              · rintro (h | ⟨h3 | h3, he⟩)
                · exact Or.inl h
                · exact absurd (h3 ▸ he) hnm
                · exact Or.inr ⟨h3, he⟩
      | strLit v =>
        constructor
        · show s ∈ acc.1 ↔ s ∈ acc.1 ∨ s ∈ ([] : List String)
          simp
        · show s ∈ acc.2 ↔ s ∈ acc.2 ∨ (s ∈ ([] : List String) ∧ s ∈ exports)
          simp
      | other children =>
        have hch : sizeOf children ≤ N := by
          simp at ht
          omega
        exact ih.2 children hch acc s
    · intro ts hts acc s
      cases ts with
      | nil =>
        constructor
        · show s ∈ acc.1 ↔ s ∈ acc.1 ∨ s ∈ ([] : List String)
          simp
        · show s ∈ acc.2 ↔ s ∈ acc.2 ∨ (s ∈ ([] : List String) ∧ s ∈ exports)
          simp
      | cons t rest =>
        have ht : sizeOf t ≤ N := by
          simp at hts
          omega
        have hrest : sizeOf rest ≤ N := by
          simp at hts
          omega
        have hstep : visitTypeList exports (t :: rest) acc =
            visitTypeList exports rest (visitType exports t acc) := by
          simp only [visitTypeList]
        obtain ⟨ha1, ha2⟩ := ih.1 t ht acc s
        obtain ⟨hb1, hb2⟩ := ih.2 rest hrest (visitType exports t acc) s
        rw [hstep]
        constructor
        · rw [hb1, ha1]
          show _ ↔ s ∈ acc.1 ∨ s ∈ qualRoots t ++ qualRootsList rest
          rw [List.mem_append]
          tauto
        · rw [hb2, ha2]
          show _ ↔ s ∈ acc.2 ∨ (s ∈ bareIdents t ++ bareIdentsList rest ∧ s ∈ exports)
          rw [List.mem_append]
          tauto

set_option maxHeartbeats 1000000 in
set_option maxRecDepth 16384 in
/-- C9: the traversal of the reference extractor records exactly the root
namespaces of the qualified type references of the AST — occurrences nested
inside generic type arguments included — records a bare identifier exactly
when it heads a type reference and belongs to the registry of top-level
exports, and records nothing for a string-literal type argument; concretely,
`Objects.MapKeys<Strings.CamelCase>` yields the namespaces
`Objects, Strings`, and `Pick<'user.name'>` yields no namespace and only the
registry name `Pick`. -/
theorem C9_extractor_references :
    (∀ (exports : List String) (t : TSTypeNode) (acc : List String × List String)
       (s : String),
      (s ∈ (visitType exports t acc).1 ↔ s ∈ acc.1 ∨ s ∈ qualRoots t) ∧
      (s ∈ (visitType exports t acc).2 ↔ s ∈ acc.2 ∨ (s ∈ bareIdents t ∧ s ∈ exports))) ∧
    (∀ v : String, qualRoots (.strLit v) = [] ∧ bareIdents (.strLit v) = []) ∧
    (extractImportsFromType "Objects.MapKeys<Strings.CamelCase>"
      TLANG_TOP_LEVEL_EXPORTS ([], [])).1 = ["Objects", "Strings"] ∧
    extractImportsFromType "Pick<'user.name'>" TLANG_TOP_LEVEL_EXPORTS ([], []) =
      ([], ["Pick"]) := by
  refine ⟨?_, fun v => ⟨rfl, rfl⟩, by decide, by decide⟩
  intro exports t acc s
  exact (visit_mem_aux exports (sizeOf t)).1 t le_rfl acc s

/-! ### Connected components: the undirected adjacency (C4) -/

theorem mem_foldAddUnique (edges : List GraphEdge) (u : String) :
    ∀ (acc : List String) (x : String),
      x ∈ edges.foldl (fun acc e =>
        let acc2 := if e.source = u then addUnique acc e.target else acc
        if e.target = u then addUnique acc2 e.source else acc2) acc ↔
      x ∈ acc ∨ ∃ e ∈ edges, (e.source = u ∧ e.target = x) ∨ (e.target = u ∧ e.source = x) := by
  induction edges with
  | nil =>
    intro acc x
    simp
  | cons e tl ih =>
    intro acc x
    rw [List.foldl_cons, ih]
    have hstep : x ∈ (let acc2 := if e.source = u then addUnique acc e.target else acc
        if e.target = u then addUnique acc2 e.source else acc2) ↔
        x ∈ acc ∨ (e.source = u ∧ e.target = x) ∨ (e.target = u ∧ e.source = x) := by
      show x ∈ (if e.target = u then addUnique (if e.source = u then addUnique acc e.target
        else acc) e.source else (if e.source = u then addUnique acc e.target else acc)) ↔ _
      by_cases h1 : e.source = u <;> by_cases h2 : e.target = u <;>
        simp [h1, h2, mem_addUnique] <;> tauto
    rw [hstep]
    constructor
    · rintro ((h | h) | ⟨f, hf, hor⟩)
      · exact Or.inl h
      · exact Or.inr ⟨e, List.mem_cons_self e tl, h⟩
      · exact Or.inr ⟨f, List.mem_cons_of_mem e hf, hor⟩
    · rintro (h | ⟨f, hf, hor⟩)
      · exact Or.inl (Or.inl h)
      · rcases List.mem_cons.1 hf with rfl | hf2
        · exact Or.inl (Or.inr hor)
        · exact Or.inr ⟨f, hf2, hor⟩

theorem mem_undirNeighbors {nodes : List GraphNode} {edges : List GraphEdge}
    {u x : String} :
    x ∈ undirNeighbors nodes edges u ↔
      u ∈ nodeIds nodes ∧
        ∃ e ∈ edges, (e.source = u ∧ e.target = x) ∨ (e.target = u ∧ e.source = x) := by
  unfold undirNeighbors
  by_cases hu : u ∈ nodeIds nodes
  · rw [if_pos hu, mem_foldAddUnique]
    simp [hu]
  · rw [if_neg hu]
    simp [hu]

theorem undirNeighbors_symm {nodes : List GraphNode} {edges : List GraphEdge}
    {a b : String} (ha : a ∈ nodeIds nodes) (hb : b ∈ nodeIds nodes) :
    b ∈ undirNeighbors nodes edges a ↔ a ∈ undirNeighbors nodes edges b := by
  rw [mem_undirNeighbors, mem_undirNeighbors]
  constructor
  · rintro ⟨_, e, he, hor⟩
    exact ⟨hb, e, he, by tauto⟩
  · rintro ⟨_, e, he, hor⟩
    exact ⟨ha, e, he, by tauto⟩

/-- The finite universe of ids the component DFS can ever touch. -/
def fccUniv (nodes : List GraphNode) (edges : List GraphEdge) : Finset String :=
  (nodeIds nodes).toFinset ∪ (edges.map (fun e => e.target)).toFinset ∪
    (edges.map (fun e => e.source)).toFinset

theorem undirNeighbors_sub_univ {nodes : List GraphNode} {edges : List GraphEdge} :
    ∀ x y, y ∈ undirNeighbors nodes edges x → y ∈ fccUniv nodes edges := by
  intro x y h
  obtain ⟨_, e, he, hor⟩ := mem_undirNeighbors.1 h
  rcases hor with ⟨_, ht⟩ | ⟨_, hs⟩
  · exact Finset.mem_union_left _ (Finset.mem_union_right _
      (List.mem_toFinset.2 (List.mem_map.2 ⟨e, he, ht⟩)))
  · exact Finset.mem_union_right _ (List.mem_toFinset.2 (List.mem_map.2 ⟨e, he, hs⟩))

theorem fccUniv_card_lt (nodes : List GraphNode) (edges : List GraphEdge)
    (S : Finset String) :
    ((fccUniv nodes edges) \ S).card < fccFuel nodes edges := by
  have h1 : ((fccUniv nodes edges) \ S).card ≤ (fccUniv nodes edges).card :=
    Finset.card_le_card (Finset.sdiff_subset)
  have h2 := Finset.card_union_le
    ((nodeIds nodes).toFinset ∪ (edges.map (fun e => e.target)).toFinset)
    ((edges.map (fun e => e.source)).toFinset)
  have h3 := Finset.card_union_le (nodeIds nodes).toFinset
    ((edges.map (fun e => e.target)).toFinset)
  have h4 : (nodeIds nodes).toFinset.card ≤ (nodeIds nodes).length :=
    List.toFinset_card_le _
  have h5 : ((edges.map (fun e => e.target)).toFinset).card ≤
      (edges.map (fun e => e.target)).length := List.toFinset_card_le _
  have h6 : ((edges.map (fun e => e.source)).toFinset).card ≤
      (edges.map (fun e => e.source)).length := List.toFinset_card_le _
  have h7 : (nodeIds nodes).length = nodes.length := List.length_map _ _
  have h8 : (edges.map (fun e => e.target)).length = edges.length := List.length_map _ _
  have h9 : (edges.map (fun e => e.source)).length = edges.length := List.length_map _ _
  unfold fccFuel
  unfold fccUniv at h1 ⊢
  omega

theorem fccDfs_visited {adj : String → List String} {nmap : String → Option GraphNode}
    (fuel : Nat) {v : String} {st : FccState} (h : v ∈ st.visited) :
    fccDfs adj nmap fuel v st = st := by
  cases fuel with
  | zero => rfl
  | succ fuel => rw [fccDfs_succ, if_pos h]

/-- The shape of one `dfs` call of `findConnectedComponents`: it visits a
list `L` of new ids (the start id first), all previously unvisited and
pairwise distinct, appends the nodes they resolve to — in discovery order —
to the component, and every new id is the start or some id's neighbor. -/
theorem fcc_basic (adj : String → List String) (nmap : String → Option GraphNode) :
    ∀ (fuel : Nat) (u : String) (st : FccState),
      ∃ L : List String,
        (fccDfs adj nmap fuel u st).visited = st.visited ∪ L.toFinset ∧
        L.Nodup ∧
        (∀ x ∈ L, x ∉ st.visited) ∧
        (fccDfs adj nmap fuel u st).comp = st.comp ++ L.filterMap nmap ∧
        (∀ x ∈ L, x = u ∨ ∃ y, x ∈ adj y) ∧
        (u ∉ st.visited → fuel ≠ 0 → ∃ Lt, L = u :: Lt) := by
  intro fuel
  induction fuel with
  | zero =>
    intro u st
    refine ⟨[], by simp [fccDfs], List.nodup_nil, by simp, by simp [fccDfs], by simp, ?_⟩
    intro _ h0
    exact absurd rfl h0
  | succ fuel ih =>
    intro u st
    by_cases hu : u ∈ st.visited
    · rw [fccDfs_visited (fuel + 1) hu]
      exact ⟨[], by simp, List.nodup_nil, by simp, by simp, by simp,
        fun h _ => absurd hu h⟩
    · have hlist : ∀ (vs : List String) (st' : FccState),
          ∃ L : List String,
            (fccDfsList adj nmap fuel vs st').visited = st'.visited ∪ L.toFinset ∧
            L.Nodup ∧
            (∀ x ∈ L, x ∉ st'.visited) ∧
            (fccDfsList adj nmap fuel vs st').comp = st'.comp ++ L.filterMap nmap ∧
            (∀ x ∈ L, x ∈ vs ∨ ∃ y, x ∈ adj y) := by
        intro vs
        induction vs with
        | nil =>
          intro st'
          exact ⟨[], by simp [fccDfsList], List.nodup_nil, by simp,
            by simp [fccDfsList], by simp⟩
        | cons v vs ihl =>
          intro st'
          have hstep : fccDfsList adj nmap fuel (v :: vs) st' =
              fccDfsList adj nmap fuel vs (fccDfs adj nmap fuel v st') := rfl
          obtain ⟨L1, h1v, h1nd, h1f, h1c, h1p, _⟩ := ih v st'
          obtain ⟨L2, h2v, h2nd, h2f, h2c, h2p⟩ := ihl (fccDfs adj nmap fuel v st')
          refine ⟨L1 ++ L2, ?_, ?_, ?_, ?_, ?_⟩
          · rw [hstep, h2v, h1v, List.toFinset_append, Finset.union_assoc]
          · rw [List.nodup_append]
            refine ⟨h1nd, h2nd, ?_⟩
            intro x hx1 hx2
            have := h2f x hx2
            rw [h1v] at this
            exact this (Finset.mem_union_right _ (List.mem_toFinset.2 hx1))
          · intro x hx
            rcases List.mem_append.1 hx with hx1 | hx1
            · exact h1f x hx1
            · intro hmem
              have := h2f x hx1
              rw [h1v] at this
              exact this (Finset.mem_union_left _ hmem)
          · rw [hstep, h2c, h1c, List.filterMap_append, List.append_assoc]
          · intro x hx
            rcases List.mem_append.1 hx with hx1 | hx1
            · rcases h1p x hx1 with h | h
              · exact Or.inl (h ▸ List.mem_cons_self v vs)
              · exact Or.inr h
            · rcases h2p x hx1 with h | h
              · exact Or.inl (List.mem_cons_of_mem v h)
              · exact Or.inr h
      rw [fccDfs_succ, if_neg hu]
      obtain ⟨L2, h2v, h2nd, h2f, h2c, h2p⟩ :=
        hlist (adj u) ⟨insert u st.visited, st.comp ++ (nmap u).toList⟩
      refine ⟨u :: L2, ?_, ?_, ?_, ?_, ?_, ?_⟩
      · rw [h2v]
        show insert u st.visited ∪ L2.toFinset = st.visited ∪ (u :: L2).toFinset
        rw [List.toFinset_cons]
        ext y
        simp only [Finset.mem_union, Finset.mem_insert]
        tauto
      · rw [List.nodup_cons]
        refine ⟨?_, h2nd⟩
        intro hmem
        exact h2f u hmem (Finset.mem_insert_self u _)
      · intro x hx
        rcases List.mem_cons.1 hx with rfl | hx2
        · exact hu
        · intro hmem
          exact h2f x hx2 (Finset.mem_insert_of_mem hmem)
      · rw [h2c]
        show (st.comp ++ (nmap u).toList) ++ L2.filterMap nmap =
          st.comp ++ (u :: L2).filterMap nmap
        rw [List.append_assoc]
        congr 1
        rcases hnu : nmap u with _ | n
        · rw [List.filterMap_cons_none hnu]
          rfl
        · rw [List.filterMap_cons_some hnu]
          rfl
      · intro x hx
        rcases List.mem_cons.1 hx with rfl | hx2
        · exact Or.inl rfl
        · rcases h2p x hx2 with h | h
          · exact Or.inr ⟨u, h⟩
          · exact Or.inr h
      · intro _ _
        exact ⟨L2, rfl⟩

/-- Closure up to a pending work list: every neighbor of a visited id is
visited or still pending. -/
def PendingClosed (adj : String → List String) (S : Finset String) (P : List String) : Prop :=
  ∀ x ∈ S, ∀ w ∈ adj x, w ∈ S ∨ w ∈ P

/-- With enough fuel the DFS of `findConnectedComponents` discharges its own
work completely: starting anywhere with the visited set closed up to a
pending list leaves a visited set that is still closed up to that list, grew
monotonically, and contains the start. -/
theorem fcc_closed {adj : String → List String} (nmap : String → Option GraphNode)
    {U : Finset String} (hadjU : ∀ x y, y ∈ adj x → y ∈ U) :
    ∀ (fuel : Nat) (u : String) (st : FccState) (P : List String), u ∈ U →
      (U \ st.visited).card < fuel →
      PendingClosed adj st.visited P →
      st.visited ⊆ (fccDfs adj nmap fuel u st).visited ∧
      u ∈ (fccDfs adj nmap fuel u st).visited ∧
      PendingClosed adj (fccDfs adj nmap fuel u st).visited P := by
  intro fuel
  induction fuel with
  | zero =>
    intro u st P _ hcard _
    exact absurd hcard (Nat.not_lt_zero _)
  | succ fuel ih =>
    intro u st P hU hcard hpc
    by_cases hu : u ∈ st.visited
    · rw [fccDfs_visited _ hu]
      exact ⟨subset_rfl, hu, hpc⟩
    · rw [fccDfs_succ, if_neg hu]
      set st1 : FccState := ⟨insert u st.visited, st.comp ++ (nmap u).toList⟩ with hst1
      have hcard1 : (U \ st1.visited).card < fuel := by
        have hsub : U \ st1.visited ⊆ U \ st.visited := by
          intro y hy
          rw [Finset.mem_sdiff] at hy ⊢
          exact ⟨hy.1, fun h => hy.2 (Finset.mem_insert_of_mem h)⟩
        have hne : u ∈ U \ st.visited := Finset.mem_sdiff.2 ⟨hU, hu⟩
        have hnotin : u ∉ U \ st1.visited := by
          rw [Finset.mem_sdiff]
          intro ⟨_, h2⟩
          exact h2 (Finset.mem_insert_self u _)
        have hssub : U \ st1.visited ⊂ U \ st.visited :=
          Finset.ssubset_iff_of_subset hsub |>.2 ⟨u, hne, hnotin⟩
        have := Finset.card_lt_card hssub
        omega
      have hlist : ∀ (vs : List String) (st' : FccState) (Q : List String),
          (∀ v ∈ vs, v ∈ U) → (U \ st'.visited).card < fuel →
          PendingClosed adj st'.visited (vs ++ Q) →
          st'.visited ⊆ (fccDfsList adj nmap fuel vs st').visited ∧
          (∀ v ∈ vs, v ∈ (fccDfsList adj nmap fuel vs st').visited) ∧
          PendingClosed adj (fccDfsList adj nmap fuel vs st').visited Q := by
        intro vs
        induction vs with
        | nil =>
          intro st' Q _ _ hpc'
          exact ⟨subset_rfl, by simp, hpc'⟩
        | cons v vs ihl =>
          intro st' Q hvsU hcard' hpc'
          have hstep : fccDfsList adj nmap fuel (v :: vs) st' =
              fccDfsList adj nmap fuel vs (fccDfs adj nmap fuel v st') := rfl
          rw [hstep]
          have hpcv : PendingClosed adj st'.visited (v :: (vs ++ Q)) := hpc'
          obtain ⟨hmono, hvmem, hpend⟩ :=
            ih v st' (v :: (vs ++ Q)) (hvsU v (List.mem_cons_self v vs)) hcard' hpcv
          have hpend2 : PendingClosed adj (fccDfs adj nmap fuel v st').visited (vs ++ Q) := by
            intro x hx w hw
            rcases hpend x hx w hw with h | h
            · exact Or.inl h
            · rcases List.mem_cons.1 h with rfl | h2
              · exact Or.inl hvmem
              · exact Or.inr h2
          have hcard2 : (U \ (fccDfs adj nmap fuel v st').visited).card < fuel := by
            have hsub : U \ (fccDfs adj nmap fuel v st').visited ⊆ U \ st'.visited := by
              intro y hy
              rw [Finset.mem_sdiff] at hy ⊢
              exact ⟨hy.1, fun h => hy.2 (hmono h)⟩
            have := Finset.card_le_card hsub
            omega
          obtain ⟨hmono2, hvs2, hpend3⟩ := ihl (fccDfs adj nmap fuel v st') Q
            (fun w hw => hvsU w (List.mem_cons_of_mem v hw)) hcard2 hpend2
          refine ⟨hmono.trans hmono2, ?_, hpend3⟩
          intro w hw
          rcases List.mem_cons.1 hw with rfl | hw2
          · exact hmono2 hvmem
          · exact hvs2 w hw2
      have hpc1 : PendingClosed adj st1.visited (adj u ++ P) := by
        intro x hx w hw
        rcases Finset.mem_insert.1 hx with rfl | hx2
        · exact Or.inr (List.mem_append.2 (Or.inl hw))
        · rcases hpc x hx2 w hw with h | h
          · exact Or.inl (Finset.mem_insert_of_mem h)
          · exact Or.inr (List.mem_append.2 (Or.inr h))
      obtain ⟨hmono, _, hpend⟩ :=
        hlist (adj u) st1 P (fun v hv => hadjU u v hv) hcard1 hpc1
      refine ⟨?_, ?_, hpend⟩
      · exact (Finset.subset_insert u st.visited).trans hmono
      · exact hmono (Finset.mem_insert_self u _)

theorem filter_or_perm {α : Type} (p q : α → Bool)
    (hdisj : ∀ a, ¬(p a = true ∧ q a = true)) :
    ∀ l : List α, (l.filter (fun a => p a || q a)).Perm (l.filter p ++ l.filter q) := by
  intro l
  induction l with
  | nil => exact List.Perm.refl _
  | cons a tl ih =>
    rcases hp : p a with _ | _
    · rcases hq : q a with _ | _
      · rw [List.filter_cons_of_neg (by simp [hp, hq]), List.filter_cons_of_neg (by simp [hp]),
          List.filter_cons_of_neg (by simp [hq])]
        exact ih
      · rw [List.filter_cons_of_pos (by simp [hq]), List.filter_cons_of_neg (by simp [hp]),
          List.filter_cons_of_pos (by simp [hq])]
        exact (ih.cons a).trans List.perm_middle.symm
    · rcases hq : q a with _ | _
      · rw [List.filter_cons_of_pos (by simp [hp]), List.filter_cons_of_pos (by simp [hp]),
          List.filter_cons_of_neg (by simp [hq])]
        exact ih.cons a
      · exact absurd ⟨hp, hq⟩ (hdisj a)

theorem find?_append {α : Type} (p : α → Bool) :
    ∀ l1 l2 : List α, (l1 ++ l2).find? p =
      match l1.find? p with
      | some a => some a
      | none => l2.find? p := by
  intro l1 l2
  induction l1 with
  | nil => rfl
  | cons a tl ih =>
    rcases hp : p a with _ | _
    · rw [List.cons_append, List.find?_cons_of_neg _ (by simp [hp]),
        List.find?_cons_of_neg _ (by simp [hp]), ih]
    · rw [List.cons_append, List.find?_cons_of_pos _ hp, List.find?_cons_of_pos _ hp]

theorem filter_id_eq {nodes : List GraphNode} (hnd : (nodeIds nodes).Nodup) (x : String) :
    nodes.filter (fun m => decide (m.id = x)) = (nodeMapGet nodes x).toList := by
  induction nodes with
  | nil => rfl
  | cons a tl ih =>
    have hnd2 : (nodeIds tl).Nodup := (List.nodup_cons.1 hnd).2
    have hanot : a.id ∉ nodeIds tl := (List.nodup_cons.1 hnd).1
    by_cases ha : a.id = x
    · rw [List.filter_cons_of_pos (by simp [ha])]
      have htl : tl.filter (fun m => decide (m.id = x)) = [] := by
        rw [List.filter_eq_nil]
        intro m hm
        simp only [decide_eq_true_eq]
        intro hmx
        exact hanot (ha ▸ hmx ▸ List.mem_map.2 ⟨m, hm, rfl⟩)
      rw [htl]
      unfold nodeMapGet
      rw [List.reverse_cons, find?_append]
      have hnone : tl.reverse.find? (fun n => n.id == x) = none := by
        rw [List.find?_eq_none]
        intro m hm
        have hne : ¬ (m.id = x) := fun hmx =>
          hanot (ha ▸ hmx ▸ List.mem_map.2 ⟨m, List.mem_reverse.1 hm, rfl⟩)
        simpa using hne
      rw [hnone]
      show _ = (List.find? _ [a]).toList
      rw [List.find?_cons_of_pos _ (by simpa using ha)]
      rfl
    · rw [List.filter_cons_of_neg (by simp [ha])]
      rw [ih hnd2]
      unfold nodeMapGet
      rw [List.reverse_cons, find?_append]
      rcases hfind : tl.reverse.find? (fun n => n.id == x) with _ | m
      · rw [hfind]
        show ([] : List GraphNode) = (List.find? (fun n => n.id == x) [a]).toList
        rw [List.find?_cons_of_neg _ (by simpa using ha)]
        rfl
      · rw [hfind]

theorem filterMap_nodeMapGet_perm {nodes : List GraphNode}
    (hnd : (nodeIds nodes).Nodup) :
    ∀ L : List String, L.Nodup →
      (L.filterMap (nodeMapGet nodes)).Perm
        (nodes.filter (fun m => decide (m.id ∈ L))) := by
  intro L
  induction L with
  | nil => simp
  | cons x Lt ih =>
    intro hLnd
    have hx : x ∉ Lt := (List.nodup_cons.1 hLnd).1
    have hnd2 : Lt.Nodup := (List.nodup_cons.1 hLnd).2
    have hsplit : (nodes.filter (fun m => decide (m.id ∈ x :: Lt))).Perm
        (nodes.filter (fun m => decide (m.id = x)) ++
          nodes.filter (fun m => decide (m.id ∈ Lt))) := by
      have hcong : nodes.filter (fun m => decide (m.id ∈ x :: Lt)) =
          nodes.filter (fun m => decide (m.id = x) || decide (m.id ∈ Lt)) := by
        apply List.filter_congr
        intro m _
        by_cases h1 : m.id = x <;> by_cases h2 : m.id ∈ Lt <;>
          simp [h1, h2, List.mem_cons]
      rw [hcong]
      apply filter_or_perm
      intro m hm
      rw [decide_eq_true_eq] at hm
      rw [decide_eq_true_eq] at hm
      exact hx (hm.1 ▸ hm.2)
    refine List.Perm.trans ?_ hsplit.symm
    have hhead : List.filterMap (nodeMapGet nodes) (x :: Lt) =
        (nodeMapGet nodes x).toList ++ Lt.filterMap (nodeMapGet nodes) := by
      rcases hn : nodeMapGet nodes x with _ | m
      · rw [List.filterMap_cons_none hn]
        rfl
      · rw [List.filterMap_cons_some hn]
        rfl
    rw [hhead, filter_id_eq hnd x]
    exact List.Perm.append (List.Perm.refl _) (ih hnd2)

theorem mem_nodeIds_filterMap {nodes : List GraphNode} {L : List String} {x : String} :
    x ∈ nodeIds (L.filterMap (nodeMapGet nodes)) ↔ x ∈ L ∧ x ∈ nodeIds nodes := by
  unfold nodeIds
  rw [List.mem_map]
  constructor
  · rintro ⟨m, hm, rfl⟩
    rcases List.mem_filterMap.1 hm with ⟨y, hy, hfind⟩
    obtain ⟨hmem, hid⟩ := nodeMapGet_mem hfind
    exact ⟨hid ▸ hy, List.mem_map.2 ⟨m, hmem, rfl⟩⟩
  · rintro ⟨hxL, hxN⟩
    have hs := nodeMapGet_isSome hxN
    rcases Option.isSome_iff_exists.1 hs with ⟨m, hm⟩
    obtain ⟨_, hid⟩ := nodeMapGet_mem hm
    exact ⟨m, List.mem_filterMap.2 ⟨x, hxL, hm⟩, hid⟩

theorem undirNeighbors_nil_of_isolated {nodes : List GraphNode} {edges : List GraphEdge}
    {u : String} (hiso : ∀ e ∈ edges, e.source ≠ u ∧ e.target ≠ u) :
    undirNeighbors nodes edges u = [] := by
  rw [List.eq_nil_iff_forall_not_mem]
  intro x hx
  obtain ⟨_, e, he, hor⟩ := mem_undirNeighbors.1 hx
  rcases hor with ⟨h1, _⟩ | ⟨h1, _⟩
  · exact (hiso e he).1 h1
  · exact (hiso e he).2 h1

theorem not_mem_undirNeighbors_of_isolated {nodes : List GraphNode}
    {edges : List GraphEdge} {u : String}
    (hiso : ∀ e ∈ edges, e.source ≠ u ∧ e.target ≠ u) :
    ∀ y, u ∉ undirNeighbors nodes edges y := by
  intro y hy
  obtain ⟨_, e, he, hor⟩ := mem_undirNeighbors.1 hy
  rcases hor with ⟨_, h2⟩ | ⟨_, h2⟩
  · exact (hiso e he).2 h2
  · exact (hiso e he).1 h2

/-- The loop invariant of `findConnectedComponents`: after processing the
prefix `pref` of the node array, `acc.1` is the visited set and `acc.2` the
components found so far. -/
structure FccInv (nodes : List GraphNode) (edges : List GraphEdge)
    (pref : List GraphNode) (acc : Finset String × List (List GraphNode)) : Prop where
  closed : ∀ x ∈ acc.1, ∀ w ∈ undirNeighbors nodes edges x, w ∈ acc.1
  support : ∀ x ∈ acc.1, x ∈ nodeIds pref ∨ ∃ y, x ∈ undirNeighbors nodes edges y
  perm : acc.2.join.Perm (nodes.filter (fun m => decide (m.id ∈ acc.1)))
  edgecl : ∀ c ∈ acc.2, ∀ a b, a ∈ nodeIds nodes → b ∈ nodeIds nodes →
    b ∈ undirNeighbors nodes edges a → (a ∈ nodeIds c ↔ b ∈ nodeIds c)
  heads : ∃ starts : List GraphNode, starts.Sublist pref ∧
    acc.2.map List.head? = starts.map some
  prefproc : ∀ m ∈ pref, m.id ∈ acc.1

theorem join_append_single {α : Type} (l : List (List α)) (c : List α) :
    (l ++ [c]).join = l.join ++ c := by
  induction l with
  | nil => simp
  | cons a tl ih =>
    show a ++ (tl ++ [c]).join = (a ++ tl.join) ++ c
    rw [ih, List.append_assoc]

set_option maxHeartbeats 1000000 in
theorem fccFold_inv {nodes : List GraphNode} {edges : List GraphEdge}
    (hnd : (nodeIds nodes).Nodup) :
    ∀ (rest pref : List GraphNode) (acc : Finset String × List (List GraphNode)),
      nodes = pref ++ rest → FccInv nodes edges pref acc →
      FccInv nodes edges (pref ++ rest) (rest.foldl (fccStep nodes edges) acc) ∧
      (∃ tail, (rest.foldl (fccStep nodes edges) acc).2 = acc.2 ++ tail) ∧
      (∀ m ∈ rest, (∀ e ∈ edges, e.source ≠ m.id ∧ e.target ≠ m.id) →
        m.id ∉ nodeIds pref → [m] ∈ (rest.foldl (fccStep nodes edges) acc).2) := by
  intro rest
  induction rest with
  | nil =>
    intro pref acc heq hinv
    rw [List.foldl_nil, List.append_nil]
    exact ⟨hinv, ⟨[], (List.append_nil _).symm⟩,
      fun m hm => absurd hm (List.not_mem_nil m)⟩
  | cons n rest ih =>
    intro pref acc heq hinv
    rw [List.foldl_cons]
    have hassoc : pref ++ n :: rest = (pref ++ [n]) ++ rest := by
      rw [List.append_assoc]
      rfl
    have heq' : nodes = (pref ++ [n]) ++ rest := by rw [heq, hassoc]
    have hnN : n ∈ nodes := by
      rw [heq]
      exact List.mem_append.2 (Or.inr (List.mem_cons_self n rest))
    have hnidN : n.id ∈ nodeIds nodes := List.mem_map.2 ⟨n, hnN, rfl⟩
    have hnodupids : (nodeIds pref ++ n.id :: nodeIds rest).Nodup := by
      have hids : nodeIds nodes = nodeIds pref ++ n.id :: nodeIds rest := by
        rw [heq]
        unfold nodeIds
        rw [List.map_append, List.map_cons]
      rw [← hids]
      exact hnd
    have hnid_rest : ∀ m ∈ rest, m.id ≠ n.id := by
      intro m hm hmn
      have h2 : (n.id :: nodeIds rest).Nodup := hnodupids.of_append_right
      have h3 : n.id ∉ nodeIds rest := (List.nodup_cons.1 h2).1
      exact h3 (hmn ▸ List.mem_map.2 ⟨m, hm, rfl⟩)
    have hprefnot : ∀ m ∈ rest, m.id ∉ nodeIds pref → m.id ∉ nodeIds (pref ++ [n]) := by
      intro m hm hmp hmem
      unfold nodeIds at hmem
      rw [List.map_append] at hmem
      rcases List.mem_append.1 hmem with h | h
      · exact hmp h
      · exact hnid_rest m hm (by simpa using h)
    by_cases hn : n.id ∈ acc.1
    · -- already visited: the iteration is a no-op
      have hstep : fccStep nodes edges acc n = acc := by
        unfold fccStep
        rw [if_pos hn]
      rw [hstep]
      have hinv' : FccInv nodes edges (pref ++ [n]) acc := by
        refine ⟨hinv.closed, ?_, hinv.perm, hinv.edgecl, ?_, ?_⟩
        · intro x hx
          rcases hinv.support x hx with h | h
          · refine Or.inl ?_
            unfold nodeIds at h ⊢
            rw [List.map_append]
            exact List.mem_append.2 (Or.inl h)
          · exact Or.inr h
        · obtain ⟨starts, hsub, hmap⟩ := hinv.heads
          exact ⟨starts, hsub.trans (List.sublist_append_left pref [n]), hmap⟩
        · intro m hm
          rcases List.mem_append.1 hm with h | h
          · exact hinv.prefproc m h
          · rw [List.mem_singleton.1 h]
            exact hn
      obtain ⟨hinvF, htailF, hisoF⟩ := ih (pref ++ [n]) acc heq' hinv'
      rw [hassoc]
      refine ⟨hinvF, htailF, ?_⟩
      intro m hm hiso hmpref
      rcases List.mem_cons.1 hm with rfl | hm2
      · exfalso
        rcases hinv.support m.id hn with h | h
        · exact hmpref h
        · obtain ⟨y, hy⟩ := h
          exact not_mem_undirNeighbors_of_isolated hiso y hy
      · exact hisoF m hm2 hiso (hprefnot m hm2 hmpref)
    · -- a new component is discovered here
      set st := fccDfs (undirNeighbors nodes edges) (nodeMapGet nodes)
        (fccFuel nodes edges) n.id ⟨acc.1, []⟩ with hstdef
      obtain ⟨L, hLv, hLnd, hLf, hLc, hLp, hLhead⟩ :=
        fcc_basic (undirNeighbors nodes edges) (nodeMapGet nodes)
          (fccFuel nodes edges) n.id ⟨acc.1, []⟩
      have hfne : fccFuel nodes edges ≠ 0 := by
        unfold fccFuel
        omega
      obtain ⟨Lt, hLt⟩ := hLhead hn hfne
      have hsome : nodeMapGet nodes n.id = some n := nodeMapGet_self hnd hnN
      have hcomp : st.comp = n :: Lt.filterMap (nodeMapGet nodes) := by
        rw [hstdef, hLc, hLt]
        show [] ++ _ = _
        rw [List.nil_append, List.filterMap_cons_some hsome]
      have hcompne : st.comp.isEmpty = false := by
        rw [hcomp]
        rfl
      have hstep : fccStep nodes edges acc n = (st.visited, acc.2 ++ [st.comp]) := by
        unfold fccStep
        rw [if_neg hn]
        show (if st.comp.isEmpty then (st.visited, acc.2)
          else (st.visited, acc.2 ++ [st.comp])) = _
        rw [if_neg (by simp [hcompne])]
      rw [hstep]
      obtain ⟨hmono0, hnvis, hpend⟩ :=
        fcc_closed (nodeMapGet nodes)
          (fun x y h => undirNeighbors_sub_univ x y h)
          (fccFuel nodes edges) n.id ⟨acc.1, []⟩ []
          (Finset.mem_union_left _ (Finset.mem_union_left _ (List.mem_toFinset.2 hnidN)))
          (fccUniv_card_lt nodes edges acc.1)
          (fun x hx w hw => Or.inl (hinv.closed x hx w hw))
      have hclosed_st : ∀ x ∈ st.visited, ∀ w ∈ undirNeighbors nodes edges x,
          w ∈ st.visited := by
        intro x hx w hw
        rw [hstdef] at hx ⊢
        rcases hpend x hx w hw with h | h
        · exact h
        · exact absurd h (List.not_mem_nil w)
      have hmono : acc.1 ⊆ st.visited := by
        rw [hstdef]
        exact hmono0
      have hnvis' : n.id ∈ st.visited := by
        rw [hstdef]
        exact hnvis
      have hLfresh : ∀ x ∈ L, x ∉ acc.1 := hLf
      have hstvis : st.visited = acc.1 ∪ L.toFinset := by
        rw [hstdef]
        exact hLv
      have hstcomp : st.comp = L.filterMap (nodeMapGet nodes) := by
        rw [hstdef, hLc]
        rfl
      have hkey : ∀ a b, a ∈ nodeIds nodes → b ∈ nodeIds nodes →
          b ∈ undirNeighbors nodes edges a → a ∈ L → b ∈ L := by
        intro a b haN hbN hab haL
        have haV : a ∈ st.visited := by
          rw [hstvis]
          exact Finset.mem_union_right _ (List.mem_toFinset.2 haL)
        have hbV : b ∈ st.visited := hclosed_st a haV b hab
        have hbnotacc : b ∉ acc.1 := by
          intro hbacc
          have haacc : a ∈ acc.1 :=
            hinv.closed b hbacc a ((undirNeighbors_symm haN hbN).1 hab)
          exact hLfresh a haL haacc
        rw [hstvis] at hbV
        rcases Finset.mem_union.1 hbV with h | h
        · exact absurd h hbnotacc
        · exact List.mem_toFinset.1 h
      have hinv' : FccInv nodes edges (pref ++ [n]) (st.visited, acc.2 ++ [st.comp]) := by
        refine ⟨?_, ?_, ?_, ?_, ?_, ?_⟩
        · exact hclosed_st
        · intro x hx
          rw [hstvis] at hx
          rcases Finset.mem_union.1 hx with h | h
          · rcases hinv.support x h with h2 | h2
            · refine Or.inl ?_
              unfold nodeIds at h2 ⊢
              rw [List.map_append]
              exact List.mem_append.2 (Or.inl h2)
            · exact Or.inr h2
          · rcases hLp x (List.mem_toFinset.1 h) with h2 | h2
            · refine Or.inl ?_
              unfold nodeIds
              rw [List.map_append]
              exact List.mem_append.2 (Or.inr (by simp [h2]))
            · exact Or.inr h2
        · show ((acc.2 ++ [st.comp]).join).Perm _
          rw [join_append_single]
          have hsplit : (nodes.filter (fun m => decide (m.id ∈ st.visited))).Perm
              (nodes.filter (fun m => decide (m.id ∈ acc.1)) ++
                nodes.filter (fun m => decide (m.id ∈ L))) := by
            have hcong : nodes.filter (fun m => decide (m.id ∈ st.visited)) =
                nodes.filter (fun m =>
                  decide (m.id ∈ acc.1) || decide (m.id ∈ L)) := by
              apply List.filter_congr
              intro m _
              by_cases h1 : m.id ∈ acc.1 <;> by_cases h2 : m.id ∈ L <;>
                simp [hstvis, h1, h2]
            rw [hcong]
            apply filter_or_perm
            intro m hm
            rw [decide_eq_true_eq] at hm
            rw [decide_eq_true_eq] at hm
            exact hLfresh m.id hm.2 hm.1
          refine List.Perm.trans ?_ hsplit.symm
          refine List.Perm.append hinv.perm ?_
          rw [hstcomp]
          exact filterMap_nodeMapGet_perm hnd L hLnd
        · intro c hc a b haN hbN hab
          rcases List.mem_append.1 hc with h | h
          · exact hinv.edgecl c h a b haN hbN hab
          · rw [List.mem_singleton.1 h, hstcomp]
            rw [mem_nodeIds_filterMap, mem_nodeIds_filterMap]
            constructor
            · rintro ⟨haL, _⟩
              exact ⟨hkey a b haN hbN hab haL, hbN⟩
            · rintro ⟨hbL, _⟩
              exact ⟨hkey b a hbN haN ((undirNeighbors_symm haN hbN).1 hab) hbL, haN⟩
        · obtain ⟨starts, hsub, hmap⟩ := hinv.heads
          refine ⟨starts ++ [n], List.Sublist.append hsub (List.Sublist.refl [n]), ?_⟩
          show (acc.2 ++ [st.comp]).map List.head? = _
          rw [List.map_append, List.map_append, hmap]
          congr 1
          rw [hcomp]
          rfl
        · intro m hm
          rcases List.mem_append.1 hm with h | h
          · exact hmono (hinv.prefproc m h)
          · rw [List.mem_singleton.1 h]
            exact hnvis'
      obtain ⟨hinvF, ⟨tail, htail⟩, hisoF⟩ :=
        ih (pref ++ [n]) (st.visited, acc.2 ++ [st.comp]) heq' hinv'
      rw [hassoc]
      refine ⟨hinvF, ⟨[st.comp] ++ tail, by rw [htail, List.append_assoc]⟩, ?_⟩
      intro m hm hiso hmpref
      rcases List.mem_cons.1 hm with rfl | hm2
      · -- the start itself is isolated: its component is exactly the singleton
        have hmem : st.comp ∈ (st.visited, acc.2 ++ [st.comp]).2 :=
          List.mem_append.2 (Or.inr (List.mem_singleton.2 rfl))
        have hadjnil : undirNeighbors nodes edges m.id = [] :=
          undirNeighbors_nil_of_isolated hiso
        have hstiso : st = ⟨insert m.id acc.1, [m]⟩ := by
          rw [hstdef]
          have hfu : fccFuel nodes edges = (nodes.length + 2 * edges.length) + 1 := rfl
          rw [hfu, fccDfs_succ, if_neg hn, hadjnil]
          show (⟨insert m.id acc.1, [] ++ (nodeMapGet nodes m.id).toList⟩ : FccState) = _
          rw [hsome]
          rfl
        have hcompiso : st.comp = [m] := by rw [hstiso]
        rw [htail]
        exact List.mem_append.2 (Or.inl (hcompiso ▸ hmem))
      · exact hisoF m hm2 hiso (hprefnot m hm2 hmpref)

theorem count_filter' {α : Type} [BEq α] [LawfulBEq α] (p : α → Bool) (l : List α)
    (a : α) : (l.filter p).count a = if p a = true then l.count a else 0 := by
  by_cases hp : p a = true
  · rw [if_pos hp]
    exact List.count_filter hp
  · rw [if_neg hp]
    rw [List.count_eq_zero]
    intro hmem
    exact hp (List.of_mem_filter hmem)

theorem countP_congr' {α : Type} (p q : α → Bool) :
    ∀ l : List α, (∀ a ∈ l, p a = q a) → l.countP p = l.countP q := by
  intro l
  induction l with
  | nil => intro _; rfl
  | cons a tl ih =>
    intro h
    rw [List.countP_cons, List.countP_cons, h a (List.mem_cons_self a tl),
      ih (fun b hb => h b (List.mem_cons_of_mem a hb))]

theorem countP_mem_le_count_join {α : Type} [DecidableEq α] (m : α) :
    ∀ L : List (List α), L.countP (fun c => decide (m ∈ c)) ≤ L.join.count m := by
  intro L
  induction L with
  | nil => simp
  | cons c tl ih =>
    rw [List.countP_cons]
    show _ ≤ (c ++ tl.join).count m
    rw [List.count_append]
    by_cases hm : m ∈ c
    · rw [if_pos (by simpa using hm)]
      have h1 : 0 < c.count m := List.count_pos_iff_mem.2 hm
      omega
    · rw [if_neg (by simpa using hm)]
      omega

theorem count_join_componentEdges (edges : List GraphEdge) (e : GraphEdge) :
    ∀ comps : List (List GraphNode),
      ((comps.map (fun c => componentEdges c edges)).join).count e =
        (comps.countP (fun c =>
          decide (e.source ∈ nodeIds c) && decide (e.target ∈ nodeIds c))) *
          edges.count e := by
  intro comps
  induction comps with
  | nil => simp
  | cons c tl ih =>
    rw [List.map_cons]
    show (componentEdges c edges ++ (tl.map (fun c => componentEdges c edges)).join).count e = _
    rw [List.count_append, ih, List.countP_cons]
    unfold componentEdges
    rw [count_filter']
    by_cases hp : (decide (e.source ∈ nodeIds c) && decide (e.target ∈ nodeIds c)) = true
    · rw [if_pos hp, if_pos hp]
      ring
    · rw [if_neg hp, if_neg hp]
      ring

set_option maxHeartbeats 1000000 in
/-- C4: under the data model's invariants — unique node ids, and (for the
edge clause) edge endpoints that exist in the node set — the components
returned by `findConnectedComponents` contain every input node exactly once
(their concatenation is a permutation of the node array, so no node is in
two components), the per-component edge lists of `generateComponentCode`
together contain every input edge exactly once, the components are ordered
by the position in the node array of the first node of each (the list of
first nodes is a sublist of the node array), and an isolated node forms the
singleton component `[n]`. -/
theorem C4_components_partition (nodes : List GraphNode) (edges : List GraphEdge)
    (hnd : (nodeIds nodes).Nodup)
    (he : ∀ e ∈ edges, e.source ∈ nodeIds nodes ∧ e.target ∈ nodeIds nodes) :
    ((findConnectedComponents nodes edges).join).Perm nodes ∧
    (((findConnectedComponents nodes edges).map
        (fun c => componentEdges c edges)).join).Perm edges ∧
    (∃ starts : List GraphNode, starts.Sublist nodes ∧
      (findConnectedComponents nodes edges).map List.head? = starts.map some) ∧
    (∀ n ∈ nodes, (∀ e ∈ edges, e.source ≠ n.id ∧ e.target ≠ n.id) →
      [n] ∈ findConnectedComponents nodes edges) := by
  by_cases hnodes : nodes = []
  · subst hnodes
    have hedges : edges = [] := by
      rw [List.eq_nil_iff_forall_not_mem]
      intro e hee
      exact absurd (he e hee).1 (List.not_mem_nil _)
    subst hedges
    exact ⟨List.Perm.refl _, List.Perm.refl _, ⟨[], List.nil_sublist [], rfl⟩,
      fun n hn => absurd hn (List.not_mem_nil n)⟩
  · have hne' : nodes.isEmpty = false := by
      rcases nodes with _ | ⟨a, l⟩
      · exact absurd rfl hnodes
      · rfl
    have hcomps : findConnectedComponents nodes edges =
        (nodes.foldl (fccStep nodes edges) ((∅ : Finset String),
          ([] : List (List GraphNode)))).2 := by
      unfold findConnectedComponents
      rw [if_neg (by simp [hne'])]
    have hinv0 : FccInv nodes edges [] ((∅ : Finset String),
        ([] : List (List GraphNode))) := by
      refine ⟨?_, ?_, ?_, ?_, ⟨[], List.nil_sublist [], rfl⟩, ?_⟩
      · intro x hx
        exact absurd hx (Finset.not_mem_empty x)
      · intro x hx
        exact absurd hx (Finset.not_mem_empty x)
      · have hfil : nodes.filter (fun m => decide (m.id ∈ (∅ : Finset String))) = [] := by
          rw [List.filter_eq_nil]
          intro m _
          simp
        rw [hfil]
        exact List.Perm.refl _
      · intro c hc
        exact absurd hc (List.not_mem_nil c)
      · intro m hm
        exact absurd hm (List.not_mem_nil m)
    obtain ⟨hinvF, _, hisoF⟩ := fccFold_inv hnd nodes [] ((∅ : Finset String),
      ([] : List (List GraphNode))) rfl hinv0
    have hall : ∀ m ∈ nodes, m.id ∈
        (nodes.foldl (fccStep nodes edges) ((∅ : Finset String),
          ([] : List (List GraphNode)))).1 :=
      fun m hm => hinvF.prefproc m (by simpa using hm)
    have hperm : ((findConnectedComponents nodes edges).join).Perm nodes := by
      rw [hcomps]
      have hfil : nodes.filter (fun m => decide (m.id ∈
          (nodes.foldl (fccStep nodes edges) ((∅ : Finset String),
            ([] : List (List GraphNode)))).1)) = nodes := by
        rw [List.filter_eq_self]
        intro m hm
        simpa using hall m hm
      have := hinvF.perm
      rw [hfil] at this
      exact this
    refine ⟨hperm, ?_, ?_, ?_⟩
    · -- every edge in exactly one component
      rw [hcomps]
      set comps := (nodes.foldl (fccStep nodes edges) ((∅ : Finset String),
        ([] : List (List GraphNode)))).2 with hcompsdef
      rw [List.perm_iff_count]
      intro e
      rw [count_join_componentEdges]
      by_cases hee : e ∈ edges
      · obtain ⟨hs, ht⟩ := he e hee
        have hadj : e.target ∈ undirNeighbors nodes edges e.source :=
          mem_undirNeighbors.2 ⟨hs, e, hee, Or.inl ⟨rfl, rfl⟩⟩
        rcases List.mem_map.1 hs with ⟨ms, hms, hmsid⟩
        haveI : DecidableEq GraphNode := Classical.decEq _
        have hstep1 : comps.countP (fun c =>
            decide (e.source ∈ nodeIds c) && decide (e.target ∈ nodeIds c)) =
            comps.countP (fun c => decide (ms ∈ c)) := by
          apply countP_congr'
          intro c hc
          have hiff := hinvF.edgecl c hc e.source e.target hs ht hadj
          have hmsiff : e.source ∈ nodeIds c ↔ ms ∈ c := by
            constructor
            · intro hsc
              rcases List.mem_map.1 hsc with ⟨x, hxc, hxid⟩
              have hxj : x ∈ comps.join := List.mem_join.2 ⟨c, hc, hxc⟩
              have hxn : x ∈ nodes := (hperm.mem_iff).1 (by rw [hcomps]; exact hxj)
              have : x = ms := nodup_id_inj hnd hxn hms (by rw [hxid, hmsid])
              exact this ▸ hxc
            · intro hmc
              exact List.mem_map.2 ⟨ms, hmc, hmsid⟩
          by_cases h1 : e.source ∈ nodeIds c
          · have h2 : e.target ∈ nodeIds c := hiff.1 h1
            have h3 : ms ∈ c := hmsiff.1 h1
            simp [h1, h2, h3]
          · have h3 : ms ∉ c := fun hmc => h1 (hmsiff.2 hmc)
            simp [h1, h3]
        rw [hstep1]
        have hnodesnd : nodes.Nodup := List.Nodup.of_map _ hnd
        have hmsjoin : ms ∈ comps.join := by
          have : ms ∈ (findConnectedComponents nodes edges).join := by
            exact (hperm.mem_iff).2 hms
          rw [hcomps] at this
          exact this
        have hge : 1 ≤ comps.countP (fun c => decide (ms ∈ c)) := by
          obtain ⟨c, hc, hmc⟩ := List.mem_join.1 hmsjoin
          exact List.countP_pos.2 ⟨c, hc, by simpa using hmc⟩
        have hcnt1 : comps.join.count ms = 1 := by
          have hpc : ((findConnectedComponents nodes edges).join).count ms =
              nodes.count ms := List.Perm.count_eq hperm ms
          rw [hcomps] at hpc
          have hle : nodes.count ms ≤ 1 := List.nodup_iff_count_le_one.1 hnodesnd ms
          have hpos : 0 < comps.join.count ms := List.count_pos_iff_mem.2 hmsjoin
          omega
        have hle : comps.countP (fun c => decide (ms ∈ c)) ≤ 1 := by
          have := countP_mem_le_count_join ms comps
          omega
        have h1 : comps.countP (fun c => decide (ms ∈ c)) = 1 := by omega
        rw [h1, Nat.one_mul]
      · have h0 : edges.count e = 0 := by
          rw [List.count_eq_zero]
          exact hee
        rw [h0, Nat.mul_zero]
    · obtain ⟨starts, h1, h2⟩ := hinvF.heads
      refine ⟨starts, by simpa using h1, ?_⟩
      rw [hcomps]
      exact h2
    · intro n hn hiso
      rw [hcomps]
      exact hisoF n (by simpa using hn) hiso (List.not_mem_nil _)

/-- Witness for C4: the chain `A → B → C` satisfies both data-model
hypotheses, and the theorem yields the node partition there. -/
theorem C4_witness :
    ((findConnectedComponents [cycA, cycB, cycC] [edgeAB, edgeBC]).join).Perm
      [cycA, cycB, cycC] :=
  (C4_components_partition [cycA, cycB, cycC] [edgeAB, edgeBC]
    (by decide) (by decide)).1

end Tlang
